import Mathlib

/-!
Verification of the orchestration core of the `claude-code-aad` repository.

The Rust source is shallowly embedded: `HashMap` becomes an association
list (its iteration order, which is arbitrary in Rust, becomes the list
order of the model; every property proved below is insensitive to that
order), `HashSet` becomes a duplicate-free list, `Instant` becomes a `Nat`
timestamp passed explicitly, and recursion that Rust expresses with loops
is expressed with explicit fuel, with lemmas showing the fuel chosen in
the top-level definitions is never exhausted on the relevant inputs.
-/

namespace AAD

abbrev SpecId := String

/-- First-match association list lookup; models `HashMap::get`. -/
def alookup {α β : Type} [DecidableEq α] : List (α × β) → α → Option β
  | [], _ => none
  | (k, v) :: rest, a => if k = a then some v else alookup rest a

/-- Replace the value stored at a key, keeping its position;
models an in-place `HashMap` update of an existing entry. -/
def aupdate {α β : Type} [DecidableEq α] : List (α × β) → α → β → List (α × β)
  | [], _, _ => []
  | (k, v) :: rest, a, b =>
    if k = a then (k, b) :: rest else (k, v) :: aupdate rest a b

/-- `HashMap::insert`: replace the entry if the key is present, otherwise
add a new entry. -/
def ains {α β : Type} [DecidableEq α] (m : List (α × β)) (k : α) (v : β) :
    List (α × β) :=
  match alookup m k with
  | some _ => aupdate m k v
  | none => m ++ [(k, v)]

/-- `HashMap::remove`: drop the (first) entry with the given key. -/
def aerase {α β : Type} [DecidableEq α] : List (α × β) → α → List (α × β)
  | [], _ => []
  | (k, v) :: rest, a => if k = a then rest else (k, v) :: aerase rest a

def akeys {α β : Type} (m : List (α × β)) : List α := m.map Prod.fst

/-- Insert into a `HashSet` model (no duplicates). -/
def insertSet (a : SpecId) (l : List SpecId) : List SpecId :=
  if a ∈ l then l else a :: l

/-- The error variants of `ApplicationError` relevant to the embedded core
(`src/crates/application/src/error.rs`). -/
inductive ApplicationError
  | CyclicDependency (cycle : List SpecId)
  | SessionAlreadyExists (id : String)
  | Validation (msg : String)
  | WorkflowTransition (msg : String)
deriving DecidableEq

/-- `DependencyGraph` from
`src/crates/application/src/orchestration/dependency_graph.rs`: a map from
each Spec to the list of Specs it depends on. -/
structure DependencyGraph where
  dependencies : List (SpecId × List SpecId)
deriving DecidableEq

namespace DependencyGraph

def new : DependencyGraph := ⟨[]⟩

/-- The prerequisite list recorded for `a` (empty when `a` is not a key). -/
def depsOf (g : DependencyGraph) (a : SpecId) : List SpecId :=
  (alookup g.dependencies a).getD []

/-- The node keys of the graph. -/
def gkeys (g : DependencyGraph) : List SpecId := akeys g.dependencies

/-- `dependencies.entry(a).or_default().push(b)`. -/
def entryPush (m : List (SpecId × List SpecId)) (a b : SpecId) :
    List (SpecId × List SpecId) :=
  match alookup m a with
  | some l => aupdate m a (l ++ [b])
  | none => m ++ [(a, [b])]

/-- `dependencies.entry(b).or_default()`: make sure `b` is a key. -/
def ensureKey (m : List (SpecId × List SpecId)) (b : SpecId) :
    List (SpecId × List SpecId) :=
  match alookup m b with
  | some _ => m
  | none => m ++ [(b, [])]

/-- `deps.retain(|d| d != b)` on the entry of `a`, if present. -/
def retainNe (m : List (SpecId × List SpecId)) (a b : SpecId) :
    List (SpecId × List SpecId) :=
  match alookup m a with
  | some l => aupdate m a (l.filter (fun d => d ≠ b))
  | none => m

/-- The mutable state of `dfs_cycle_detection`: the `visited` and
`rec_stack` hash-sets and the `path` vector of the source.  The extra
`finished` component records the order in which nodes are popped off the
path; the source does not store it, it is carried here purely so that the
proofs below can speak about the DFS finishing order.  No branch of the
DFS reads it. -/
structure DfsSt where
  visited : List SpecId
  recStack : List SpecId
  path : List SpecId
  finished : List SpecId
deriving DecidableEq

mutual

/-- `DependencyGraph::dfs_cycle_detection`.  `fuel` bounds the recursion
depth; `dfsFuel` below is proven sufficient, so the `none` (fuel
exhausted) outcome never occurs in `detect_cycle`. -/
def dfs_cycle_detection (g : DependencyGraph) :
    Nat → SpecId → DfsSt → Option (Option (List SpecId) × DfsSt)
  | 0, _, _ => none
  | fuel + 1, u, st =>
    let st1 : DfsSt :=
      ⟨insertSet u st.visited, insertSet u st.recStack, st.path ++ [u], st.finished⟩
    match dfsDeps g fuel (g.depsOf u) st1 with
    | none => none
    | some (some cyc, st2) => some (some cyc, st2)
    | some (none, st2) =>
      some (none, ⟨st2.visited, st2.recStack.erase u, st2.path.dropLast,
        st2.finished ++ [u]⟩)
termination_by fuel _ _ => (fuel, 0)

/-- The `for dep in deps` loop inside `dfs_cycle_detection`. -/
def dfsDeps (g : DependencyGraph) :
    Nat → List SpecId → DfsSt → Option (Option (List SpecId) × DfsSt)
  | _, [], st => some (none, st)
  | fuel, d :: ds, st =>
    if d ∉ st.visited then
      match dfs_cycle_detection g fuel d st with
      | none => none
      | some (some cyc, st') => some (some cyc, st')
      | some (none, st') => dfsDeps g fuel ds st'
    else if d ∈ st.recStack then
      some (some (st.path.drop (st.path.indexOf d)), st)
    else
      dfsDeps g fuel ds st
termination_by fuel ds _ => (fuel, ds.length + 1)

end

/-- Every node the DFS can ever be called on: the keys together with every
node mentioned in some prerequisite list. -/
def nodeUniverse (g : DependencyGraph) : List SpecId :=
  g.gkeys ++ (g.dependencies.map Prod.snd).flatten

/-- Recursion-depth bound for the DFS (each nested call visits a fresh
node of `nodeUniverse`). -/
def dfsFuel (g : DependencyGraph) : Nat := (nodeUniverse g).length + 1

/-- The `for spec_id in keys` loop of `DependencyGraph::detect_cycle`. -/
def detectCycleAux (g : DependencyGraph) :
    List SpecId → DfsSt → Option (Option (List SpecId) × DfsSt)
  | [], st => some (none, st)
  | k :: ks, st =>
    if k ∉ st.visited then
      match dfs_cycle_detection g (dfsFuel g) k st with
      | none => none
      | some (some cyc, st') => some (some cyc, st')
      | some (none, st') => detectCycleAux g ks st'
    else
      detectCycleAux g ks st

/-- `DependencyGraph::detect_cycle`.  The fallback `none` in the fuel
branch is unreachable (`detectCycleAux_isSome` below). -/
def detect_cycle (g : DependencyGraph) : Option (List SpecId) :=
  match detectCycleAux g g.gkeys ⟨[], [], [], []⟩ with
  | some (res, _) => res
  | none => none

/-- `DependencyGraph::add_dependency`.  Returns the result together with
the mutated graph. -/
def add_dependency (g : DependencyGraph) (spec_id depends_on : SpecId) :
    Except ApplicationError Unit × DependencyGraph :=
  let g1 : DependencyGraph := ⟨entryPush g.dependencies spec_id depends_on⟩
  let g2 : DependencyGraph := ⟨ensureKey g1.dependencies depends_on⟩
  match detect_cycle g2 with
  | some cyc =>
    (Except.error (ApplicationError.CyclicDependency cyc),
      ⟨retainNe g2.dependencies spec_id depends_on⟩)
  | none => (Except.ok (), g2)

/-- `DependencyGraph::remove_dependency`. -/
def remove_dependency (g : DependencyGraph) (a b : SpecId) : DependencyGraph :=
  ⟨retainNe g.dependencies a b⟩

/-- `in_degree.entry(k).or_insert(0)`. -/
def ensure0 (m : List (SpecId × Nat)) (k : SpecId) : List (SpecId × Nat) :=
  match alookup m k with
  | some _ => m
  | none => m ++ [(k, 0)]

/-- `*in_degree.entry(k).or_insert(0) += 1`. -/
def bump (m : List (SpecId × Nat)) (k : SpecId) : List (SpecId × Nat) :=
  match alookup m k with
  | some v => aupdate m k (v + 1)
  | none => m ++ [(k, 1)]

/-- The in-degree map of `topological_sort`: zero for every key, then one
increment per occurrence in a prerequisite list. -/
def buildInDegree (g : DependencyGraph) : List (SpecId × Nat) :=
  g.dependencies.foldl (fun m p => p.2.foldl bump m)
    (g.gkeys.foldl ensure0 [])

/-- The decrement loop of `topological_sort`: for each prerequisite of the
popped node, decrement its in-degree and enqueue it when the count reaches
zero.  (`v = 1` is the post-decrement `*degree == 0` test of the source;
for `v = 0` release-mode Rust wraps to a huge value, so it does not push
either, which this model matches.) -/
def decDeps : List SpecId → List (SpecId × Nat) × List SpecId →
    List (SpecId × Nat) × List SpecId
  | [], acc => acc
  | d :: ds, (deg, q) =>
    match alookup deg d with
    | some v => decDeps ds (aupdate deg d (v - 1), if v = 1 then q ++ [d] else q)
    | none => decDeps ds (deg, q)

/-- The Kahn work-list loop of `topological_sort`. -/
def kahnLoop (g : DependencyGraph) :
    Nat → List SpecId → List (SpecId × Nat) → List SpecId → List SpecId
  | 0, _, _, result => result
  | _ + 1, [], _, result => result
  | fuel + 1, s :: q, deg, result =>
    let dq := decDeps (g.depsOf s) (deg, q)
    kahnLoop g fuel dq.2 dq.1 (result ++ [s])

/-- `DependencyGraph::topological_sort`.  The fuel `deg.length + 1` is
proven sufficient below. -/
def topological_sort (g : DependencyGraph) :
    Except ApplicationError (List SpecId) :=
  match detect_cycle g with
  | some cyc => Except.error (ApplicationError.CyclicDependency cyc)
  | none =>
    let deg := buildInDegree g
    let queue := (deg.filter (fun p => p.2 = 0)).map Prod.fst
    Except.ok (kahnLoop g (deg.length + 1) queue deg []).reverse

/-- The reverse-dependency map of `get_parallel_groups`. -/
def buildReverseDeps (g : DependencyGraph) : List (SpecId × List SpecId) :=
  g.dependencies.foldl (fun m p => p.2.foldl (fun m' d => entryPush m' d p.1) m)
    (g.gkeys.foldl ensureKey [])

/-- The wave in-degree map: each key mapped to the length of its
prerequisite list (`in_degree.insert(spec_id, degree)`). -/
def buildWaveDegrees (g : DependencyGraph) : List (SpecId × Nat) :=
  g.gkeys.foldl (fun m k => ains m k (g.depsOf k).length) []

/-- Decrement (saturating) the degree of every listed dependent. -/
def decDependents (deg : List (SpecId × Nat)) : List SpecId → List (SpecId × Nat)
  | [] => deg
  | a :: rest =>
    match alookup deg a with
    | some v => decDependents (aupdate deg a (v - 1)) rest
    | none => decDependents deg rest

/-- Process one wave: for each member, decrement the degrees of the specs
that depend on it. -/
def processWave (rd : List (SpecId × List SpecId)) (deg : List (SpecId × Nat)) :
    List SpecId → List (SpecId × Nat)
  | [] => deg
  | s :: ss => processWave rd (decDependents deg ((alookup rd s).getD [])) ss

/-- The wave loop of `get_parallel_groups`. -/
def wavesLoop (g : DependencyGraph) (rd : List (SpecId × List SpecId)) :
    Nat → List (SpecId × Nat) → List SpecId → List (List SpecId) →
    List (List SpecId)
  | 0, _, _, waves => waves
  | fuel + 1, deg, processed, waves =>
    if processed.length < g.dependencies.length then
      let wave := (deg.filter (fun p => p.2 = 0 ∧ p.1 ∉ processed)).map Prod.fst
      if wave = [] then waves
      else
        wavesLoop g rd fuel (processWave rd deg wave) (processed ++ wave)
          (waves ++ [wave])
    else waves

/-- `DependencyGraph::get_parallel_groups`. -/
def get_parallel_groups (g : DependencyGraph) :
    Except ApplicationError (List (List SpecId)) :=
  match detect_cycle g with
  | some cyc => Except.error (ApplicationError.CyclicDependency cyc)
  | none =>
    Except.ok (wavesLoop g (buildReverseDeps g) (g.dependencies.length + 1)
      (buildWaveDegrees g) [] [])

end DependencyGraph

/-- `a` has recorded prerequisite `b` (a directed edge of the graph). -/
def hasEdge (g : DependencyGraph) (a b : SpecId) : Prop := b ∈ g.depsOf a

/-- A semantic cycle: a nonempty closed walk along recorded edges. -/
def SemCycle (g : DependencyGraph) : Prop :=
  ∃ p : List SpecId, p.Chain' (hasEdge g) ∧ 2 ≤ p.length ∧ p.head? = p.getLast?

/-- `L` lists nodes so that the prerequisites of each listed node occur
strictly earlier. -/
def TopoSorted (g : DependencyGraph) (L : List SpecId) : Prop :=
  ∀ i (h : i < L.length), ∀ b ∈ g.depsOf (L[i]), b ∈ L.take i

/-- A topological listing of the graph: duplicate-free, containing every
key, prerequisites first. -/
def GoodTopo (g : DependencyGraph) (L : List SpecId) : Prop :=
  L.Nodup ∧ (∀ k ∈ g.gkeys, k ∈ L) ∧ TopoSorted g L

/-- Every recorded prerequisite is itself a key (the documented graph
invariant, maintained by the public operations). -/
def Closed (g : DependencyGraph) : Prop :=
  ∀ a b, hasEdge g a b → b ∈ g.gkeys

/-- Invariant carried through the DFS of `detect_cycle`. -/
structure DfsInv (g : DependencyGraph) (st : DependencyGraph.DfsSt) : Prop where
  pathNodup : st.path.Nodup
  pathChain : st.path.Chain' (hasEdge g)
  recEq : ∀ x, x ∈ st.recStack ↔ x ∈ st.path
  finNodup : st.finished.Nodup
  finPathDisj : ∀ x ∈ st.finished, x ∉ st.path
  visEq : ∀ x, x ∈ st.visited ↔ x ∈ st.finished ∨ x ∈ st.path
  topo : TopoSorted g st.finished

/-- Postcondition of a cycle-free `dfs_cycle_detection` call on `u`:
invariant preserved, `recStack` and `path` restored, `finished` extended
by freshly visited nodes including `u`. -/
def NodePost (g : DependencyGraph) (st st' : DependencyGraph.DfsSt)
    (u : SpecId) : Prop :=
  DfsInv g st' ∧ st'.recStack = st.recStack ∧ st'.path = st.path ∧
  (∃ t, st'.finished = st.finished ++ t ∧ u ∈ t ∧ ∀ x ∈ t, x ∉ st.visited)

/-- Postcondition of a cycle-free pass of the DFS over a suffix `ds` of
the current node's prerequisite list. -/
def DepsPost (g : DependencyGraph) (st st' : DependencyGraph.DfsSt)
    (ds : List SpecId) : Prop :=
  DfsInv g st' ∧ st'.recStack = st.recStack ∧ st'.path = st.path ∧
  (∃ t, st'.finished = st.finished ++ t ∧ ∀ x ∈ t, x ∉ st.visited) ∧
  (∀ d ∈ ds, d ∈ st'.finished)

/-- The total number of occurrences of `x` across all prerequisite lists
(the in-degree `topological_sort` computes for `x`). -/
def occCount (g : DependencyGraph) (x : SpecId) : Nat :=
  ((g.dependencies.map Prod.snd).flatten).count x

/-- Occurrences of `x` across the prerequisite lists of the already
processed nodes `R`. -/
def consumedCount (g : DependencyGraph) (R : List SpecId) (x : SpecId) : Nat :=
  ((R.map (fun a => g.depsOf a)).flatten).count x

/-- Everyone that depends on `R[i]` was popped before position `i`
(Kahn pops dependents before prerequisites). -/
def KahnOrd (g : DependencyGraph) (R : List SpecId) : Prop :=
  ∀ i (h : i < R.length), ∀ a, hasEdge g a (R[i]) → a ∈ R.take i

/-- The invariant of the Kahn work-list loop in `topological_sort`. -/
structure KahnInv (g : DependencyGraph) (queue : List SpecId)
    (deg : List (SpecId × Nat)) (result : List SpecId) : Prop where
  degKeys : akeys deg = g.gkeys
  resNodup : result.Nodup
  qNodup : queue.Nodup
  disj : ∀ x ∈ result, x ∉ queue
  resSub : ∀ x ∈ result, x ∈ g.gkeys
  qSub : ∀ x ∈ queue, x ∈ g.gkeys
  degVal : ∀ x ∈ g.gkeys,
    alookup deg x = some (occCount g x - consumedCount g result x)
  consLe : ∀ x ∈ g.gkeys, consumedCount g result x ≤ occCount g x
  memIff : ∀ x ∈ g.gkeys,
    (x ∈ result ∨ x ∈ queue ↔ consumedCount g result x = occCount g x)
  ord : KahnOrd g result

/-- The invariant of the wave loop of `get_parallel_groups`: `processed`
is the flattening of the waves built so far, the remaining degree of each
key counts its prerequisites not yet processed, and wave `i` holds
exactly the keys outside the earlier waves all of whose prerequisites lie
in the earlier waves. -/
structure WaveInv (g : DependencyGraph) (deg : List (SpecId × Nat))
    (processed : List SpecId) (waves : List (List SpecId)) : Prop where
  degKeys : akeys deg = g.gkeys
  procEq : processed = waves.flatten
  procNodup : processed.Nodup
  procSub : ∀ x ∈ processed, x ∈ g.gkeys
  degVal : ∀ x ∈ g.gkeys, alookup deg x =
    some ((g.depsOf x).filter (fun d => d ∉ processed)).length
  waveChar : ∀ i (h : i < waves.length), ∀ x, x ∈ waves[i] ↔
    x ∈ g.gkeys ∧ x ∉ (waves.take i).flatten ∧
      ∀ d ∈ g.depsOf x, d ∈ (waves.take i).flatten

/-- The graphs reachable from the empty graph through the public
mutators `add_dependency` (whether it succeeds or fails) and
`remove_dependency`. -/
inductive Reachable : DependencyGraph → Prop
  | empty : Reachable DependencyGraph.new
  | add (g : DependencyGraph) (a b : SpecId) :
      Reachable g → Reachable (g.add_dependency a b).2
  | remove (g : DependencyGraph) (a b : SpecId) :
      Reachable g → Reachable (g.remove_dependency a b)

/-- The structural invariant of reachable graphs: duplicate-free keys,
closed under recorded prerequisites, and no semantic cycle. -/
def GraphInv (g : DependencyGraph) : Prop :=
  g.gkeys.Nodup ∧ Closed g ∧ ¬ SemCycle g

/-! ### Workflow phases and transitions
(`src/crates/domain/src/value_objects/phase.rs`,
`src/crates/domain/src/entities/workflow.rs`,
`src/crates/application/src/workflow/transition.rs`) -/

inductive Phase
  | Spec | Tasks | Tdd | Review | Retro | Merge
deriving DecidableEq, Fintype

namespace Phase

def all : List Phase := [Spec, Tasks, Tdd, Review, Retro, Merge]

def next : Phase → Option Phase
  | Spec => some Tasks
  | Tasks => some Tdd
  | Tdd => some Review
  | Review => some Retro
  | Retro => some Merge
  | Merge => none

end Phase

/-- The domain-level error type (only the variant the embedded code
constructs). -/
inductive DomainError
  | ValidationError (msg : String)
deriving DecidableEq

/-- `Workflow` entity (the `id` and `name` fields are never branched on
by the transition logic and are kept as plain data). -/
structure Workflow where
  id : String
  name : String
  phases : List Phase
  current_phase : Phase
  approvals : List (Phase × Bool)
deriving DecidableEq

namespace Workflow

/-- `Workflow::new`: the standard phase sequence, nothing approved. -/
def new (name : String) (id : String) : Workflow :=
  ⟨id, name, Phase.all, Phase.Spec, Phase.all.map (fun p => (p, false))⟩

def is_approved (w : Workflow) (p : Phase) : Bool :=
  (alookup w.approvals p).getD false

def can_proceed (w : Workflow) : Bool := w.is_approved w.current_phase

def approve_phase (w : Workflow) (p : Phase) : Workflow :=
  { w with approvals := ains w.approvals p true }

/-- `Workflow::next_phase`: advance to the successor of `current_phase`
in the workflow's own `phases` list.  (`i + 1 < len` is the negation of
the source's `current_index >= phases.len() - 1` once the index exists,
since the list is then nonempty.) -/
def next_phase (w : Workflow) : Except DomainError Workflow :=
  if ¬ w.can_proceed then
    .error (.ValidationError "Current phase must be approved before proceeding")
  else
    match w.phases.findIdx? (fun p => p = w.current_phase) with
    | none => .error (.ValidationError "Current phase not found in workflow")
    | some i =>
      if h : i + 1 < w.phases.length then
        .ok { w with current_phase := w.phases.get ⟨i + 1, h⟩ }
      else
        .error (.ValidationError "Already at the last phase")

def peek_next_phase (w : Workflow) : Option Phase :=
  match w.phases.findIdx? (fun p => p = w.current_phase) with
  | none => none
  | some i => if h : i + 1 < w.phases.length then some (w.phases.get ⟨i + 1, h⟩)
              else none

end Workflow

/-- `can_transition` from
`src/crates/application/src/workflow/transition.rs`. -/
def can_transition (fromP toP : Phase) : Bool :=
  match fromP, toP with
  | .Spec, .Tasks => true
  | .Tasks, .Tdd => true
  | .Tdd, .Review => true
  | .Review, .Retro => true
  | .Retro, .Merge => true
  | a, b => a = b

/-- `transition` from the same file. -/
def transition (w : Workflow) (toP : Phase) : Except ApplicationError Workflow :=
  let fromP := w.current_phase
  if ¬ can_transition fromP toP then
    .error (.WorkflowTransition "invalid phase transition")
  else if fromP = toP then
    .ok w
  else if ¬ w.is_approved fromP then
    .error (.WorkflowTransition "phase not yet approved")
  else
    match w.next_phase with
    | .error _ => .error (.WorkflowTransition "phase transition failed")
    | .ok w' => .ok w'

/-! ### Sessions and the orchestrator
(`src/crates/application/src/orchestration/orchestrator.rs`,
`src/crates/application/src/orchestration/monitor.rs`).
`Instant` is modelled as a `Nat` timestamp; each operation that reads the
clock takes the current time `now` explicitly.  Log output and the
escalation Markdown file are outside the model (the escalation handler is
modelled as succeeding). -/

inductive SessionStatus
  | Pending | Running | Completed | TimedOut | Failed
deriving DecidableEq

def SessionStatus.isTerminal : SessionStatus → Bool
  | .Completed => true
  | .TimedOut => true
  | .Failed => true
  | _ => false

inductive EscalationLevel
  | Warning | Error | Critical
deriving DecidableEq

inductive MonitorEvent
  | SessionStarted (session_id : String) (spec_id : String)
  | SessionCompleted (session_id : String) (duration_secs : Nat)
  | SessionTimedOut (session_id : String) (timeout_secs : Nat)
  | SessionFailed (session_id : String) (reason : String)
  | ProgressUpdate (completed : Nat) (total : Nat) (percent : Nat)
deriving DecidableEq

/-- `Session` entity; the fields the orchestrator never branches on
(`task_id`, `started_at`, `ended_at`, `context_usage`) are omitted. -/
structure Session where
  id : String
  spec_id : SpecId
  phase : Phase
deriving DecidableEq

structure OrchestratorConfig where
  max_parallel_sessions : Nat
  session_timeout_secs : Nat
  monitor_interval_secs : Nat
  max_retry_attempts : Nat
  retry_delay_secs : Nat
deriving DecidableEq

structure MonitorProgress where
  total_sessions : Nat
  completed_sessions : Nat
  failed_sessions : Nat
  timed_out_sessions : Nat
  running_sessions : Nat
  pending_sessions : Nat
deriving DecidableEq

def MonitorProgress.progress_percent (p : MonitorProgress) : Nat :=
  if p.total_sessions = 0 then 100
  else ((p.completed_sessions + p.failed_sessions + p.timed_out_sessions) * 100)
    / p.total_sessions

def MonitorProgress.all_terminal (p : MonitorProgress) : Bool :=
  0 < p.total_sessions ∧
    p.completed_sessions + p.failed_sessions + p.timed_out_sessions
      = p.total_sessions

/-- The orchestrator's shared mutable state (the contents of the five
`RwLock`s). -/
structure Orchestrator where
  config : OrchestratorConfig
  sessions : List (String × Session)
  session_statuses : List (String × SessionStatus)
  session_start_times : List (String × Nat)
  dependency_graph : DependencyGraph
  retry_counts : List (String × Nat)
deriving DecidableEq

namespace Orchestrator

def newO (config : OrchestratorConfig) : Orchestrator :=
  ⟨config, [], [], [], DependencyGraph.new, []⟩

/-- `Orchestrator::add_session`. -/
def add_session (o : Orchestrator) (s : Session) :
    Except ApplicationError String × Orchestrator :=
  if (alookup o.sessions s.id).isSome then
    (.error (.SessionAlreadyExists s.id), o)
  else
    (.ok s.id,
      { o with
        sessions := ains o.sessions s.id s
        session_statuses := ains o.session_statuses s.id .Pending })

/-- `Orchestrator::remove_session`. -/
def remove_session (o : Orchestrator) (sid : String) :
    Option Session × Orchestrator :=
  (alookup o.sessions sid,
    { o with
      sessions := aerase o.sessions sid
      session_statuses := aerase o.session_statuses sid
      session_start_times := aerase o.session_start_times sid
      retry_counts := aerase o.retry_counts sid })

def get_session (o : Orchestrator) (sid : String) : Option Session :=
  alookup o.sessions sid

def get_session_status (o : Orchestrator) (sid : String) :
    Option SessionStatus :=
  alookup o.session_statuses sid

/-- `Orchestrator::register_spec`.  `Session::new` mints a fresh UUID;
the minted id is passed in explicitly as `sid`. -/
def register_spec (o : Orchestrator) (spec_id : SpecId) (phase : Phase)
    (sid : String) : Except ApplicationError String × Orchestrator :=
  let session : Session := ⟨sid, spec_id, phase⟩
  match add_session o session with
  | (.error e, o1) => (.error e, o1)
  | (.ok sid', o1) =>
    match o1.dependency_graph.add_dependency spec_id "" with
    | (.error e, g') => (.error e, { o1 with dependency_graph := g' })
    | (.ok _, g') =>
      (.ok sid',
        { o1 with dependency_graph := g'.remove_dependency spec_id "" })

/-- `Orchestrator::start_session`. -/
def start_session (o : Orchestrator) (sid : String) (now : Nat) :
    Except ApplicationError Unit × Orchestrator :=
  if (alookup o.sessions sid).isNone then
    (.error (.Validation "Session not found"), o)
  else
    (.ok (),
      { o with
        session_statuses := ains o.session_statuses sid .Running
        session_start_times := ains o.session_start_times sid now })

/-- The per-spec loop body of `Orchestrator::start_all_sessions`. -/
def startAllAux (now : Nat) :
    List SpecId → Orchestrator → List String →
    Except ApplicationError (List String) × Orchestrator
  | [], o, acc => (.ok acc, o)
  | spec :: rest, o, acc =>
    match o.sessions.find? (fun p => p.2.spec_id = spec) with
    | some p =>
      match start_session o p.2.id now with
      | (.error e, o') => (.error e, o')
      | (.ok _, o') => startAllAux now rest o' (acc ++ [p.2.id])
    | none => startAllAux now rest o acc

/-- `Orchestrator::start_all_sessions`. -/
def start_all_sessions (o : Orchestrator) (now : Nat) :
    Except ApplicationError (List String) × Orchestrator :=
  match o.dependency_graph.topological_sort with
  | .error e => (.error e, o)
  | .ok order => startAllAux now order o []

def mark_session_completed (o : Orchestrator) (sid : String) : Orchestrator :=
  { o with session_statuses := ains o.session_statuses sid .Completed }

def mark_session_failed (o : Orchestrator) (sid : String) : Orchestrator :=
  { o with session_statuses := ains o.session_statuses sid .Failed }

/-- `Orchestrator::escalate`: fails when the session is unknown; the
escalation record and its Markdown file do not affect orchestrator
state. -/
def escalate (o : Orchestrator) (sid : String) (_level : EscalationLevel)
    (_reason : String) : Except ApplicationError Unit :=
  match get_session o sid with
  | none => .error (.Validation "Session not found")
  | some _ => .ok ()

/-- `Orchestrator::should_retry`. -/
def should_retry (o : Orchestrator) (sid : String) : Prop :=
  (alookup o.retry_counts sid).getD 0 < o.config.max_retry_attempts

instance (o : Orchestrator) (sid : String) : Decidable (should_retry o sid) :=
  inferInstanceAs (Decidable (_ < _))

/-- `Orchestrator::retry_session`: bump the counter, (sleep), reset to
`Pending`, restart. -/
def retry_session (o : Orchestrator) (sid : String) (now : Nat) :
    Except ApplicationError Unit × Orchestrator :=
  let current := (alookup o.retry_counts sid).getD 0
  let o1 := { o with retry_counts := ains o.retry_counts sid (current + 1) }
  let o2 := { o1 with session_statuses := ains o1.session_statuses sid .Pending }
  start_session o2 sid now

/-- `Orchestrator::rollback_session`. -/
def rollback_session (o : Orchestrator) (sid : String) : Orchestrator :=
  let o1 := mark_session_failed o sid
  { o1 with
    retry_counts := aerase o1.retry_counts sid
    session_start_times := aerase o1.session_start_times sid }

/-- `Orchestrator::handle_session_failure`. -/
def handle_session_failure (o : Orchestrator) (sid : String) (reason : String)
    (now : Nat) : Except ApplicationError Unit × Orchestrator :=
  match escalate o sid .Error reason with
  | .error e => (.error e, o)
  | .ok _ =>
    if should_retry o sid then retry_session o sid now
    else (.ok (), rollback_session o sid)

/-- `Orchestrator::handle_session_completion`. -/
def handle_session_completion (o : Orchestrator) (sid : String) :
    Except ApplicationError Unit × Orchestrator :=
  match get_session o sid with
  | none => (.error (.Validation "Session not found"), o)
  | some _ =>
    let o1 := mark_session_completed o sid
    (.ok (), { o1 with retry_counts := aerase o1.retry_counts sid })

/-- The timeout check at the end of `determine_session_status`. -/
def determineTimeout (o : Orchestrator) (sid : String) (now : Nat)
    (current : Option SessionStatus) : SessionStatus × Orchestrator :=
  match alookup o.session_start_times sid with
  | some start =>
    if o.config.session_timeout_secs ≤ now - start then
      (.TimedOut,
        { o with session_statuses := ains o.session_statuses sid .TimedOut })
    else (current.getD .Pending, o)
  | none => (current.getD .Pending, o)

/-- `Orchestrator::determine_session_status`. -/
def determine_session_status (o : Orchestrator) (sid : String) (now : Nat) :
    SessionStatus × Orchestrator :=
  match alookup o.session_statuses sid with
  | some s =>
    if s.isTerminal then (s, o)
    else determineTimeout o sid now (some s)
  | none => determineTimeout o sid now none

/-- `Orchestrator::calculate_progress`. -/
def calculate_progress (o : Orchestrator) : MonitorProgress :=
  let vals := o.session_statuses.map Prod.snd
  ⟨vals.length,
    vals.countP (fun s => s = .Completed),
    vals.countP (fun s => s = .Failed),
    vals.countP (fun s => s = .TimedOut),
    vals.countP (fun s => s = .Running),
    vals.countP (fun s => s = .Pending)⟩

/-- The event built by `check_all_sessions` when `sid` newly reached the
terminal status `new`. -/
def terminalEvent (o : Orchestrator) (cfg : OrchestratorConfig) (sid : String)
    (now : Nat) : SessionStatus → List MonitorEvent
  | .Completed =>
    [.SessionCompleted sid
      (match alookup o.session_start_times sid with
       | some start => now - start
       | none => 0)]
  | .TimedOut => [.SessionTimedOut sid cfg.session_timeout_secs]
  | .Failed => [.SessionFailed sid "Unknown error"]
  | _ => []

/-- The per-session loop of `Orchestrator::check_all_sessions`. -/
def checkAux (now : Nat) :
    List String → Orchestrator → List MonitorEvent →
    List MonitorEvent × Orchestrator
  | [], o, acc => (acc, o)
  | sid :: rest, o, acc =>
    let old := get_session_status o sid
    let p := determine_session_status o sid now
    let acc' :=
      if old ≠ some p.1 ∧ p.1.isTerminal then
        acc ++ terminalEvent p.2 o.config sid now p.1
      else acc
    checkAux now rest p.2 acc'

/-- `Orchestrator::check_all_sessions`. -/
def check_all_sessions (o : Orchestrator) (now : Nat) :
    List MonitorEvent × Orchestrator :=
  checkAux now (akeys o.sessions) o []

/-- One tick of `Orchestrator::monitor_loop`: the emitted events, the new
state, and whether the loop exits. -/
def monitor_tick (o : Orchestrator) (now : Nat) :
    List MonitorEvent × Orchestrator × Bool :=
  let p := check_all_sessions o now
  let progress := calculate_progress p.2
  let events :=
    if 0 < progress.total_sessions then
      p.1 ++ [.ProgressUpdate
        (progress.completed_sessions + progress.failed_sessions
          + progress.timed_out_sessions)
        progress.total_sessions progress.progress_percent]
    else p.1
  (events, p.2, progress.all_terminal)

/-- A run of `monitor_loop`, one list entry per tick (each entry is the
clock value at that tick); the trace of all events it emits. -/
def monitor_run (o : Orchestrator) : List Nat → List MonitorEvent
  | [] => []
  | now :: rest =>
    let t := monitor_tick o now
    if t.2.2 then t.1 else t.1 ++ monitor_run t.2.1 rest

end Orchestrator

/-! ### Task loop engine
(`src/crates/domain/src/entities/loop_state.rs`,
`src/crates/application/src/loop_engine/engine.rs`). -/

inductive Status
  | Pending | InProgress | Completed | Blocked
deriving DecidableEq

/-- `Task` entity; only the fields `next_task` consults are modelled
(`title`, `description`, `priority`, `complexity` and the timestamps are
never branched on there). -/
structure Task where
  id : String
  spec_id : SpecId
  status : Status
  dependencies : List String
deriving DecidableEq

/-- `LoopState`; the two timestamps are never branched on and are
omitted. -/
structure LoopState where
  spec_id : SpecId
  task_queue : List String
  current_task : Option String
  is_active : Bool
  retry_counts : List (String × Nat)
deriving DecidableEq

namespace LoopState

def get_retry_count (st : LoopState) (tid : String) : Nat :=
  (alookup st.retry_counts tid).getD 0

def increment_retry (st : LoopState) (tid : String) : LoopState :=
  { st with retry_counts := ains st.retry_counts tid (st.get_retry_count tid + 1) }

def enqueue_task (st : LoopState) (tid : String) : LoopState :=
  if tid ∈ st.task_queue then st
  else { st with task_queue := st.task_queue ++ [tid] }

def dequeue_task (st : LoopState) : Option String × LoopState :=
  match st.task_queue with
  | [] => (none, st)
  | t :: rest => (some t, { st with task_queue := rest })

def pending_count (st : LoopState) : Nat := st.task_queue.length

end LoopState

/-- `tasks.iter().find(|t| &t.id == dep_id).is_some_and(|t| t.status ==
Completed)`. -/
def depCompleted (tasks : List Task) (dep : String) : Bool :=
  match tasks.find? (fun t => t.id = dep) with
  | some t => t.status = Status.Completed
  | none => false

/-- The scan loop of `LoopEngine::next_task`.  `fuel` is
`queue_size - checked_count`; the returned `Nat` counts the candidates
dequeued, used to state the scan bound. -/
def nextTaskAux (tasks : List Task) (maxR : Nat) :
    Nat → LoopState → Option String × LoopState × Nat
  | 0, st => (none, st, 0)
  | n + 1, st =>
    match st.dequeue_task with
    | (none, st') => (none, st', 0)
    | (some tid, st') =>
      if maxR ≤ st'.get_retry_count tid then
        let r := nextTaskAux tasks maxR n st'
        (r.1, r.2.1, r.2.2 + 1)
      else
        match tasks.find? (fun t => t.id = tid) with
        | none =>
          let r := nextTaskAux tasks maxR n st'
          (r.1, r.2.1, r.2.2 + 1)
        | some task =>
          if task.status = Status.Completed then
            let r := nextTaskAux tasks maxR n st'
            (r.1, r.2.1, r.2.2 + 1)
          else if task.dependencies.all (fun dep => depCompleted tasks dep) then
            (some tid, st', 1)
          else
            let r := nextTaskAux tasks maxR n (st'.enqueue_task tid)
            (r.1, r.2.1, r.2.2 + 1)

/-- `LoopEngine::next_task` (always `Ok` in the source; the error monad
is dropped). -/
def next_task (st : LoopState) (maxR : Nat) (tasks : List Task) :
    Option String × LoopState × Nat :=
  nextTaskAux tasks maxR st.pending_count st

/-! ### Orchestrator snapshot persistence
(`src/crates/application/src/orchestration/state.rs`).  `serde_json` is
modelled at the JSON-tree level: writing renders a tree, reading parses
the same tree back; the file system is a map from paths to trees. -/

inductive Json
  | str (s : String)
  | arr (items : List Json)
  | obj (fields : List (String × Json))

structure OrchestratorState where
  spec_ids : List String
  spec_phases : List (String × String)
  dependencies : List (String × List String)
  completed : List String
  failed : List String
  running : List String
  pending : List String
  saved_at : String
deriving DecidableEq

def encodeStrList (l : List String) : Json := .arr (l.map .str)

def encodeStrMap (m : List (String × String)) : Json :=
  .obj (m.map (fun p => (p.1, .str p.2)))

def encodeStrListMap (m : List (String × List String)) : Json :=
  .obj (m.map (fun p => (p.1, encodeStrList p.2)))

/-- The serde serialization of `OrchestratorState`. -/
def encodeState (s : OrchestratorState) : Json :=
  .obj [("spec_ids", encodeStrList s.spec_ids),
        ("spec_phases", encodeStrMap s.spec_phases),
        ("dependencies", encodeStrListMap s.dependencies),
        ("completed", encodeStrList s.completed),
        ("failed", encodeStrList s.failed),
        ("running", encodeStrList s.running),
        ("pending", encodeStrList s.pending),
        ("saved_at", .str s.saved_at)]

def decodeStr : Json → Option String
  | .str s => some s
  | _ => none

def decodeStrList : Json → Option (List String)
  | .arr items => items.mapM decodeStr
  | _ => none

def decodeStrMap : Json → Option (List (String × String))
  | .obj fields => fields.mapM (fun p => (decodeStr p.2).map (fun v => (p.1, v)))
  | _ => none

def decodeStrListMap : Json → Option (List (String × List String))
  | .obj fields =>
    fields.mapM (fun p => (decodeStrList p.2).map (fun v => (p.1, v)))
  | _ => none

/-- The serde deserialization of `OrchestratorState`. -/
def decodeState : Json → Option OrchestratorState
  | .obj fields => do
    let si ← alookup fields "spec_ids" >>= decodeStrList
    let sp ← alookup fields "spec_phases" >>= decodeStrMap
    let dp ← alookup fields "dependencies" >>= decodeStrListMap
    let co ← alookup fields "completed" >>= decodeStrList
    let fa ← alookup fields "failed" >>= decodeStrList
    let ru ← alookup fields "running" >>= decodeStrList
    let pe ← alookup fields "pending" >>= decodeStrList
    let sa ← alookup fields "saved_at" >>= decodeStr
    pure ⟨si, sp, dp, co, fa, ru, pe, sa⟩
  | _ => none

/-- The file system visible to `save_state`/`restore_state`. -/
abbrev FileSystem := List (String × Json)

def defaultStatePath : String := ".aad/orchestration/state.json"

/-- `save_state` (directory creation and write errors are outside the
model). -/
def save_state (fs : FileSystem) (s : OrchestratorState)
    (state_file : Option String) : FileSystem :=
  ains fs (state_file.getD defaultStatePath) (encodeState s)

/-- `restore_state`. -/
def restore_state (fs : FileSystem) (state_file : Option String) :
    Except ApplicationError OrchestratorState :=
  match alookup fs (state_file.getD defaultStatePath) with
  | none => .error (.Validation "State file not found")
  | some j =>
    match decodeState j with
    | some s => .ok s
    | none => .error (.Validation "Failed to deserialize state")

/-! ## Theorems -/

/-! ### Association-list and set-model lemmas -/

theorem alookup_eq_none {α β : Type} [DecidableEq α] {m : List (α × β)} {a : α} :
    alookup m a = none ↔ a ∉ akeys m := by
  induction m with
  | nil => simp [alookup, akeys]
  | cons p rest ih =>
    obtain ⟨k, v⟩ := p
    simp only [alookup, akeys, List.map_cons, List.mem_cons]
    by_cases h : k = a
    · subst h
      simp
    · simp only [if_neg h]
      rw [ih]
      constructor
      · intro hn
        rintro (rfl | hm)
        · exact h rfl
        · exact hn hm
      · intro hn hm
        exact hn (Or.inr hm)

theorem alookup_isSome {α β : Type} [DecidableEq α] {m : List (α × β)} {a : α} :
    (alookup m a).isSome ↔ a ∈ akeys m := by
  rw [Option.isSome_iff_ne_none]
  simp [Ne, alookup_eq_none]

theorem alookup_mem {α β : Type} [DecidableEq α] {m : List (α × β)} {a : α}
    {b : β} (h : alookup m a = some b) : (a, b) ∈ m := by
  induction m with
  | nil => simp [alookup] at h
  | cons p rest ih =>
    obtain ⟨k, v⟩ := p
    by_cases hk : k = a
    · subst hk
      simp [alookup] at h
      simp [h]
    · simp [alookup, hk] at h
      simp [ih h]

theorem mem_akeys {α β : Type} {m : List (α × β)} {a : α} :
    a ∈ akeys m ↔ ∃ b, (a, b) ∈ m := by
  unfold akeys
  rw [List.mem_map]
  constructor
  · rintro ⟨⟨k, v⟩, hm, h⟩
    dsimp at h
    subst h
    exact ⟨v, hm⟩
  · rintro ⟨b, hb⟩
    exact ⟨(a, b), hb, rfl⟩

theorem alookup_isSome_of_mem_akeys {α β : Type} [DecidableEq α]
    {m : List (α × β)} {a : α} (h : a ∈ akeys m) :
    ∃ b, alookup m a = some b := by
  have := alookup_isSome (m := m) (a := a) |>.mpr h
  exact Option.isSome_iff_exists.mp this

theorem alookup_append_of_isSome {α β : Type} [DecidableEq α]
    {m m' : List (α × β)} {k : α} {v : β} (h : alookup m k = some v) :
    alookup (m ++ m') k = some v := by
  induction m with
  | nil => simp [alookup] at h
  | cons p rest ih =>
    obtain ⟨k', v'⟩ := p
    by_cases hk : k' = k
    · simp [alookup, hk] at h ⊢
      exact h
    · simp [alookup, hk] at h ⊢
      exact ih h

theorem alookup_append_of_none {α β : Type} [DecidableEq α]
    {m m' : List (α × β)} {k : α} (h : alookup m k = none) :
    alookup (m ++ m') k = alookup m' k := by
  induction m with
  | nil => simp
  | cons p rest ih =>
    obtain ⟨k', v'⟩ := p
    by_cases hk : k' = k
    · simp [alookup, hk] at h
    · simp [alookup, hk] at h ⊢
      exact ih h

theorem akeys_append {α β : Type} (m m' : List (α × β)) :
    akeys (m ++ m') = akeys m ++ akeys m' := by
  simp [akeys]

theorem akeys_aupdate {α β : Type} [DecidableEq α] (m : List (α × β)) (a : α)
    (b : β) : akeys (aupdate m a b) = akeys m := by
  induction m with
  | nil => rfl
  | cons p rest ih =>
    obtain ⟨k, v⟩ := p
    by_cases h : k = a
    · simp [aupdate, h, akeys]
    · simp only [aupdate, if_neg h, akeys, List.map_cons]
      rw [show List.map Prod.fst (aupdate rest a b) = akeys (aupdate rest a b) from rfl,
        ih]
      rfl

theorem alookup_aupdate_self {α β : Type} [DecidableEq α] {m : List (α × β)}
    {a : α} (b : β) (h : a ∈ akeys m) : alookup (aupdate m a b) a = some b := by
  induction m with
  | nil => simp [akeys] at h
  | cons p rest ih =>
    obtain ⟨k, v⟩ := p
    by_cases hk : k = a
    · subst hk
      simp [aupdate, alookup]
    · have h' : a ∈ akeys rest := by
        simp only [akeys, List.map_cons, List.mem_cons] at h
        rcases h with h | h
        · exact absurd h.symm hk
        · exact h
      simp [aupdate, hk, alookup, ih h']

theorem alookup_aupdate_ne {α β : Type} [DecidableEq α] {m : List (α × β)}
    {a k : α} (b : β) (h : k ≠ a) :
    alookup (aupdate m a b) k = alookup m k := by
  induction m with
  | nil => rfl
  | cons p rest ih =>
    obtain ⟨k', v⟩ := p
    by_cases hk : k' = a
    · subst hk
      have hne : ¬ (k' = k) := fun hh => h (hh ▸ rfl)
      simp [aupdate, alookup, hne]
    · simp only [aupdate, if_neg hk, alookup]
      by_cases hkk : k' = k
      · simp [hkk]
      · simp [hkk, ih]

theorem aupdate_not_mem {α β : Type} [DecidableEq α] {m : List (α × β)} {a : α}
    (b : β) (h : a ∉ akeys m) : aupdate m a b = m := by
  induction m with
  | nil => rfl
  | cons p rest ih =>
    obtain ⟨k, v⟩ := p
    simp only [akeys, List.map_cons, List.mem_cons] at h
    push_neg at h
    have hk : ¬ (k = a) := fun hh => h.1 hh.symm
    simp [aupdate, hk, ih h.2]

theorem alookup_ains_self {α β : Type} [DecidableEq α] (m : List (α × β))
    (a : α) (b : β) : alookup (ains m a b) a = some b := by
  unfold ains
  cases h : alookup m a with
  | some v =>
    refine alookup_aupdate_self b ?_
    rw [← alookup_isSome]
    simp [h]
  | none =>
    rw [alookup_append_of_none h]
    simp [alookup]

theorem alookup_ains_ne {α β : Type} [DecidableEq α] (m : List (α × β))
    {a k : α} (b : β) (h : k ≠ a) : alookup (ains m a b) k = alookup m k := by
  unfold ains
  cases ha : alookup m a with
  | some v => exact alookup_aupdate_ne b h
  | none =>
    cases hk : alookup m k with
    | some v => exact alookup_append_of_isSome hk
    | none =>
      have h1 : alookup (m ++ [(a, b)]) k = alookup [(a, b)] k :=
        alookup_append_of_none hk
      rw [h1]
      have hne : ¬ (a = k) := fun hh => h hh.symm
      simp [alookup, hne]

theorem alookup_aerase_ne {α β : Type} [DecidableEq α] {m : List (α × β)}
    {a k : α} (h : k ≠ a) : alookup (aerase m a) k = alookup m k := by
  induction m with
  | nil => rfl
  | cons p rest ih =>
    obtain ⟨k', v⟩ := p
    by_cases hka : k' = a
    · have hne : ¬ (k' = k) := fun hh => h (hh.symm.trans hka)
      simp only [aerase, if_pos hka, alookup, if_neg hne]
    · simp only [aerase, if_neg hka, alookup]
      by_cases hkk : k' = k
      · simp [hkk]
      · simp [hkk, ih]

theorem not_mem_akeys_aerase {α β : Type} [DecidableEq α] {m : List (α × β)}
    {a : α} (h : (akeys m).Nodup) : a ∉ akeys (aerase m a) := by
  induction m with
  | nil => simp [aerase, akeys]
  | cons p rest ih =>
    obtain ⟨k, v⟩ := p
    simp only [akeys, List.map_cons, List.nodup_cons] at h
    by_cases hka : k = a
    · subst hka
      simpa [aerase, akeys] using h.1
    · simp only [aerase, if_neg hka, akeys, List.map_cons, List.mem_cons]
      push_neg
      refine ⟨fun hh => hka hh.symm, ?_⟩
      exact ih h.2

theorem mem_insertSet {x a : SpecId} {l : List SpecId} :
    x ∈ insertSet a l ↔ x = a ∨ x ∈ l := by
  unfold insertSet
  by_cases h : a ∈ l
  · simp only [if_pos h]
    constructor
    · exact Or.inr
    · rintro (rfl | hx)
      · exact h
      · exact hx
  · simp [if_neg h]

/-! ### DFS lemmas for `detect_cycle` -/

namespace DependencyGraph

theorem topoSorted_nil (g : DependencyGraph) : TopoSorted g [] := by
  intro i hi
  simp at hi

theorem topoSorted_append {g : DependencyGraph} {L : List SpecId} {u : SpecId}
    (h : TopoSorted g L) (hu : ∀ b ∈ g.depsOf u, b ∈ L) :
    TopoSorted g (L ++ [u]) := by
  intro i hi b hb
  by_cases hiL : i < L.length
  · rw [List.getElem_append_left hiL] at hb
    rw [List.take_append_of_le_length (le_of_lt hiL)]
    exact h i hiL b hb
  · have hlen : i = L.length := by
      simp only [List.length_append, List.length_singleton] at hi
      omega
    subst hlen
    rw [List.getElem_append_right (le_refl _)] at hb
    simp only [Nat.sub_self, List.getElem_singleton] at hb
    rw [List.take_append_of_le_length (le_refl _), List.take_length]
    exact hu b hb

theorem dfs_visited_mono (g : DependencyGraph) : ∀ fuel : Nat,
    (∀ u st r st', dfs_cycle_detection g fuel u st = some (r, st') →
      ∀ x ∈ st.visited, x ∈ st'.visited) ∧
    (∀ ds st r st', dfsDeps g fuel ds st = some (r, st') →
      ∀ x ∈ st.visited, x ∈ st'.visited) := by
  intro fuel
  induction fuel with
  | zero =>
    constructor
    · intro u st r st' h
      simp [dfs_cycle_detection] at h
    · intro ds
      induction ds with
      | nil =>
        intro st r st' h
        simp only [dfsDeps, Option.some.injEq, Prod.mk.injEq] at h
        rw [← h.2]
        exact fun x hx => hx
      | cons d ds ih =>
        intro st r st' h
        simp only [dfsDeps] at h
        by_cases hd : d ∉ st.visited
        · rw [if_pos hd] at h
          simp [dfs_cycle_detection] at h
        · rw [if_neg hd] at h
          by_cases hr : d ∈ st.recStack
          · rw [if_pos hr] at h
            simp only [Option.some.injEq, Prod.mk.injEq] at h
            rw [← h.2]
            exact fun x hx => hx
          · rw [if_neg hr] at h
            exact ih st r st' h
  | succ n ihn =>
    have hnode : ∀ u st r st', dfs_cycle_detection g (n + 1) u st = some (r, st') →
        ∀ x ∈ st.visited, x ∈ st'.visited := by
      intro u st r st' h
      simp only [dfs_cycle_detection] at h
      cases hd : dfsDeps g n (g.depsOf u)
          ⟨insertSet u st.visited, insertSet u st.recStack, st.path ++ [u],
            st.finished⟩ with
      | none => rw [hd] at h; simp at h
      | some p =>
        obtain ⟨res, st2⟩ := p
        have hsub : ∀ x ∈ st.visited, x ∈ st2.visited := by
          intro x hx
          exact (ihn.2 _ _ _ _ hd) x (mem_insertSet.mpr (Or.inr hx))
        cases res with
        | some cyc =>
          rw [hd] at h
          simp only [Option.some.injEq, Prod.mk.injEq] at h
          rw [← h.2]
          exact hsub
        | none =>
          rw [hd] at h
          simp only [Option.some.injEq, Prod.mk.injEq] at h
          rw [← h.2]
          exact hsub
    refine ⟨hnode, ?_⟩
    intro ds
    induction ds with
    | nil =>
      intro st r st' h
      simp only [dfsDeps, Option.some.injEq, Prod.mk.injEq] at h
      rw [← h.2]
      exact fun x hx => hx
    | cons d ds ih =>
      intro st r st' h
      simp only [dfsDeps] at h
      by_cases hd : d ∉ st.visited
      · rw [if_pos hd] at h
        cases hn : dfs_cycle_detection g (n + 1) d st with
        | none => rw [hn] at h; simp at h
        | some p =>
          obtain ⟨res, stm⟩ := p
          have hsub := hnode _ _ _ _ hn
          cases res with
          | some cyc =>
            rw [hn] at h
            simp only [Option.some.injEq, Prod.mk.injEq] at h
            rw [← h.2]
            exact hsub
          | none =>
            rw [hn] at h
            exact fun x hx => (ih _ _ _ h) x (hsub x hx)
      · rw [if_neg hd] at h
        by_cases hr : d ∈ st.recStack
        · rw [if_pos hr] at h
          simp only [Option.some.injEq, Prod.mk.injEq] at h
          rw [← h.2]
          exact fun x hx => hx
        · rw [if_neg hr] at h
          exact ih _ _ _ h

theorem dfsDeps_none_post (g : DependencyGraph) (fuel : Nat)
    (Hnode : ∀ u st st', DfsInv g st → u ∉ st.visited →
      (∀ p, st.path.getLast? = some p → u ∈ g.depsOf p) →
      dfs_cycle_detection g fuel u st = some (none, st') → NodePost g st st' u) :
    ∀ ds u st st', DfsInv g st → st.path.getLast? = some u →
      (∀ d ∈ ds, d ∈ g.depsOf u) →
      dfsDeps g fuel ds st = some (none, st') → DepsPost g st st' ds := by
  intro ds
  induction ds with
  | nil =>
    intro u st st' hinv hlast hds h
    simp only [dfsDeps, Option.some.injEq, Prod.mk.injEq] at h
    rw [← h.2]
    exact ⟨hinv, rfl, rfl, ⟨[], by simp, by simp⟩, by simp⟩
  | cons d ds ih =>
    intro u st st' hinv hlast hds h
    simp only [dfsDeps] at h
    by_cases hd : d ∉ st.visited
    · rw [if_pos hd] at h
      cases hn : dfs_cycle_detection g fuel d st with
      | none => rw [hn] at h; simp at h
      | some p =>
        obtain ⟨res, stm⟩ := p
        cases res with
        | some cyc => rw [hn] at h; simp at h
        | none =>
          rw [hn] at h
          have hpostm : NodePost g st stm d := by
            refine Hnode d st stm hinv hd ?_ hn
            intro p hp
            rw [hlast] at hp
            obtain rfl := Option.some.inj hp
            exact hds d (List.mem_cons_self d ds)
          obtain ⟨hinvm, hrecm, hpathm, t1, hfin1, hd1, hfresh1⟩ := hpostm
          have hlastm : stm.path.getLast? = some u := by rw [hpathm]; exact hlast
          have hrest := ih u stm st' hinvm hlastm
            (fun x hx => hds x (List.mem_cons_of_mem d hx)) h
          obtain ⟨hinv', hrec', hpath', ⟨t2, hfin2, hfresh2⟩, hmem⟩ := hrest
          refine ⟨hinv', by rw [hrec', hrecm], by rw [hpath', hpathm], ?_, ?_⟩
          · refine ⟨t1 ++ t2, ?_, ?_⟩
            · rw [hfin2, hfin1, List.append_assoc]
            · intro x hx
              rcases List.mem_append.mp hx with hx | hx
              · exact hfresh1 x hx
              · intro hxv
                refine hfresh2 x hx ((hinvm.visEq x).mpr ?_)
                rcases (hinv.visEq x).mp hxv with hxf | hxp
                · exact Or.inl (by
                    rw [hfin1]
                    exact List.mem_append.mpr (Or.inl hxf))
                · exact Or.inr (by rw [hpathm]; exact hxp)
          · intro x hx
            rcases List.mem_cons.mp hx with rfl | hx
            · rw [hfin2]
              refine List.mem_append.mpr (Or.inl ?_)
              rw [hfin1]
              exact List.mem_append.mpr (Or.inr hd1)
            · exact hmem x hx
    · rw [if_neg hd] at h
      push_neg at hd
      by_cases hr : d ∈ st.recStack
      · rw [if_pos hr] at h
        simp at h
      · rw [if_neg hr] at h
        have hrest := ih u st st' hinv hlast
          (fun x hx => hds x (List.mem_cons_of_mem d hx)) h
        obtain ⟨hinv', hrec', hpath', hext, hmem⟩ := hrest
        refine ⟨hinv', hrec', hpath', hext, ?_⟩
        intro x hx
        rcases List.mem_cons.mp hx with rfl | hx
        · have hdf : x ∈ st.finished := by
            rcases (hinv.visEq x).mp hd with hf | hp
            · exact hf
            · exact absurd ((hinv.recEq x).mpr hp) hr
          obtain ⟨t2, hfin2, _⟩ := hext
          rw [hfin2]
          exact List.mem_append.mpr (Or.inl hdf)
        · exact hmem x hx

theorem dfs_node_none_post (g : DependencyGraph) : ∀ fuel : Nat,
    ∀ u st st', DfsInv g st → u ∉ st.visited →
      (∀ p, st.path.getLast? = some p → u ∈ g.depsOf p) →
      dfs_cycle_detection g fuel u st = some (none, st') → NodePost g st st' u := by
  intro fuel
  induction fuel with
  | zero =>
    intro u st st' _ _ _ h
    simp [dfs_cycle_detection] at h
  | succ n ih =>
    intro u st st' hinv hu hchain h
    simp only [dfs_cycle_detection] at h
    have hu_path : u ∉ st.path := fun hp => hu ((hinv.visEq u).mpr (Or.inr hp))
    have hu_fin : u ∉ st.finished := fun hf => hu ((hinv.visEq u).mpr (Or.inl hf))
    have hu_rec : u ∉ st.recStack := fun hr => hu_path ((hinv.recEq u).mp hr)
    have hinv1 : DfsInv g ⟨insertSet u st.visited, insertSet u st.recStack,
        st.path ++ [u], st.finished⟩ := by
      constructor
      · rw [List.nodup_append]
        refine ⟨hinv.pathNodup, List.nodup_singleton u, ?_⟩
        intro a ha hb
        simp only [List.mem_singleton] at hb
        subst hb
        exact hu_path ha
      · rw [List.chain'_append]
        refine ⟨hinv.pathChain, List.chain'_singleton u, ?_⟩
        intro x hx y hy
        simp only [List.head?_cons, Option.mem_def, Option.some.injEq] at hy
        subst hy
        exact hchain x hx
      · intro x
        simp only [mem_insertSet, List.mem_append, List.mem_singleton]
        have := hinv.recEq x
        tauto
      · exact hinv.finNodup
      · intro x hx
        simp only [List.mem_append, List.mem_singleton]
        push_neg
        exact ⟨hinv.finPathDisj x hx, fun hxu => hu_fin (hxu ▸ hx)⟩
      · intro x
        simp only [mem_insertSet, List.mem_append, List.mem_singleton]
        have := hinv.visEq x
        tauto
      · exact hinv.topo
    cases hd : dfsDeps g n (g.depsOf u)
        ⟨insertSet u st.visited, insertSet u st.recStack, st.path ++ [u],
          st.finished⟩ with
    | none => rw [hd] at h; simp at h
    | some p =>
      obtain ⟨res, st2⟩ := p
      cases res with
      | some cyc => rw [hd] at h; simp at h
      | none =>
        rw [hd] at h
        simp only [Option.some.injEq, Prod.mk.injEq] at h
        obtain ⟨-, hst'⟩ := h
        have hpost2 := dfsDeps_none_post g n ih (g.depsOf u) u _ st2 hinv1
          (by simp [List.getLast?_concat]) (fun x hx => hx) hd
        obtain ⟨hinv2, hrec2, hpath2, ⟨t, hfin, hfresh⟩, hmem⟩ := hpost2
        simp only at hrec2 hpath2 hfin hfresh
        have hins : insertSet u st.recStack = u :: st.recStack := by
          unfold insertSet
          rw [if_neg hu_rec]
        have hrec' : st2.recStack.erase u = st.recStack := by
          rw [hrec2, hins]
          exact List.erase_cons_head u st.recStack
        have hpath' : st2.path.dropLast = st.path := by
          rw [hpath2]
          exact List.dropLast_concat
        have hufin2 : u ∉ st2.finished := by
          intro hc
          refine hinv2.finPathDisj u hc ?_
          rw [hpath2]
          exact List.mem_append.mpr (Or.inr (List.mem_singleton.mpr rfl))
        rw [← hst']
        have hinv' : DfsInv g ⟨st2.visited, st2.recStack.erase u,
            st2.path.dropLast, st2.finished ++ [u]⟩ := by
          constructor
          · show (st2.path.dropLast).Nodup
            rw [hpath']
            exact hinv.pathNodup
          · show (st2.path.dropLast).Chain' (hasEdge g)
            rw [hpath']
            exact hinv.pathChain
          · intro x
            show x ∈ st2.recStack.erase u ↔ x ∈ st2.path.dropLast
            rw [hrec', hpath']
            exact hinv.recEq x
          · show (st2.finished ++ [u]).Nodup
            rw [List.nodup_append]
            refine ⟨hinv2.finNodup, List.nodup_singleton u, ?_⟩
            intro a ha hb
            simp only [List.mem_singleton] at hb
            subst hb
            exact hufin2 ha
          · intro x hx
            show x ∉ st2.path.dropLast
            rw [hpath']
            rcases List.mem_append.mp hx with hx | hx
            · have := hinv2.finPathDisj x hx
              rw [hpath2] at this
              intro hc
              exact this (List.mem_append.mpr (Or.inl hc))
            · simp only [List.mem_singleton] at hx
              subst hx
              exact hu_path
          · intro x
            show x ∈ st2.visited ↔ x ∈ st2.finished ++ [u] ∨ x ∈ st2.path.dropLast
            rw [hpath']
            have h2 := hinv2.visEq x
            rw [hpath2] at h2
            simp only [List.mem_append, List.mem_singleton] at h2 ⊢
            tauto
          · show TopoSorted g (st2.finished ++ [u])
            exact topoSorted_append hinv2.topo (fun b hb => hmem b hb)
        refine ⟨hinv', hrec', hpath', ⟨t ++ [u], ?_, ?_, ?_⟩⟩
        · show st2.finished ++ [u] = st.finished ++ (t ++ [u])
          rw [hfin, List.append_assoc]
        · simp
        · intro x hx
          rcases List.mem_append.mp hx with hx | hx
          · intro hxv
            exact hfresh x hx (mem_insertSet.mpr (Or.inr hxv))
          · simp only [List.mem_singleton] at hx
            subst hx
            exact hu

theorem depsOf_subset_universe (g : DependencyGraph) (u : SpecId) :
    ∀ d ∈ g.depsOf u, d ∈ nodeUniverse g := by
  intro d hd
  unfold depsOf at hd
  cases hl : alookup g.dependencies u with
  | none => rw [hl] at hd; simp at hd
  | some l =>
    rw [hl] at hd
    simp only [Option.getD_some] at hd
    have hmem := alookup_mem hl
    unfold nodeUniverse
    refine List.mem_append.mpr (Or.inr ?_)
    rw [List.mem_flatten]
    exact ⟨l, List.mem_map.mpr ⟨(u, l), hmem, rfl⟩, hd⟩

theorem gkeys_subset_universe (g : DependencyGraph) :
    ∀ k ∈ g.gkeys, k ∈ nodeUniverse g := by
  intro k hk
  exact List.mem_append.mpr (Or.inl hk)

theorem card_lt_of_insert (g : DependencyGraph) {u : SpecId}
    {v : List SpecId} (hu : u ∈ nodeUniverse g) (hv : u ∉ v) :
    ((nodeUniverse g).toFinset \ (insertSet u v).toFinset).card
      < ((nodeUniverse g).toFinset \ v.toFinset).card := by
  have humem : u ∈ (nodeUniverse g).toFinset \ v.toFinset := by
    rw [Finset.mem_sdiff, List.mem_toFinset, List.mem_toFinset]
    exact ⟨hu, hv⟩
  have hsub : (nodeUniverse g).toFinset \ (insertSet u v).toFinset ⊆
      ((nodeUniverse g).toFinset \ v.toFinset).erase u := by
    intro x hx
    rw [Finset.mem_sdiff, List.mem_toFinset, List.mem_toFinset] at hx
    rw [Finset.mem_erase, Finset.mem_sdiff, List.mem_toFinset, List.mem_toFinset]
    refine ⟨?_, hx.1, ?_⟩
    · intro hxu
      exact hx.2 (by rw [hxu]; exact mem_insertSet.mpr (Or.inl rfl))
    · intro hxv
      exact hx.2 (mem_insertSet.mpr (Or.inr hxv))
  calc ((nodeUniverse g).toFinset \ (insertSet u v).toFinset).card
      ≤ (((nodeUniverse g).toFinset \ v.toFinset).erase u).card :=
        Finset.card_le_card hsub
    _ < ((nodeUniverse g).toFinset \ v.toFinset).card :=
        Finset.card_erase_lt_of_mem humem

theorem card_le_of_subset (g : DependencyGraph) {v v' : List SpecId}
    (hsub : ∀ x ∈ v, x ∈ v') :
    ((nodeUniverse g).toFinset \ v'.toFinset).card
      ≤ ((nodeUniverse g).toFinset \ v.toFinset).card := by
  refine Finset.card_le_card ?_
  intro x hx
  rw [Finset.mem_sdiff, List.mem_toFinset, List.mem_toFinset] at hx ⊢
  exact ⟨hx.1, fun hxv => hx.2 (hsub x hxv)⟩

theorem dfs_progress (g : DependencyGraph) : ∀ fuel : Nat,
    (∀ u st, u ∈ nodeUniverse g → u ∉ st.visited →
      ((nodeUniverse g).toFinset \ st.visited.toFinset).card ≤ fuel →
      dfs_cycle_detection g fuel u st ≠ none) ∧
    (∀ ds st, (∀ d ∈ ds, d ∈ nodeUniverse g) →
      ((nodeUniverse g).toFinset \ st.visited.toFinset).card ≤ fuel →
      dfsDeps g fuel ds st ≠ none) := by
  intro fuel
  induction fuel with
  | zero =>
    constructor
    · intro u st hu hv hc
      have : u ∈ (nodeUniverse g).toFinset \ st.visited.toFinset := by
        rw [Finset.mem_sdiff, List.mem_toFinset, List.mem_toFinset]
        exact ⟨hu, hv⟩
      have := Finset.card_pos.mpr ⟨u, this⟩
      omega
    · intro ds
      induction ds with
      | nil =>
        intro st _ _
        simp [dfsDeps]
      | cons d ds ih =>
        intro st hds hc
        simp only [dfsDeps]
        by_cases hd : d ∉ st.visited
        · rw [if_pos hd]
          have : d ∈ (nodeUniverse g).toFinset \ st.visited.toFinset := by
            rw [Finset.mem_sdiff, List.mem_toFinset, List.mem_toFinset]
            exact ⟨hds d (List.mem_cons_self d ds), hd⟩
          have := Finset.card_pos.mpr ⟨d, this⟩
          omega
        · rw [if_neg hd]
          by_cases hr : d ∈ st.recStack
          · rw [if_pos hr]
            simp
          · rw [if_neg hr]
            exact ih st (fun x hx => hds x (List.mem_cons_of_mem d hx)) hc
  | succ n ihn =>
    have hnode : ∀ u st, u ∈ nodeUniverse g → u ∉ st.visited →
        ((nodeUniverse g).toFinset \ st.visited.toFinset).card ≤ n + 1 →
        dfs_cycle_detection g (n + 1) u st ≠ none := by
      intro u st hu hv hc
      simp only [dfs_cycle_detection]
      cases hd : dfsDeps g n (g.depsOf u)
          ⟨insertSet u st.visited, insertSet u st.recStack, st.path ++ [u],
            st.finished⟩ with
      | none =>
        exfalso
        refine ihn.2 (g.depsOf u) _ (depsOf_subset_universe g u) ?_ hd
        have := card_lt_of_insert g hu hv
        simp only at this ⊢
        omega
      | some p =>
        obtain ⟨res, st2⟩ := p
        cases res <;> simp
    refine ⟨hnode, ?_⟩
    intro ds
    induction ds with
    | nil =>
      intro st _ _
      simp [dfsDeps]
    | cons d ds ih =>
      intro st hds hc
      simp only [dfsDeps]
      by_cases hd : d ∉ st.visited
      · rw [if_pos hd]
        cases hn : dfs_cycle_detection g (n + 1) d st with
        | none =>
          exact absurd hn (hnode d st (hds d (List.mem_cons_self d ds)) hd hc)
        | some p =>
          obtain ⟨res, stm⟩ := p
          cases res with
          | some cyc => simp
          | none =>
            have hmono := (dfs_visited_mono g (n + 1)).1 d st _ _ hn
            refine ih stm (fun x hx => hds x (List.mem_cons_of_mem d hx)) ?_
            have := card_le_of_subset g hmono
            omega
      · rw [if_neg hd]
        by_cases hr : d ∈ st.recStack
        · rw [if_pos hr]
          simp
        · rw [if_neg hr]
          exact ih st (fun x hx => hds x (List.mem_cons_of_mem d hx)) hc

theorem detectCycleAux_progress (g : DependencyGraph) :
    ∀ ks st, (∀ k ∈ ks, k ∈ nodeUniverse g) → detectCycleAux g ks st ≠ none := by
  intro ks
  induction ks with
  | nil =>
    intro st _
    simp [detectCycleAux]
  | cons k ks ih =>
    intro st hks
    simp only [detectCycleAux]
    by_cases hk : k ∉ st.visited
    · rw [if_pos hk]
      cases hn : dfs_cycle_detection g (dfsFuel g) k st with
      | none =>
        exfalso
        refine (dfs_progress g (dfsFuel g)).1 k st
          (hks k (List.mem_cons_self k ks)) hk ?_ hn
        have h1 : ((nodeUniverse g).toFinset \ st.visited.toFinset).card
            ≤ (nodeUniverse g).toFinset.card :=
          Finset.card_le_card (Finset.sdiff_subset)
        have h2 : (nodeUniverse g).toFinset.card ≤ (nodeUniverse g).length :=
          List.toFinset_card_le _
        unfold dfsFuel
        omega
      | some p =>
        obtain ⟨res, st'⟩ := p
        cases res with
        | some cyc => simp
        | none => exact ih st' (fun x hx => hks x (List.mem_cons_of_mem k hx))
    · rw [if_neg hk]
      exact ih st (fun x hx => hks x (List.mem_cons_of_mem k hx))

theorem detectCycleAux_none_post (g : DependencyGraph) :
    ∀ ks st st', DfsInv g st → st.path = [] →
      detectCycleAux g ks st = some (none, st') →
      DfsInv g st' ∧ st'.path = [] ∧ (∀ k ∈ ks, k ∈ st'.finished) ∧
      (∃ t, st'.finished = st.finished ++ t) := by
  intro ks
  induction ks with
  | nil =>
    intro st st' hinv hpath h
    simp only [detectCycleAux, Option.some.injEq, Prod.mk.injEq] at h
    rw [← h.2]
    exact ⟨hinv, hpath, by simp, ⟨[], by simp⟩⟩
  | cons k ks ih =>
    intro st st' hinv hpath h
    simp only [detectCycleAux] at h
    by_cases hk : k ∉ st.visited
    · rw [if_pos hk] at h
      cases hn : dfs_cycle_detection g (dfsFuel g) k st with
      | none => rw [hn] at h; simp at h
      | some p =>
        obtain ⟨res, stm⟩ := p
        cases res with
        | some cyc => rw [hn] at h; simp at h
        | none =>
          rw [hn] at h
          have hpost := dfs_node_none_post g (dfsFuel g) k st stm hinv hk
            (by
              intro p hp
              rw [hpath] at hp
              simp at hp) hn
          obtain ⟨hinvm, hrecm, hpathm, t, hfin, hkt, hfresh⟩ := hpost
          have hpathm' : stm.path = [] := by rw [hpathm, hpath]
          obtain ⟨hinv', hpath', hks', t2, hfin2⟩ := ih stm st' hinvm hpathm' h
          refine ⟨hinv', hpath', ?_, ⟨t ++ t2, by rw [hfin2, hfin, List.append_assoc]⟩⟩
          intro x hx
          rcases List.mem_cons.mp hx with rfl | hx
          · rw [hfin2, hfin]
            exact List.mem_append.mpr (Or.inl (List.mem_append.mpr (Or.inr hkt)))
          · exact hks' x hx
    · rw [if_neg hk] at h
      push_neg at hk
      obtain ⟨hinv', hpath', hks', t2, hfin2⟩ := ih st st' hinv hpath h
      refine ⟨hinv', hpath', ?_, ⟨t2, hfin2⟩⟩
      intro x hx
      rcases List.mem_cons.mp hx with rfl | hx
      · have hf : x ∈ st.finished := by
          rcases (hinv.visEq x).mp hk with hf | hp
          · exact hf
          · rw [hpath] at hp
            simp at hp
        rw [hfin2]
        exact List.mem_append.mpr (Or.inl hf)
      · exact hks' x hx

theorem dfsInv_init (g : DependencyGraph) :
    DfsInv g ⟨[], [], [], []⟩ := by
  constructor
  · exact List.nodup_nil
  · exact List.chain'_nil
  · intro x
    simp
  · exact List.nodup_nil
  · intro x hx
    simp at hx
  · intro x
    simp
  · exact topoSorted_nil g

/-- When `detect_cycle` reports no cycle, the DFS finishing order is a
topological listing of the graph. -/
theorem detect_cycle_none_topo {g : DependencyGraph}
    (h : g.detect_cycle = none) : ∃ L, GoodTopo g L := by
  unfold detect_cycle at h
  cases haux : detectCycleAux g g.gkeys ⟨[], [], [], []⟩ with
  | none =>
    exact absurd haux (detectCycleAux_progress g g.gkeys _ (gkeys_subset_universe g))
  | some p =>
    obtain ⟨res, stf⟩ := p
    rw [haux] at h
    simp only at h
    subst h
    obtain ⟨hinvf, hpathf, hks, _⟩ :=
      detectCycleAux_none_post g g.gkeys _ _ (dfsInv_init g) rfl haux
    exact ⟨stf.finished, hinvf.finNodup, hks, hinvf.topo⟩

theorem dfsInv_push {g : DependencyGraph} {st : DfsSt} {u : SpecId}
    (hinv : DfsInv g st) (hu : u ∉ st.visited)
    (hchain : ∀ p, st.path.getLast? = some p → u ∈ g.depsOf p) :
    DfsInv g ⟨insertSet u st.visited, insertSet u st.recStack,
      st.path ++ [u], st.finished⟩ := by
  have hu_path : u ∉ st.path := fun hp => hu ((hinv.visEq u).mpr (Or.inr hp))
  have hu_fin : u ∉ st.finished := fun hf => hu ((hinv.visEq u).mpr (Or.inl hf))
  constructor
  · rw [List.nodup_append]
    refine ⟨hinv.pathNodup, List.nodup_singleton u, ?_⟩
    intro a ha hb
    simp only [List.mem_singleton] at hb
    subst hb
    exact hu_path ha
  · rw [List.chain'_append]
    refine ⟨hinv.pathChain, List.chain'_singleton u, ?_⟩
    intro x hx y hy
    simp only [List.head?_cons, Option.mem_def, Option.some.injEq] at hy
    subst hy
    exact hchain x hx
  · intro x
    simp only [mem_insertSet, List.mem_append, List.mem_singleton]
    have := hinv.recEq x
    tauto
  · exact hinv.finNodup
  · intro x hx
    simp only [List.mem_append, List.mem_singleton]
    push_neg
    exact ⟨hinv.finPathDisj x hx, fun hxu => hu_fin (hxu ▸ hx)⟩
  · intro x
    simp only [mem_insertSet, List.mem_append, List.mem_singleton]
    have := hinv.visEq x
    tauto
  · exact hinv.topo

theorem semCycle_of_found {g : DependencyGraph} {st : DfsSt} {u d : SpecId}
    (hinv : DfsInv g st) (hlast : st.path.getLast? = some u)
    (hd : d ∈ g.depsOf u) (hrec : d ∈ st.recStack) : SemCycle g := by
  have hdp : d ∈ st.path := (hinv.recEq d).mp hrec
  have hi : st.path.indexOf d < st.path.length := List.indexOf_lt_length.mpr hdp
  set i := st.path.indexOf d with hidef
  have hdropne : st.path.drop i ≠ [] := by
    intro hc
    have := List.length_drop i st.path
    rw [hc] at this
    simp at this
    omega
  have hhead : (st.path.drop i).head? = some d := by
    have h0 : (st.path.drop i).head? = st.path[i]? := by
      rw [List.head?_eq_getElem?, List.getElem?_drop]
      simp
    rw [h0, List.getElem?_eq_getElem hi]
    rw [List.getElem_indexOf hi]
  have hlastd : (st.path.drop i).getLast? = some u := by
    have := List.take_append_drop i st.path
    have h2 : (st.path.take i ++ st.path.drop i).getLast? = some u := by
      rw [this]; exact hlast
    rw [List.getLast?_append] at h2
    cases hld : (st.path.drop i).getLast? with
    | none => exact absurd hld (by simpa using List.getLast?_isSome.mpr hdropne)
    | some v =>
      rw [hld] at h2
      simp at h2
      exact congrArg some h2
  refine ⟨st.path.drop i ++ [d], ?_, ?_, ?_⟩
  · rw [List.chain'_append]
    refine ⟨hinv.pathChain.drop i, List.chain'_singleton d, ?_⟩
    intro x hx y hy
    simp only [List.head?_cons, Option.mem_def, Option.some.injEq] at hy
    subst hy
    rw [Option.mem_def, hlastd] at hx
    obtain rfl := Option.some.inj hx
    exact hd
  · have h1 : 1 ≤ (st.path.drop i).length := by
      rw [List.length_drop]
      omega
    simp only [List.length_append, List.length_singleton]
    omega
  · rw [List.head?_append, hhead]
    rw [List.getLast?_concat]
    rfl

theorem dfsDeps_some_cycle (g : DependencyGraph) (fuel : Nat)
    (Hnode : ∀ u st r st', DfsInv g st → u ∉ st.visited →
      (∀ p, st.path.getLast? = some p → u ∈ g.depsOf p) →
      dfs_cycle_detection g fuel u st = some (some r, st') → SemCycle g) :
    ∀ ds u st r st', DfsInv g st → st.path.getLast? = some u →
      (∀ d ∈ ds, d ∈ g.depsOf u) →
      dfsDeps g fuel ds st = some (some r, st') → SemCycle g := by
  intro ds
  induction ds with
  | nil =>
    intro u st r st' _ _ _ h
    simp [dfsDeps] at h
  | cons d ds ih =>
    intro u st r st' hinv hlast hds h
    simp only [dfsDeps] at h
    by_cases hd : d ∉ st.visited
    · rw [if_pos hd] at h
      cases hn : dfs_cycle_detection g fuel d st with
      | none => rw [hn] at h; simp at h
      | some p =>
        obtain ⟨res, stm⟩ := p
        cases res with
        | some cyc =>
          refine Hnode d st cyc stm hinv hd ?_ hn
          intro p hp
          rw [hlast] at hp
          obtain rfl := Option.some.inj hp
          exact hds d (List.mem_cons_self d ds)
        | none =>
          rw [hn] at h
          have hpostm := dfs_node_none_post g fuel d st stm hinv hd
            (by
              intro p hp
              rw [hlast] at hp
              obtain rfl := Option.some.inj hp
              exact hds d (List.mem_cons_self d ds)) hn
          obtain ⟨hinvm, hrecm, hpathm, _⟩ := hpostm
          exact ih u stm r st' hinvm (by rw [hpathm]; exact hlast)
            (fun x hx => hds x (List.mem_cons_of_mem d hx)) h
    · rw [if_neg hd] at h
      push_neg at hd
      by_cases hr : d ∈ st.recStack
      · exact semCycle_of_found hinv hlast (hds d (List.mem_cons_self d ds)) hr
      · rw [if_neg hr] at h
        exact ih u st r st' hinv hlast
          (fun x hx => hds x (List.mem_cons_of_mem d hx)) h

theorem dfs_node_some_cycle (g : DependencyGraph) : ∀ fuel : Nat,
    ∀ u st r st', DfsInv g st → u ∉ st.visited →
      (∀ p, st.path.getLast? = some p → u ∈ g.depsOf p) →
      dfs_cycle_detection g fuel u st = some (some r, st') → SemCycle g := by
  intro fuel
  induction fuel with
  | zero =>
    intro u st r st' _ _ _ h
    simp [dfs_cycle_detection] at h
  | succ n ih =>
    intro u st r st' hinv hu hchain h
    simp only [dfs_cycle_detection] at h
    have hinv1 : DfsInv g ⟨insertSet u st.visited, insertSet u st.recStack,
        st.path ++ [u], st.finished⟩ := dfsInv_push hinv hu hchain
    cases hd : dfsDeps g n (g.depsOf u)
        ⟨insertSet u st.visited, insertSet u st.recStack, st.path ++ [u],
          st.finished⟩ with
    | none => rw [hd] at h; simp at h
    | some p =>
      obtain ⟨res, st2⟩ := p
      cases res with
      | some cyc =>
        exact dfsDeps_some_cycle g n ih (g.depsOf u) u _ cyc st2 hinv1
          (by simp [List.getLast?_concat]) (fun x hx => hx) hd
      | none => rw [hd] at h; simp at h

theorem detectCycleAux_some_cycle (g : DependencyGraph) :
    ∀ ks st r st', DfsInv g st → st.path = [] →
      detectCycleAux g ks st = some (some r, st') → SemCycle g := by
  intro ks
  induction ks with
  | nil =>
    intro st r st' _ _ h
    simp [detectCycleAux] at h
  | cons k ks ih =>
    intro st r st' hinv hpath h
    simp only [detectCycleAux] at h
    by_cases hk : k ∉ st.visited
    · rw [if_pos hk] at h
      cases hn : dfs_cycle_detection g (dfsFuel g) k st with
      | none => rw [hn] at h; simp at h
      | some p =>
        obtain ⟨res, stm⟩ := p
        cases res with
        | some cyc =>
          refine dfs_node_some_cycle g (dfsFuel g) k st cyc stm hinv hk ?_ hn
          intro p hp
          rw [hpath] at hp
          simp at hp
        | none =>
          rw [hn] at h
          have hpost := dfs_node_none_post g (dfsFuel g) k st stm hinv hk
            (by
              intro p hp
              rw [hpath] at hp
              simp at hp) hn
          obtain ⟨hinvm, _, hpathm, _⟩ := hpost
          exact ih stm r st' hinvm (by rw [hpathm, hpath]) h
    · rw [if_neg hk] at h
      exact ih st r st' hinv hpath h

/-- Soundness of `detect_cycle`: a reported cycle means a semantic cycle
exists. -/
theorem detect_cycle_some_semCycle {g : DependencyGraph} {c : List SpecId}
    (h : g.detect_cycle = some c) : SemCycle g := by
  unfold detect_cycle at h
  cases haux : detectCycleAux g g.gkeys ⟨[], [], [], []⟩ with
  | none => rw [haux] at h; simp at h
  | some p =>
    obtain ⟨res, stf⟩ := p
    rw [haux] at h
    simp only at h
    subst h
    exact detectCycleAux_some_cycle g g.gkeys _ c stf (dfsInv_init g) rfl haux

theorem indexOf_lt_of_mem_take {L : List SpecId} {x : SpecId} {i : Nat}
    (h : x ∈ L.take i) : L.indexOf x < i := by
  have h1 : L.indexOf x = (L.take i).indexOf x := by
    conv_lhs => rw [← List.take_append_drop i L]
    exact List.indexOf_append_of_mem h
  have h2 : (L.take i).indexOf x < (L.take i).length :=
    List.indexOf_lt_length.mpr h
  have h3 : (L.take i).length ≤ i := by
    rw [List.length_take]
    omega
  omega

theorem hasEdge_key {g : DependencyGraph} {a b : SpecId} (h : hasEdge g a b) :
    a ∈ g.gkeys := by
  unfold hasEdge DependencyGraph.depsOf at h
  cases hl : alookup g.dependencies a with
  | none => rw [hl] at h; simp at h
  | some l =>
    have hs : (alookup g.dependencies a).isSome = true := by simp [hl]
    exact alookup_isSome.mp hs

theorem goodTopo_edge_lt {g : DependencyGraph} {L : List SpecId}
    (hG : GoodTopo g L) {a b : SpecId} (h : hasEdge g a b) :
    L.indexOf b < L.indexOf a := by
  obtain ⟨hnd, hall, htopo⟩ := hG
  have ha : a ∈ L := hall a (hasEdge_key h)
  have hi : L.indexOf a < L.length := List.indexOf_lt_length.mpr ha
  have hget : L[L.indexOf a] = a := List.getElem_indexOf hi
  have := htopo (L.indexOf a) hi b (by rw [hget]; exact h)
  exact indexOf_lt_of_mem_take this

theorem goodTopo_chain_lt {g : DependencyGraph} {L : List SpecId}
    (hG : GoodTopo g L) : ∀ p : List SpecId, p.Chain' (hasEdge g) →
      ∀ x y, p.head? = some x → p.getLast? = some y → 2 ≤ p.length →
      L.indexOf y < L.indexOf x := by
  intro p
  induction p with
  | nil =>
    intro _ x y hx _ _
    simp at hx
  | cons a q ih =>
    intro hc x y hx hy hlen
    simp only [List.head?_cons, Option.some.injEq] at hx
    subst hx
    cases q with
    | nil => simp at hlen
    | cons b q' =>
      rw [List.chain'_cons] at hc
      have hba : L.indexOf b < L.indexOf a := goodTopo_edge_lt hG hc.1
      cases q' with
      | nil =>
        simp only [List.getLast?_cons_cons, List.getLast?_singleton,
          Option.some.injEq] at hy
        subst hy
        exact hba
      | cons c q'' =>
        have hyb : L.indexOf y < L.indexOf b := by
          refine ih hc.2 b y (by simp) ?_ (by simp)
          rw [← hy]
          simp [List.getLast?_cons_cons]
        omega

/-- A topological listing rules out semantic cycles. -/
theorem goodTopo_no_semCycle {g : DependencyGraph} {L : List SpecId}
    (hG : GoodTopo g L) : ¬ SemCycle g := by
  rintro ⟨p, hc, hlen, hhl⟩
  have hne : p ≠ [] := by
    intro hc2
    rw [hc2] at hlen
    simp at hlen
  obtain ⟨x, hx⟩ := Option.isSome_iff_exists.mp (by
    rw [List.head?_isSome]
    exact hne)
  have hy : p.getLast? = some x := by rw [← hhl, hx]
  exact absurd (goodTopo_chain_lt hG p hc x x hx hy hlen) (lt_irrefl _)

/-- On reachable graphs `detect_cycle` finds a cycle exactly when one
exists; the `none` direction used everywhere below. -/
theorem detect_cycle_none_of_no_semCycle {g : DependencyGraph}
    (h : ¬ SemCycle g) : g.detect_cycle = none := by
  cases hd : g.detect_cycle with
  | none => rfl
  | some c => exact absurd (detect_cycle_some_semCycle hd) h

/-! ### Counting lemmas for Kahn's algorithm -/

theorem consumedCount_nil (g : DependencyGraph) (x : SpecId) :
    consumedCount g [] x = 0 := rfl

theorem consumedCount_append (g : DependencyGraph) (R : List SpecId)
    (s x : SpecId) :
    consumedCount g (R ++ [s]) x
      = consumedCount g R x + (g.depsOf s).count x := by
  unfold consumedCount
  rw [List.map_append, List.flatten_append, List.count_append]
  simp

theorem map_snd_eq_map_lookup {β : Type} (dflt : β) :
    ∀ m : List (SpecId × β), (akeys m).Nodup →
      m.map Prod.snd = (akeys m).map (fun k => (alookup m k).getD dflt) := by
  intro m
  induction m with
  | nil => intro _; rfl
  | cons p rest ih =>
    intro hnd
    obtain ⟨k, v⟩ := p
    simp only [akeys, List.map_cons, List.nodup_cons] at hnd ⊢
    rw [show (alookup ((k, v) :: rest) k).getD dflt = v by simp [alookup]]
    congr 1
    rw [ih hnd.2]
    refine List.map_congr_left ?_
    intro x hx
    have hxk : ¬ (k = x) := by
      intro hh
      exact hnd.1 (hh ▸ hx)
    simp [alookup, hxk]

theorem occCount_eq_over_keys {g : DependencyGraph} (hnd : g.gkeys.Nodup)
    (x : SpecId) : occCount g x = consumedCount g g.gkeys x := by
  unfold occCount consumedCount
  congr 1
  rw [map_snd_eq_map_lookup [] g.dependencies hnd]
  rfl

theorem exists_perm_filter {R L : List SpecId} (hRnd : R.Nodup)
    (hLnd : L.Nodup) (hsub : ∀ x ∈ R, x ∈ L) :
    L.Perm (R ++ L.filter (fun x => x ∉ R)) := by
  have hnd2 : (R ++ L.filter (fun x => x ∉ R)).Nodup := by
    rw [List.nodup_append]
    refine ⟨hRnd, hLnd.filter _, ?_⟩
    intro a ha hb
    have := List.of_mem_filter hb
    simp at this
    exact this ha
  rw [List.perm_ext_iff_of_nodup hLnd hnd2]
  intro a
  constructor
  · intro haL
    by_cases haR : a ∈ R
    · exact List.mem_append.mpr (Or.inl haR)
    · refine List.mem_append.mpr (Or.inr ?_)
      rw [List.mem_filter]
      simpa [haR] using haL
  · intro ha
    rcases List.mem_append.mp ha with ha | ha
    · exact hsub a ha
    · exact List.mem_of_mem_filter ha

theorem consumedCount_perm (g : DependencyGraph) {R R' : List SpecId}
    (h : R.Perm R') (x : SpecId) :
    consumedCount g R x = consumedCount g R' x := by
  unfold consumedCount
  exact ((h.map (fun a => g.depsOf a)).flatten).count_eq x

theorem consumedCount_split {g : DependencyGraph} {R : List SpecId}
    (hnd : g.gkeys.Nodup) (hRnd : R.Nodup) (hsub : ∀ x ∈ R, x ∈ g.gkeys)
    (x : SpecId) :
    occCount g x = consumedCount g R x
      + consumedCount g (g.gkeys.filter (fun y => y ∉ R)) x := by
  rw [occCount_eq_over_keys hnd x,
    consumedCount_perm g (exists_perm_filter hRnd hnd hsub) x]
  unfold consumedCount
  rw [List.map_append, List.flatten_append, List.count_append]

/-- If the processed occurrences of `x` already account for all of them,
every node recording `x` as a prerequisite has been processed. -/
theorem owner_mem_of_consumed_eq {g : DependencyGraph} {R : List SpecId}
    (hnd : g.gkeys.Nodup) (hRnd : R.Nodup) (hsub : ∀ x ∈ R, x ∈ g.gkeys)
    {x a : SpecId} (heq : consumedCount g R x = occCount g x)
    (hedge : hasEdge g a x) : a ∈ R := by
  by_contra haR
  have ha : a ∈ g.gkeys := hasEdge_key hedge
  have hsplit := consumedCount_split hnd hRnd hsub x
  have hzero : consumedCount g (g.gkeys.filter (fun y => y ∉ R)) x = 0 := by
    omega
  have hafil : a ∈ g.gkeys.filter (fun y => y ∉ R) := by
    rw [List.mem_filter]
    simp [ha, haR]
  have hsubl : List.Sublist (g.depsOf a)
      (((g.gkeys.filter (fun y => y ∉ R)).map (fun a => g.depsOf a)).flatten) :=
    List.sublist_flatten_of_mem (List.mem_map.mpr ⟨a, hafil, rfl⟩)
  have hcnt : (g.depsOf a).count x = 0 := by
    have := hsubl.count_le x
    unfold consumedCount at hzero
    omega
  rw [List.count_eq_zero] at hcnt
  exact hcnt hedge

/-! ### Characterizing `buildInDegree` -/

theorem alookup_eq_some_of_mem_nodup {β : Type} :
    ∀ {m : List (SpecId × β)} {x : SpecId} {v : β}, (akeys m).Nodup →
      (x, v) ∈ m → alookup m x = some v := by
  intro m
  induction m with
  | nil =>
    intro x v _ h
    simp at h
  | cons p rest ih =>
    intro x v hnd hmem
    obtain ⟨k, w⟩ := p
    simp only [akeys, List.map_cons, List.nodup_cons] at hnd
    rcases List.mem_cons.mp hmem with heq | hmem'
    · obtain ⟨rfl, rfl⟩ := Prod.mk.injEq .. ▸ heq
      · simp [alookup]
    · have hkx : ¬ (k = x) := by
        intro hh
        subst hh
        exact hnd.1 (mem_akeys.mpr ⟨v, hmem'⟩)
      simp only [alookup, if_neg hkx]
      exact ih hnd.2 hmem'

theorem flatten_mem_keys {g : DependencyGraph} (hnd : g.gkeys.Nodup)
    (hcl : Closed g) :
    ∀ d ∈ (g.dependencies.map Prod.snd).flatten, d ∈ g.gkeys := by
  intro d hd
  rw [List.mem_flatten] at hd
  obtain ⟨l, hl, hdl⟩ := hd
  rw [List.mem_map] at hl
  obtain ⟨⟨a, l'⟩, hmem, hpr⟩ := hl
  dsimp at hpr
  have hlk : alookup g.dependencies a = some l' :=
    alookup_eq_some_of_mem_nodup hnd hmem
  refine hcl a d ?_
  unfold hasEdge DependencyGraph.depsOf
  rw [hlk]
  simpa [hpr] using hdl

theorem ensure0_fold_some :
    ∀ (ks : List SpecId) (m : List (SpecId × Nat)) (x : SpecId) (v : Nat),
      alookup m x = some v → alookup (ks.foldl DependencyGraph.ensure0 m) x = some v := by
  intro ks
  induction ks with
  | nil =>
    intro m x v h
    simpa using h
  | cons k ks ih =>
    intro m x v h
    simp only [List.foldl_cons]
    refine ih _ x v ?_
    unfold DependencyGraph.ensure0
    cases hk : alookup m k with
    | some w => exact h
    | none => exact alookup_append_of_isSome h

theorem ensure0_fold_fresh :
    ∀ (ks : List SpecId) (m : List (SpecId × Nat)) (x : SpecId),
      alookup m x = none → x ∈ ks →
      alookup (ks.foldl DependencyGraph.ensure0 m) x = some 0 := by
  intro ks
  induction ks with
  | nil =>
    intro m x _ h
    simp at h
  | cons k ks ih =>
    intro m x hnone hmem
    simp only [List.foldl_cons]
    by_cases hkx : k = x
    · subst hkx
      refine ensure0_fold_some ks _ k 0 ?_
      unfold DependencyGraph.ensure0
      rw [hnone]
      rw [alookup_append_of_none hnone]
      simp [alookup]
    · have hnone' : alookup (DependencyGraph.ensure0 m k) x = none := by
        unfold DependencyGraph.ensure0
        cases hk : alookup m k with
        | some w => exact hnone
        | none =>
          rw [alookup_append_of_none hnone]
          simp [alookup, hkx]
      have hmem' : x ∈ ks := by
        rcases List.mem_cons.mp hmem with h | h
        · exact absurd h.symm hkx
        · exact h
      exact ih _ x hnone' hmem'

theorem ensure0_fold_none :
    ∀ (ks : List SpecId) (m : List (SpecId × Nat)) (x : SpecId),
      alookup m x = none → x ∉ ks →
      alookup (ks.foldl DependencyGraph.ensure0 m) x = none := by
  intro ks
  induction ks with
  | nil =>
    intro m x h _
    simpa using h
  | cons k ks ih =>
    intro m x hnone hmem
    simp only [List.mem_cons] at hmem
    push_neg at hmem
    simp only [List.foldl_cons]
    refine ih _ x ?_ hmem.2
    unfold DependencyGraph.ensure0
    cases hk : alookup m k with
    | some w => exact hnone
    | none =>
      rw [alookup_append_of_none hnone]
      have hne : ¬ (k = x) := fun hh => hmem.1 hh.symm
      simp [alookup, hne]

theorem ensure0_fold_keys :
    ∀ (ks : List SpecId) (m : List (SpecId × Nat)), ks.Nodup →
      (∀ k ∈ ks, k ∉ akeys m) →
      akeys (ks.foldl DependencyGraph.ensure0 m) = akeys m ++ ks := by
  intro ks
  induction ks with
  | nil =>
    intro m _ _
    simp
  | cons k ks ih =>
    intro m hnd hfresh
    simp only [List.nodup_cons] at hnd
    have hkm : k ∉ akeys m := hfresh k (List.mem_cons_self k ks)
    have hke : DependencyGraph.ensure0 m k = m ++ [(k, 0)] := by
      unfold DependencyGraph.ensure0
      rw [alookup_eq_none.mpr hkm]
    simp only [List.foldl_cons, hke]
    rw [ih (m ++ [(k, 0)]) hnd.2 ?_]
    · rw [akeys_append]
      simp [akeys]
    · intro k' hk'
      rw [akeys_append]
      simp only [List.mem_append, akeys, List.map_cons, List.map_nil,
        List.mem_singleton]
      push_neg
      refine ⟨fun hc => hfresh k' (List.mem_cons_of_mem k hk') hc, ?_⟩
      intro hc
      exact hnd.1 (hc ▸ hk')

theorem bump_fold_some :
    ∀ (ws : List SpecId) (m : List (SpecId × Nat)) (x : SpecId) (v : Nat),
      alookup m x = some v →
      alookup (ws.foldl DependencyGraph.bump m) x = some (v + ws.count x) := by
  intro ws
  induction ws with
  | nil =>
    intro m x v h
    simpa using h
  | cons w ws ih =>
    intro m x v h
    simp only [List.foldl_cons]
    by_cases hwx : w = x
    · subst hwx
      have hmem : w ∈ akeys m := by
        rw [← alookup_isSome]
        simp [h]
      have h1 : alookup (DependencyGraph.bump m w) w = some (v + 1) := by
        unfold DependencyGraph.bump
        rw [h]
        exact alookup_aupdate_self (v + 1) hmem
      rw [ih _ w (v + 1) h1, List.count_cons_self]
      congr 1
      omega
    · have h1 : alookup (DependencyGraph.bump m w) x = some v := by
        unfold DependencyGraph.bump
        cases hw : alookup m w with
        | some vw => rw [alookup_aupdate_ne _ (fun hh => hwx hh.symm)]; exact h
        | none => exact alookup_append_of_isSome h
      rw [ih _ x v h1, List.count_cons_of_ne (fun hh => hwx hh.symm)]

theorem bump_fold_none_notmem :
    ∀ (ws : List SpecId) (m : List (SpecId × Nat)) (x : SpecId),
      alookup m x = none → x ∉ ws →
      alookup (ws.foldl DependencyGraph.bump m) x = none := by
  intro ws
  induction ws with
  | nil =>
    intro m x h _
    simpa using h
  | cons w ws ih =>
    intro m x hnone hmem
    simp only [List.mem_cons] at hmem
    push_neg at hmem
    simp only [List.foldl_cons]
    refine ih _ x ?_ hmem.2
    unfold DependencyGraph.bump
    cases hw : alookup m w with
    | some vw =>
      rw [alookup_aupdate_ne _ (fun hh : x = w => hmem.1 hh)]
      exact hnone
    | none =>
      rw [alookup_append_of_none hnone]
      have hne : ¬ (w = x) := fun hh => hmem.1 hh.symm
      simp [alookup, hne]

theorem bump_fold_keys_of_mem :
    ∀ (ws : List SpecId) (m : List (SpecId × Nat)),
      (∀ w ∈ ws, w ∈ akeys m) →
      akeys (ws.foldl DependencyGraph.bump m) = akeys m := by
  intro ws
  induction ws with
  | nil =>
    intro m _
    rfl
  | cons w ws ih =>
    intro m hmem
    simp only [List.foldl_cons]
    have hw : w ∈ akeys m := hmem w (List.mem_cons_self w ws)
    obtain ⟨vw, hvw⟩ := alookup_isSome_of_mem_akeys hw
    have hb : DependencyGraph.bump m w = aupdate m w (vw + 1) := by
      unfold DependencyGraph.bump
      rw [hvw]
    rw [hb, ih _ ?_, akeys_aupdate]
    intro w' hw'
    rw [akeys_aupdate]
    exact hmem w' (List.mem_cons_of_mem w hw')

theorem buildInDegree_eq_flatten (g : DependencyGraph) :
    DependencyGraph.buildInDegree g
      = ((g.dependencies.map Prod.snd).flatten).foldl DependencyGraph.bump
        (g.gkeys.foldl DependencyGraph.ensure0 []) := by
  unfold DependencyGraph.buildInDegree
  generalize (g.gkeys.foldl DependencyGraph.ensure0 []) = base
  induction g.dependencies generalizing base with
  | nil => rfl
  | cons p ps ih =>
    simp only [List.foldl_cons, List.map_cons, List.flatten_cons,
      List.foldl_append]
    exact ih _

theorem buildInDegree_lookup {g : DependencyGraph} (hnd : g.gkeys.Nodup)
    (hcl : Closed g) (x : SpecId) :
    alookup (DependencyGraph.buildInDegree g) x =
      if x ∈ g.gkeys then some (occCount g x) else none := by
  rw [buildInDegree_eq_flatten]
  by_cases hx : x ∈ g.gkeys
  · rw [if_pos hx]
    have hbase : alookup (g.gkeys.foldl DependencyGraph.ensure0 []) x = some 0 :=
      ensure0_fold_fresh g.gkeys [] x rfl hx
    rw [bump_fold_some _ _ x 0 hbase]
    unfold occCount
    simp
  · rw [if_neg hx]
    have hbase : alookup (g.gkeys.foldl DependencyGraph.ensure0 []) x = none :=
      ensure0_fold_none g.gkeys [] x rfl hx
    refine bump_fold_none_notmem _ _ x hbase ?_
    intro hc
    exact hx (flatten_mem_keys hnd hcl x hc)

theorem buildInDegree_keys {g : DependencyGraph} (hnd : g.gkeys.Nodup)
    (hcl : Closed g) : akeys (DependencyGraph.buildInDegree g) = g.gkeys := by
  rw [buildInDegree_eq_flatten]
  have hbasekeys : akeys (g.gkeys.foldl DependencyGraph.ensure0 []) = g.gkeys := by
    have := ensure0_fold_keys g.gkeys [] hnd (by simp [akeys])
    simpa [akeys] using this
  rw [bump_fold_keys_of_mem, hbasekeys]
  intro w hw
  rw [hbasekeys]
  exact flatten_mem_keys hnd hcl w hw

/-! ### The decrement loop of `topological_sort` -/

theorem count_le_count_cons (x d : SpecId) (ds : List SpecId) :
    ds.count x ≤ (d :: ds).count x := by
  by_cases h : x = d
  · subst h
    rw [List.count_cons_self]
    omega
  · rw [List.count_cons_of_ne h]

theorem decDeps_spec :
    ∀ (ds : List SpecId) (deg : List (SpecId × Nat)) (q : List SpecId),
      (∀ x v, alookup deg x = some v → ds.count x ≤ v) →
      akeys (decDeps ds (deg, q)).1 = akeys deg ∧
      (∀ x v, alookup deg x = some v →
        alookup (decDeps ds (deg, q)).1 x = some (v - ds.count x)) ∧
      (∀ x, alookup deg x = none → alookup (decDeps ds (deg, q)).1 x = none) ∧
      (∃ nq, (decDeps ds (deg, q)).2 = q ++ nq ∧ nq.Nodup ∧
        (∀ x, x ∈ nq ↔ ∃ v, alookup deg x = some v ∧ 0 < v ∧ v = ds.count x)) := by
  intro ds
  induction ds with
  | nil =>
    intro deg q _
    refine ⟨rfl, ?_, ?_, ⟨[], by simp [decDeps], by simp, ?_⟩⟩
    · intro x v h
      simpa [decDeps] using h
    · intro x h
      simpa [decDeps] using h
    · intro x
      simp
  | cons d ds ih =>
    intro deg q hsafe
    simp only [decDeps]
    cases hd : alookup deg d with
    | none =>
      have hsafe' : ∀ x v, alookup deg x = some v → ds.count x ≤ v := by
        intro x v h
        exact le_trans (count_le_count_cons x d ds) (hsafe x v h)
      obtain ⟨hk, hv, hn, nq, hq, hnd, hchar⟩ := ih deg q hsafe'
      refine ⟨hk, ?_, hn, ⟨nq, hq, hnd, ?_⟩⟩
      · intro x v h
        have hxd : x ≠ d := by
          intro hh
          rw [hh, hd] at h
          exact Option.noConfusion h
        rw [hv x v h, List.count_cons_of_ne hxd]
      · intro x
        rw [hchar x]
        constructor
        · rintro ⟨v, hvx, hpos, hcnt⟩
          have hxd : x ≠ d := by
            intro hh
            rw [hh, hd] at hvx
            exact Option.noConfusion hvx
          exact ⟨v, hvx, hpos, by rw [List.count_cons_of_ne hxd]; exact hcnt⟩
        · rintro ⟨v, hvx, hpos, hcnt⟩
          have hxd : x ≠ d := by
            intro hh
            rw [hh, hd] at hvx
            exact Option.noConfusion hvx
          rw [List.count_cons_of_ne hxd] at hcnt
          exact ⟨v, hvx, hpos, hcnt⟩
    | some v =>
      have hdmem : d ∈ akeys deg := by
        rw [← alookup_isSome]
        simp [hd]
      have hcnt_d : ds.count d + 1 ≤ v := by
        have := hsafe d v hd
        rw [List.count_cons_self] at this
        omega
      have hlk1 : alookup (aupdate deg d (v - 1)) d = some (v - 1) :=
        alookup_aupdate_self (v - 1) hdmem
      have hsafe1 : ∀ x w, alookup (aupdate deg d (v - 1)) x = some w →
          ds.count x ≤ w := by
        intro x w h
        by_cases hxd : x = d
        · subst hxd
          rw [hlk1] at h
          obtain rfl := Option.some.inj h
          omega
        · rw [alookup_aupdate_ne _ hxd] at h
          exact le_trans (count_le_count_cons x d ds) (hsafe x w h)
      obtain ⟨hk, hv, hn, nq, hq, hnd, hchar⟩ :=
        ih (aupdate deg d (v - 1)) (if v = 1 then q ++ [d] else q) hsafe1
      refine ⟨by rw [hk, akeys_aupdate], ?_, ?_, ?_⟩
      · intro x w h
        by_cases hxd : x = d
        · subst hxd
          obtain rfl : w = v := Option.some.inj (h.symm.trans hd)
          rw [hv x (w - 1) hlk1, List.count_cons_self]
          congr 1
          omega
        · rw [hv x w (by rw [alookup_aupdate_ne _ hxd]; exact h),
            List.count_cons_of_ne hxd]
      · intro x h
        have hxd : x ≠ d := by
          intro hh
          rw [hh, hd] at h
          exact Option.noConfusion h
        exact hn x (by rw [alookup_aupdate_ne _ hxd]; exact h)
      · refine ⟨(if v = 1 then [d] else []) ++ nq, ?_, ?_, ?_⟩
        · rw [hq]
          by_cases hv1 : v = 1 <;> simp [hv1]
        · rw [List.nodup_append]
          refine ⟨?_, hnd, ?_⟩
          · by_cases hv1 : v = 1 <;> simp [hv1]
          · intro a ha hb
            by_cases hv1 : v = 1
            · rw [if_pos hv1] at ha
              simp only [List.mem_singleton] at ha
              subst ha
              obtain ⟨w, hwx, hpos, _⟩ := (hchar a).mp hb
              rw [hlk1] at hwx
              obtain rfl := Option.some.inj hwx
              omega
            · rw [if_neg hv1] at ha
              simp at ha
        · intro x
          simp only [List.mem_append]
          constructor
          · rintro (hx | hx)
            · by_cases hv1 : v = 1
              · rw [if_pos hv1] at hx
                simp only [List.mem_singleton] at hx
                subst hx
                refine ⟨v, hd, by omega, ?_⟩
                rw [List.count_cons_self]
                omega
              · rw [if_neg hv1] at hx
                simp at hx
            · obtain ⟨w, hwx, hpos, hcnt⟩ := (hchar x).mp hx
              by_cases hxd : x = d
              · subst hxd
                rw [hlk1] at hwx
                obtain rfl := Option.some.inj hwx
                refine ⟨v, hd, by omega, ?_⟩
                rw [List.count_cons_self]
                omega
              · rw [alookup_aupdate_ne _ hxd] at hwx
                exact ⟨w, hwx, hpos, by rw [List.count_cons_of_ne hxd]; exact hcnt⟩
          · rintro ⟨w, hwx, hpos, hcnt⟩
            by_cases hxd : x = d
            · subst hxd
              obtain rfl : w = v := Option.some.inj (hwx.symm.trans hd)
              rw [List.count_cons_self] at hcnt
              by_cases hv1 : w = 1
              · left
                rw [if_pos hv1]
                simp
              · right
                refine (hchar x).mpr ⟨w - 1, hlk1, by omega, by omega⟩
            · right
              rw [List.count_cons_of_ne hxd] at hcnt
              refine (hchar x).mpr
                ⟨w, by rw [alookup_aupdate_ne _ hxd]; exact hwx, hpos, hcnt⟩

/-! ### The Kahn work-list loop -/

theorem consumed_le_occ {g : DependencyGraph} {R : List SpecId}
    (hnd : g.gkeys.Nodup) (hRnd : R.Nodup) (hsub : ∀ x ∈ R, x ∈ g.gkeys)
    (x : SpecId) : consumedCount g R x ≤ occCount g x := by
  have := consumedCount_split hnd hRnd hsub x
  omega

theorem consumedCount_eq_zero {g : DependencyGraph} {S : List SpecId}
    {x : SpecId} (h : ∀ a ∈ S, x ∉ g.depsOf a) : consumedCount g S x = 0 := by
  unfold consumedCount
  rw [List.count_flatten]
  refine List.sum_eq_zero ?_
  intro n hn
  rw [List.mem_map] at hn
  obtain ⟨l, hl, hln⟩ := hn
  rw [List.mem_map] at hl
  obtain ⟨a, ha, hal⟩ := hl
  subst hln
  subst hal
  rw [List.count_eq_zero]
  exact h a ha

theorem consumed_eq_occ_of_owners {g : DependencyGraph} {R : List SpecId}
    (hnd : g.gkeys.Nodup) (hRnd : R.Nodup) (hsub : ∀ x ∈ R, x ∈ g.gkeys)
    {x : SpecId} (h : ∀ a, hasEdge g a x → a ∈ R) :
    consumedCount g R x = occCount g x := by
  have hsplit := consumedCount_split hnd hRnd hsub x
  have hzero : consumedCount g (g.gkeys.filter (fun y => y ∉ R)) x = 0 := by
    refine consumedCount_eq_zero ?_
    intro a ha hc
    have := List.of_mem_filter ha
    simp at this
    exact this (h a hc)
  omega

theorem exists_max_indexOf (L : List SpecId) :
    ∀ U : List SpecId, U ≠ [] →
      ∃ m ∈ U, ∀ y ∈ U, L.indexOf y ≤ L.indexOf m := by
  intro U
  induction U with
  | nil => intro h; exact absurd rfl h
  | cons u rest ih =>
    intro _
    cases rest with
    | nil =>
      refine ⟨u, List.mem_cons_self u [], ?_⟩
      intro y hy
      simp at hy
      subst hy
      exact le_refl _
    | cons r rest' =>
      obtain ⟨m, hm, hmax⟩ := ih (by simp)
      by_cases hcmp : L.indexOf m ≤ L.indexOf u
      · refine ⟨u, List.mem_cons_self u _, ?_⟩
        intro y hy
        rcases List.mem_cons.mp hy with rfl | hy
        · exact le_refl _
        · exact le_trans (hmax y hy) hcmp
      · refine ⟨m, List.mem_cons_of_mem u hm, ?_⟩
        intro y hy
        rcases List.mem_cons.mp hy with rfl | hy
        · omega
        · exact hmax y hy

theorem kahn_drain {g : DependencyGraph} {L : List SpecId}
    (hG : GoodTopo g L) (hnd : g.gkeys.Nodup)
    {deg : List (SpecId × Nat)} {result : List SpecId}
    (hinv : KahnInv g [] deg result) : ∀ x ∈ g.gkeys, x ∈ result := by
  by_contra hcon
  push_neg at hcon
  obtain ⟨x0, hx0g, hx0r⟩ := hcon
  set U := g.gkeys.filter (fun y => y ∉ result) with hU
  have hx0U : x0 ∈ U := by
    rw [hU, List.mem_filter]
    simp [hx0g, hx0r]
  obtain ⟨m, hmU, hmax⟩ := exists_max_indexOf L U (by
    intro hc
    rw [hc] at hx0U
    simp at hx0U)
  have hmg : m ∈ g.gkeys := List.mem_of_mem_filter hmU
  have hmr : m ∉ result := by
    have := List.of_mem_filter hmU
    simpa using this
  have hne : consumedCount g result m ≠ occCount g m := by
    intro hc
    have := (hinv.memIff m hmg).mpr hc
    rcases this with h | h
    · exact hmr h
    · simp at h
  have howner : ∃ a, hasEdge g a m ∧ a ∉ result := by
    by_contra hall
    push_neg at hall
    exact hne (consumed_eq_occ_of_owners hnd hinv.resNodup hinv.resSub
      (fun a h => hall a h))
  obtain ⟨a, ha, har⟩ := howner
  have hag : a ∈ g.gkeys := hasEdge_key ha
  have haU : a ∈ U := by
    rw [hU, List.mem_filter]
    simp [hag, har]
  have h1 : L.indexOf m < L.indexOf a := goodTopo_edge_lt hG ha
  have h2 : L.indexOf a ≤ L.indexOf m := hmax a haU
  omega

theorem result_full_of_length {g : DependencyGraph} (_hnd : g.gkeys.Nodup)
    {result : List SpecId} (hRnd : result.Nodup)
    (hsub : ∀ x ∈ result, x ∈ g.gkeys)
    (hlen : g.gkeys.length ≤ result.length) : ∀ x ∈ g.gkeys, x ∈ result := by
  have hperm : result.Perm g.gkeys :=
    (hRnd.subperm (fun x hx => hsub x hx)).perm_of_length_le hlen
  intro x hx
  exact hperm.symm.subset hx

theorem kahnOrd_append {g : DependencyGraph} {result : List SpecId} {s : SpecId}
    (hord : KahnOrd g result) (hs : ∀ a, hasEdge g a s → a ∈ result) :
    KahnOrd g (result ++ [s]) := by
  intro i h a hedge
  by_cases hiL : i < result.length
  · rw [List.getElem_append_left hiL] at hedge
    rw [List.take_append_of_le_length (le_of_lt hiL)]
    exact hord i hiL a hedge
  · have hlen : i = result.length := by
      simp only [List.length_append, List.length_singleton] at h
      omega
    subst hlen
    rw [List.getElem_append_right (le_refl _)] at hedge
    simp only [Nat.sub_self, List.getElem_singleton] at hedge
    rw [List.take_append_of_le_length (le_refl _), List.take_length]
    exact hs a hedge

theorem kahnInv_step {g : DependencyGraph} (hnd : g.gkeys.Nodup)
    {s : SpecId} {q : List SpecId} {deg : List (SpecId × Nat)}
    {result : List SpecId} (hinv : KahnInv g (s :: q) deg result) :
    KahnInv g (decDeps (g.depsOf s) (deg, q)).2
      (decDeps (g.depsOf s) (deg, q)).1 (result ++ [s]) := by
  have hsq : s ∈ s :: q := List.mem_cons_self s q
  have hsg : s ∈ g.gkeys := hinv.qSub s hsq
  have hsr : s ∉ result := fun hc => hinv.disj s hc hsq
  have hqtail : q.Nodup ∧ s ∉ q := by
    have := hinv.qNodup
    rw [List.nodup_cons] at this
    exact ⟨this.2, this.1⟩
  have hRnd' : (result ++ [s]).Nodup := by
    rw [List.nodup_append]
    refine ⟨hinv.resNodup, List.nodup_singleton s, ?_⟩
    intro a ha hb
    simp only [List.mem_singleton] at hb
    subst hb
    exact hsr ha
  have hsub' : ∀ x ∈ result ++ [s], x ∈ g.gkeys := by
    intro x hx
    rcases List.mem_append.mp hx with hx | hx
    · exact hinv.resSub x hx
    · simp only [List.mem_singleton] at hx
      subst hx
      exact hsg
  have hsafe : ∀ x v, alookup deg x = some v → (g.depsOf s).count x ≤ v := by
    intro x v hx
    have hxg : x ∈ g.gkeys := by
      rw [← hinv.degKeys, ← alookup_isSome]
      simp [hx]
    have hval := hinv.degVal x hxg
    obtain rfl := Option.some.inj (hx.symm.trans hval)
    have hle2 := consumed_le_occ hnd hRnd' hsub' x
    rw [consumedCount_append] at hle2
    have hle1 := hinv.consLe x hxg
    omega
  obtain ⟨hk, hv, hn, nq, hq, hnqnd, hchar⟩ :=
    decDeps_spec (g.depsOf s) deg q hsafe
  have hnq_props : ∀ x ∈ nq, x ∈ g.gkeys ∧ x ∉ result ∧ x ∉ s :: q := by
    intro x hx
    obtain ⟨v, hvx, hpos, hcnt⟩ := (hchar x).mp hx
    have hxg : x ∈ g.gkeys := by
      rw [← hinv.degKeys, ← alookup_isSome]
      simp [hvx]
    have hval := hinv.degVal x hxg
    obtain rfl := Option.some.inj (hvx.symm.trans hval)
    have hlt : consumedCount g result x ≠ occCount g x := by omega
    have hmem := hinv.memIff x hxg
    refine ⟨hxg, ?_, ?_⟩
    · intro hc
      exact hlt (hmem.mp (Or.inl hc))
    · intro hc
      exact hlt (hmem.mp (Or.inr hc))
  have hso : consumedCount g result s = occCount g s :=
    (hinv.memIff s hsg).mp (Or.inr hsq)
  constructor
  · rw [hk]
    exact hinv.degKeys
  · exact hRnd'
  · rw [hq, List.nodup_append]
    refine ⟨hqtail.1, hnqnd, ?_⟩
    intro a ha hb
    exact (hnq_props a hb).2.2 (List.mem_cons_of_mem s ha)
  · intro x hx
    rw [hq, List.mem_append]
    push_neg
    rcases List.mem_append.mp hx with hx | hx
    · refine ⟨?_, ?_⟩
      · intro hc
        exact hinv.disj x hx (List.mem_cons_of_mem s hc)
      · intro hc
        exact (hnq_props x hc).2.1 hx
    · simp only [List.mem_singleton] at hx
      subst hx
      refine ⟨hqtail.2, ?_⟩
      intro hc
      exact (hnq_props x hc).2.2 hsq
  · exact hsub'
  · intro x hx
    rw [hq, List.mem_append] at hx
    rcases hx with hx | hx
    · exact hinv.qSub x (List.mem_cons_of_mem s hx)
    · exact (hnq_props x hx).1
  · intro x hxg
    have hval := hinv.degVal x hxg
    rw [hv x _ hval, consumedCount_append]
    congr 1
    omega
  · intro x hxg
    exact consumed_le_occ hnd hRnd' hsub' x
  · intro x hxg
    have hval := hinv.degVal x hxg
    have hle1 := hinv.consLe x hxg
    have hmemold := hinv.memIff x hxg
    rw [consumedCount_append]
    constructor
    · intro hx
      rcases hx with hx | hx
      · rcases List.mem_append.mp hx with hx | hx
        · have := hmemold.mp (Or.inl hx)
          have hle2 := consumed_le_occ hnd hRnd' hsub' x
          rw [consumedCount_append] at hle2
          omega
        · simp only [List.mem_singleton] at hx
          subst hx
          have := hmemold.mp (Or.inr hsq)
          have hle2 := consumed_le_occ hnd hRnd' hsub' x
          rw [consumedCount_append] at hle2
          omega
      · rw [hq, List.mem_append] at hx
        rcases hx with hx | hx
        · have := hmemold.mp (Or.inr (List.mem_cons_of_mem s hx))
          have hle2 := consumed_le_occ hnd hRnd' hsub' x
          rw [consumedCount_append] at hle2
          omega
        · obtain ⟨v, hvx, hpos, hcnt⟩ := (hchar x).mp hx
          obtain rfl := Option.some.inj (hvx.symm.trans hval)
          omega
    · intro heq
      by_contra hcon
      push_neg at hcon
      obtain ⟨hc1, hc2⟩ := hcon
      have hxr : x ∉ result := fun hc =>
        hc1 (List.mem_append.mpr (Or.inl hc))
      have hxs : x ≠ s := by
        intro hh
        exact hc1 (List.mem_append.mpr (Or.inr (by simp [hh])))
      have hxq : x ∉ q := by
        intro hc
        exact hc2 (by rw [hq]; exact List.mem_append.mpr (Or.inl hc))
      have hxnq : x ∉ nq := by
        intro hc
        exact hc2 (by rw [hq]; exact List.mem_append.mpr (Or.inr hc))
      have hold : consumedCount g result x ≠ occCount g x := by
        intro hc
        rcases hmemold.mpr hc with h | h
        · exact hxr h
        · rcases List.mem_cons.mp h with h | h
          · exact hxs h
          · exact hxq h
      refine hxnq ((hchar x).mpr ?_)
      exact ⟨occCount g x - consumedCount g result x, hval, by omega, by omega⟩
  · refine kahnOrd_append hinv.ord ?_
    intro a hedge
    exact owner_mem_of_consumed_eq hnd hinv.resNodup hinv.resSub hso hedge

theorem kahnLoop_spec {g : DependencyGraph} {L : List SpecId}
    (hG : GoodTopo g L) (hnd : g.gkeys.Nodup) :
    ∀ (fuel : Nat) (queue : List SpecId) (deg : List (SpecId × Nat))
      (result : List SpecId), KahnInv g queue deg result →
      g.gkeys.length ≤ fuel + result.length →
      (kahnLoop g fuel queue deg result).Nodup ∧
      (∃ ext, kahnLoop g fuel queue deg result = result ++ ext) ∧
      (∀ x ∈ g.gkeys, x ∈ kahnLoop g fuel queue deg result) ∧
      (∀ x ∈ kahnLoop g fuel queue deg result, x ∈ g.gkeys) ∧
      KahnOrd g (kahnLoop g fuel queue deg result) := by
  intro fuel
  induction fuel with
  | zero =>
    intro queue deg result hinv hlen
    simp only [kahnLoop]
    have hfull := result_full_of_length hnd hinv.resNodup hinv.resSub (by omega)
    exact ⟨hinv.resNodup, ⟨[], by simp⟩, hfull, hinv.resSub, hinv.ord⟩
  | succ f ih =>
    intro queue deg result hinv hlen
    cases queue with
    | nil =>
      simp only [kahnLoop]
      exact ⟨hinv.resNodup, ⟨[], by simp⟩, kahn_drain hG hnd hinv,
        hinv.resSub, hinv.ord⟩
    | cons s q =>
      simp only [kahnLoop]
      have hstep := kahnInv_step hnd hinv
      have hrest := ih _ _ _ hstep (by
        simp only [List.length_append, List.length_singleton]
        omega)
      obtain ⟨h1, ⟨ext, hext⟩, h3, h4, h5⟩ := hrest
      exact ⟨h1, ⟨[s] ++ ext, by rw [hext, List.append_assoc]⟩, h3, h4, h5⟩

theorem indexOf_reverse {l : List SpecId} (hnd : l.Nodup) {x : SpecId}
    (hx : x ∈ l) :
    l.reverse.indexOf x = l.length - 1 - l.indexOf x := by
  have hi : l.indexOf x < l.length := List.indexOf_lt_length.mpr hx
  have hj : l.length - 1 - l.indexOf x < l.reverse.length := by
    rw [List.length_reverse]
    omega
  have hget : l.reverse[l.length - 1 - l.indexOf x] = x := by
    rw [List.getElem_reverse]
    have harith : l.length - 1 - (l.length - 1 - l.indexOf x) = l.indexOf x := by
      omega
    rw [show l.reverse.length = l.length from List.length_reverse l] at hj
    simp only [harith]
    exact List.getElem_indexOf hi
  have hrev_nd : l.reverse.Nodup := List.nodup_reverse.mpr hnd
  have := List.indexOf_getElem hrev_nd (l.length - 1 - l.indexOf x) hj
  rw [hget] at this
  exact this

/-- Full correctness of `topological_sort` when `detect_cycle` finds no
cycle: the output is a permutation of the keys in which every recorded
prerequisite precedes its dependent. -/
theorem topological_sort_spec {g : DependencyGraph} (hnd : g.gkeys.Nodup)
    (hcl : Closed g) (hnc : g.detect_cycle = none) :
    ∃ l, g.topological_sort = Except.ok l ∧ l.Perm g.gkeys ∧
      ∀ a b, hasEdge g a b → l.indexOf b < l.indexOf a := by
  obtain ⟨L, hG⟩ := detect_cycle_none_topo hnc
  unfold topological_sort
  rw [hnc]
  simp only
  set deg := buildInDegree g with hdeg
  set queue := (deg.filter (fun p => p.2 = 0)).map Prod.fst with hqueue
  have hdegkeys : akeys deg = g.gkeys := buildInDegree_keys hnd hcl
  have hdeglookup : ∀ x, alookup deg x =
      if x ∈ g.gkeys then some (occCount g x) else none :=
    fun x => buildInDegree_lookup hnd hcl x
  have hqNodup : queue.Nodup := by
    rw [hqueue]
    have hsl : List.Sublist ((deg.filter (fun p => p.2 = 0)).map Prod.fst)
        (deg.map Prod.fst) := (List.filter_sublist deg).map Prod.fst
    refine hsl.nodup ?_
    rw [show deg.map Prod.fst = akeys deg from rfl, hdegkeys]
    exact hnd
  have hdegnd : (akeys deg).Nodup := by rw [hdegkeys]; exact hnd
  have hqmem : ∀ x, x ∈ queue ↔ x ∈ g.gkeys ∧ occCount g x = 0 := by
    intro x
    rw [hqueue]
    constructor
    · intro hx
      rw [List.mem_map] at hx
      obtain ⟨⟨y, v⟩, hyv, hpr⟩ := hx
      dsimp at hpr
      rw [List.mem_filter] at hyv
      obtain ⟨hyv, hv0⟩ := hyv
      simp only [decide_eq_true_eq] at hv0
      have hlk := alookup_eq_some_of_mem_nodup hdegnd hyv
      rw [hpr] at hlk
      have hxg : x ∈ g.gkeys := by
        rw [← hdegkeys, ← alookup_isSome]
        simp [hlk]
      refine ⟨hxg, ?_⟩
      have hlx := hdeglookup x
      rw [if_pos hxg] at hlx
      rw [hlx] at hlk
      have := Option.some.inj hlk
      omega
    · rintro ⟨hxg, hocc⟩
      have := hdeglookup x
      rw [if_pos hxg, hocc] at this
      have hmem := alookup_mem this
      rw [List.mem_map]
      exact ⟨(x, 0), List.mem_filter.mpr ⟨hmem, by simp⟩, rfl⟩
  have hinv0 : KahnInv g queue deg [] := by
    constructor
    · exact hdegkeys
    · exact List.nodup_nil
    · exact hqNodup
    · intro x hx
      simp at hx
    · intro x hx
      simp at hx
    · intro x hx
      exact ((hqmem x).mp hx).1
    · intro x hxg
      rw [consumedCount_nil, Nat.sub_zero, hdeglookup x, if_pos hxg]
    · intro x hxg
      rw [consumedCount_nil]
      omega
    · intro x hxg
      rw [consumedCount_nil]
      simp only [List.not_mem_nil, false_or]
      rw [hqmem x]
      constructor
      · rintro ⟨_, h⟩
        omega
      · intro h
        exact ⟨hxg, by omega⟩
    · intro i h a hedge
      simp at h
  have hlen0 : g.gkeys.length ≤ (deg.length + 1)
      + ([] : List SpecId).length := by
    have hdl : deg.length = g.gkeys.length := by
      rw [← hdegkeys]
      exact (List.length_map deg Prod.fst).symm
    simp only [List.length_nil]
    omega
  obtain ⟨hRnd, ⟨ext, hext⟩, hfull, hsub, hord⟩ :=
    kahnLoop_spec hG hnd (deg.length + 1) queue deg [] hinv0 hlen0
  set R := kahnLoop g (deg.length + 1) queue deg [] with hR
  refine ⟨R.reverse, rfl, ?_, ?_⟩
  · have hperm : R.Perm g.gkeys := by
      rw [List.perm_ext_iff_of_nodup hRnd hnd]
      intro a
      exact ⟨fun h => hsub a h, fun h => hfull a h⟩
    exact (R.reverse_perm).trans hperm
  · intro a b hedge
    have hbg : b ∈ R := by
      refine hfull b ?_
      exact hcl a b hedge
    have hag : a ∈ R := hfull a (hasEdge_key hedge)
    have hib : R.indexOf b < R.length := List.indexOf_lt_length.mpr hbg
    have hgetb : R[R.indexOf b] = b := List.getElem_indexOf hib
    have hmem := hord (R.indexOf b) hib a (by rw [hgetb]; exact hedge)
    have hia : R.indexOf a < R.indexOf b := indexOf_lt_of_mem_take hmem
    rw [indexOf_reverse hRnd hbg, indexOf_reverse hRnd hag]
    have hialen : R.indexOf a < R.length := List.indexOf_lt_length.mpr hag
    omega

/-! ### Characterizing `buildReverseDeps` and `buildWaveDegrees` -/

theorem entryPush_count (m : List (SpecId × List SpecId)) (d a s x : SpecId) :
    ((alookup (entryPush m d a) s).getD []).count x
      = ((alookup m s).getD []).count x
        + (if s = d ∧ a = x then 1 else 0) := by
  unfold entryPush
  by_cases hsd : s = d
  · subst hsd
    cases hm : alookup m s with
    | some l =>
      rw [alookup_aupdate_self _ (by rw [← alookup_isSome]; simp [hm])]
      simp only [Option.getD_some, List.count_append, hm]
      by_cases hax : a = x
      · subst hax
        simp [List.count_singleton]
      · simp [hax, List.count_singleton]
    | none =>
      rw [alookup_append_of_none hm]
      simp only [alookup, if_pos rfl, Option.getD_some, hm, Option.getD_none,
        List.count_nil]
      by_cases hax : a = x
      · subst hax
        simp [List.count_singleton]
      · simp [hax, List.count_singleton]
  · cases hm : alookup m d with
    | some l =>
      rw [alookup_aupdate_ne _ hsd]
      simp [hsd]
    | none =>
      cases hs : alookup m s with
      | some ls =>
        rw [alookup_append_of_isSome hs]
        simp [hsd]
      | none =>
        rw [alookup_append_of_none hs]
        simp only [alookup, hsd]
        have : ¬ (d = s) := fun hh => hsd hh.symm
        simp [this, hs]

theorem pushList_count :
    ∀ (ds : List SpecId) (m : List (SpecId × List SpecId)) (a s x : SpecId),
      ((alookup (ds.foldl (fun mm dd => entryPush mm dd a) m) s).getD []).count x
        = ((alookup m s).getD []).count x
          + (if a = x then ds.count s else 0) := by
  intro ds
  induction ds with
  | nil =>
    intro m a s x
    simp
  | cons d ds ih =>
    intro m a s x
    simp only [List.foldl_cons]
    rw [ih (entryPush m d a) a s x, entryPush_count m d a s x]
    by_cases hax : a = x
    · subst hax
      rw [List.count_cons]
      by_cases hsd : s = d
      · simp [hsd]
        omega
      · simp [hsd]
        exact fun hh => hsd hh.symm
    · simp [hax]

theorem entriesFold_count :
    ∀ (ps : List (SpecId × List SpecId)) (m : List (SpecId × List SpecId))
      (s x : SpecId),
      ((alookup (ps.foldl
          (fun mm p => p.2.foldl (fun m' dd => entryPush m' dd p.1) mm) m)
        s).getD []).count x
        = ((alookup m s).getD []).count x
          + ((ps.filter (fun p => p.1 = x)).map (fun p => p.2.count s)).sum := by
  intro ps
  induction ps with
  | nil =>
    intro m s x
    simp
  | cons p ps ih =>
    intro m s x
    obtain ⟨a, ds⟩ := p
    simp only [List.foldl_cons]
    rw [ih _ s x, pushList_count ds m a s x]
    by_cases hax : a = x
    · simp [List.filter_cons, hax]
      omega
    · simp only [List.filter_cons, decide_eq_true_eq]
      rw [if_neg hax]
      simp [hax]

theorem filter_key_eq {x : SpecId} :
    ∀ (ps : List (SpecId × List SpecId)), (akeys ps).Nodup →
      (ps.filter (fun p => p.1 = x)) =
        (match alookup ps x with
         | some l => [(x, l)]
         | none => []) := by
  intro ps
  induction ps with
  | nil =>
    intro _
    simp [alookup]
  | cons p rest ih =>
    intro hnd
    obtain ⟨k, v⟩ := p
    simp only [akeys, List.map_cons, List.nodup_cons] at hnd
    by_cases hkx : k = x
    · subst hkx
      have hrest : rest.filter (fun p => p.1 = k) = [] := by
        rw [List.filter_eq_nil_iff]
        intro p hp
        simp only [decide_eq_true_eq]
        intro hc
        exact hnd.1 (mem_akeys.mpr ⟨p.2, by rw [← hc]; simpa using hp⟩)
      simp [List.filter_cons, hrest, alookup]
    · simp only [List.filter_cons, decide_eq_true_eq, if_neg hkx, alookup,
        if_neg hkx]
      exact ih hnd.2

theorem ensureKey_fold_nilvals :
    ∀ (ks : List SpecId) (m : List (SpecId × List SpecId)),
      (∀ s, (alookup m s).getD [] = []) →
      ∀ s, (alookup (ks.foldl ensureKey m) s).getD [] = [] := by
  intro ks
  induction ks with
  | nil =>
    intro m h s
    exact h s
  | cons k ks ih =>
    intro m h s
    simp only [List.foldl_cons]
    refine ih _ ?_ s
    intro t
    unfold ensureKey
    cases hk : alookup m k with
    | some l => exact h t
    | none =>
      cases ht : alookup m t with
      | some l =>
        rw [alookup_append_of_isSome ht]
        have := h t
        rw [ht] at this
        simpa using this
      | none =>
        rw [alookup_append_of_none ht]
        by_cases hkt : k = t
        · subst hkt
          simp [alookup]
        · simp [alookup, hkt]

/-- Counting occurrences in the reverse-dependency lists: `x` occurs in
`reverse_deps[s]` once per occurrence of `s` in the prerequisite list of
`x`. -/
theorem buildReverseDeps_count {g : DependencyGraph} (hnd : g.gkeys.Nodup)
    (s x : SpecId) :
    ((alookup (buildReverseDeps g) s).getD []).count x
      = (g.depsOf x).count s := by
  unfold buildReverseDeps
  rw [entriesFold_count g.dependencies _ s x]
  rw [ensureKey_fold_nilvals g.gkeys [] (by intro t; simp [alookup]) s]
  rw [filter_key_eq g.dependencies hnd]
  unfold DependencyGraph.depsOf
  cases hl : alookup g.dependencies x with
  | some l => simp
  | none => simp

/-! ### The wave computation of `get_parallel_groups` -/

theorem ains_fold_lookup (f : SpecId → Nat) :
    ∀ (ks : List SpecId) (m : List (SpecId × Nat)), ks.Nodup →
      (∀ k ∈ ks, k ∉ akeys m) →
      (∀ x, alookup (ks.foldl (fun mm k => ains mm k (f k)) m) x =
        if x ∈ ks then some (f x) else alookup m x) ∧
      akeys (ks.foldl (fun mm k => ains mm k (f k)) m) = akeys m ++ ks := by
  intro ks
  induction ks with
  | nil =>
    intro m _ _
    constructor
    · intro x
      simp
    · simp
  | cons k ks ih =>
    intro m hnd hfresh
    simp only [List.nodup_cons] at hnd
    have hk : alookup m k = none := by
      rw [alookup_eq_none]
      exact hfresh k (List.mem_cons_self k ks)
    have hm1 : ains m k (f k) = m ++ [(k, f k)] := by
      unfold ains
      rw [hk]
    have hkeys1 : akeys (ains m k (f k)) = akeys m ++ [k] := by
      rw [hm1, akeys_append]
      simp [akeys]
    have hfresh1 : ∀ k' ∈ ks, k' ∉ akeys (ains m k (f k)) := by
      intro k' hk' hmem
      rw [hkeys1, List.mem_append] at hmem
      rcases hmem with h | h
      · exact hfresh k' (List.mem_cons_of_mem k hk') h
      · simp at h
        subst h
        exact hnd.1 hk'
    obtain ⟨hlk, hks⟩ := ih (ains m k (f k)) hnd.2 hfresh1
    simp only [List.foldl_cons]
    constructor
    · intro x
      rw [hlk x]
      by_cases hxks : x ∈ ks
      · simp [hxks]
      · by_cases hxk : x = k
        · subst hxk
          rw [hm1, alookup_append_of_none hk]
          simp [hxks, alookup]
        · have : ¬ x ∈ k :: ks := by
            simp [hxk, hxks]
          rw [if_neg hxks, if_neg this, hm1]
          cases hx : alookup m x with
          | some v => rw [alookup_append_of_isSome hx]
          | none =>
            rw [alookup_append_of_none hx]
            have : ¬ (k = x) := fun hh => hxk hh.symm
            simp [alookup, this]
    · rw [hks, hkeys1]
      simp

theorem buildWaveDegrees_lookup {g : DependencyGraph} (hnd : g.gkeys.Nodup)
    (x : SpecId) :
    alookup (buildWaveDegrees g) x =
      if x ∈ g.gkeys then some (g.depsOf x).length else none := by
  unfold buildWaveDegrees
  have h := (ains_fold_lookup (fun k => (g.depsOf k).length) g.gkeys []
    hnd (by intro k _; simp [akeys])).1 x
  rw [h]
  by_cases hx : x ∈ g.gkeys
  · simp [hx]
  · simp [hx, alookup]

theorem buildWaveDegrees_keys {g : DependencyGraph} (hnd : g.gkeys.Nodup) :
    akeys (buildWaveDegrees g) = g.gkeys := by
  unfold buildWaveDegrees
  have h := (ains_fold_lookup (fun k => (g.depsOf k).length) g.gkeys []
    hnd (by intro k _; simp [akeys])).2
  rw [h]
  simp [akeys]

theorem decDependents_keys :
    ∀ (as_ : List SpecId) (deg : List (SpecId × Nat)),
      akeys (decDependents deg as_) = akeys deg := by
  intro as_
  induction as_ with
  | nil =>
    intro deg
    rfl
  | cons a rest ih =>
    intro deg
    unfold decDependents
    cases ha : alookup deg a with
    | some v => rw [ih, akeys_aupdate]
    | none => exact ih deg

theorem decDependents_spec :
    ∀ (as_ : List SpecId) (deg : List (SpecId × Nat)) (x : SpecId),
      alookup (decDependents deg as_) x =
        (alookup deg x).map (fun v => v - as_.count x) := by
  intro as_
  induction as_ with
  | nil =>
    intro deg x
    unfold decDependents
    cases alookup deg x <;> simp
  | cons a rest ih =>
    intro deg x
    unfold decDependents
    cases ha : alookup deg a with
    | some v =>
      rw [ih]
      by_cases hxa : x = a
      · subst hxa
        rw [alookup_aupdate_self _ (by rw [← alookup_isSome]; simp [ha]), ha]
        simp only [Option.map_some']
        rw [List.count_cons_self]
        congr 1
        omega
      · rw [alookup_aupdate_ne _ hxa]
        rw [List.count_cons_of_ne hxa]
    | none =>
      rw [ih]
      by_cases hxa : x = a
      · subst hxa
        rw [ha]
        simp
      · rw [List.count_cons_of_ne hxa]

theorem processWave_keys (rd : List (SpecId × List SpecId)) :
    ∀ (ws : List SpecId) (deg : List (SpecId × Nat)),
      akeys (processWave rd deg ws) = akeys deg := by
  intro ws
  induction ws with
  | nil =>
    intro deg
    rfl
  | cons s ss ih =>
    intro deg
    unfold processWave
    rw [ih, decDependents_keys]

theorem processWave_spec (rd : List (SpecId × List SpecId)) :
    ∀ (ws : List SpecId) (deg : List (SpecId × Nat)) (x : SpecId),
      alookup (processWave rd deg ws) x =
        (alookup deg x).map
          (fun v => v - (ws.map
            (fun s => ((alookup rd s).getD []).count x)).sum) := by
  intro ws
  induction ws with
  | nil =>
    intro deg x
    unfold processWave
    cases alookup deg x <;> simp
  | cons s ss ih =>
    intro deg x
    unfold processWave
    rw [ih, decDependents_spec]
    cases alookup deg x with
    | none => simp
    | some v =>
      simp [Nat.sub_sub]

theorem countP_mem_cons (s : SpecId) (W : List SpecId) (hsW : s ∉ W) :
    ∀ l : List SpecId, List.countP (fun d => decide (d ∈ s :: W)) l
      = l.count s + List.countP (fun d => decide (d ∈ W)) l := by
  intro l
  induction l with
  | nil => simp
  | cons d l ih =>
    rw [List.countP_cons, List.countP_cons, List.count_cons, ih]
    by_cases hds : d = s
    · subst hds
      have hdW : ¬ d ∈ W := hsW
      simp [hdW]
      omega
    · by_cases hdW : d ∈ W
      · simp [hds, hdW, fun hh : s = d => hds hh.symm]
        omega
      · simp [hds, hdW, fun hh : s = d => hds hh.symm]

theorem sum_count_eq_countP :
    ∀ (W : List SpecId), W.Nodup → ∀ l : List SpecId,
      (W.map (fun s => l.count s)).sum
        = List.countP (fun d => decide (d ∈ W)) l := by
  intro W
  induction W with
  | nil =>
    intro _ l
    simp
  | cons s W ih =>
    intro hnd l
    simp only [List.nodup_cons] at hnd
    rw [List.map_cons, List.sum_cons, ih hnd.2 l, countP_mem_cons s W hnd.1 l]

theorem filter_split_length :
    ∀ (l P W : List SpecId), (∀ x ∈ W, x ∉ P) →
      (l.filter (fun d => decide (d ∉ P ++ W))).length
          + List.countP (fun d => decide (d ∈ W)) l
        = (l.filter (fun d => decide (d ∉ P))).length := by
  intro l P W hdisj
  induction l with
  | nil => simp
  | cons d l ih =>
    by_cases hdW : d ∈ W
    · have hdP : d ∉ P := hdisj d hdW
      have h1 : d ∈ P ++ W := by simp [hdW]
      rw [List.filter_cons_of_neg (by simp [h1]),
        List.filter_cons_of_pos (by simp [hdP]),
        List.countP_cons_of_pos _ _ (by simp [hdW])]
      simp only [List.length_cons]
      omega
    · by_cases hdP : d ∈ P
      · have h1 : d ∈ P ++ W := by simp [hdP]
        rw [List.filter_cons_of_neg (by simp [h1]),
          List.filter_cons_of_neg (by simp [hdP]),
          List.countP_cons_of_neg _ _ (by simp [hdW])]
        exact ih
      · have h1 : d ∉ P ++ W := by simp [hdP, hdW]
        rw [List.filter_cons_of_pos (by simp [h1, hdP, hdW]),
          List.filter_cons_of_pos (by simp [hdP]),
          List.countP_cons_of_neg _ _ (by simp [hdW])]
        simp only [List.length_cons]
        omega

theorem exists_min_indexOf (L : List SpecId) :
    ∀ U : List SpecId, U ≠ [] →
      ∃ m ∈ U, ∀ y ∈ U, L.indexOf m ≤ L.indexOf y := by
  intro U
  induction U with
  | nil => intro h; exact absurd rfl h
  | cons u rest ih =>
    intro _
    cases rest with
    | nil =>
      refine ⟨u, List.mem_cons_self u [], ?_⟩
      intro y hy
      simp at hy
      subst hy
      exact le_refl _
    | cons r rest' =>
      obtain ⟨m, hm, hmin⟩ := ih (by simp)
      by_cases hcmp : L.indexOf u ≤ L.indexOf m
      · refine ⟨u, List.mem_cons_self u _, ?_⟩
        intro y hy
        rcases List.mem_cons.mp hy with rfl | hy
        · exact le_refl _
        · exact le_trans hcmp (hmin y hy)
      · refine ⟨m, List.mem_cons_of_mem u hm, ?_⟩
        intro y hy
        rcases List.mem_cons.mp hy with rfl | hy
        · omega
        · exact hmin y hy

theorem wave_mem {g : DependencyGraph} (hnd : g.gkeys.Nodup)
    {deg : List (SpecId × Nat)} {processed : List SpecId}
    {waves : List (List SpecId)} (hinv : WaveInv g deg processed waves)
    (x : SpecId) :
    x ∈ (deg.filter (fun p => p.2 = 0 ∧ p.1 ∉ processed)).map Prod.fst ↔
      x ∈ g.gkeys ∧ x ∉ processed ∧ ∀ d ∈ g.depsOf x, d ∈ processed := by
  have hdk : (akeys deg).Nodup := by
    rw [hinv.degKeys]
    exact hnd
  constructor
  · intro hx
    rw [List.mem_map] at hx
    obtain ⟨p, hp, hpx⟩ := hx
    obtain ⟨px, pv⟩ := p
    rw [List.mem_filter] at hp
    obtain ⟨hpdeg, hcond⟩ := hp
    simp only [decide_eq_true_eq] at hcond
    obtain ⟨hv0, hnp⟩ := hcond
    simp only at hpx hv0 hnp
    subst hpx
    subst hv0
    have hlk : alookup deg px = some 0 :=
      alookup_eq_some_of_mem_nodup hdk hpdeg
    have hxg : px ∈ g.gkeys := by
      rw [← hinv.degKeys]
      exact mem_akeys.mpr ⟨0, hpdeg⟩
    refine ⟨hxg, hnp, ?_⟩
    have hval := hinv.degVal px hxg
    have hlen0 : ((g.depsOf px).filter (fun d => d ∉ processed)).length = 0 :=
      Option.some.inj (hval.symm.trans hlk)
    have hnil := List.eq_nil_of_length_eq_zero hlen0
    intro d hd
    by_contra hdp
    have : d ∈ (g.depsOf px).filter (fun d => d ∉ processed) := by
      rw [List.mem_filter]
      exact ⟨hd, by simpa using hdp⟩
    rw [hnil] at this
    simp at this
  · rintro ⟨hxg, hnp, hdeps⟩
    have hval := hinv.degVal x hxg
    have hlen0 : ((g.depsOf x).filter (fun d => d ∉ processed)).length = 0 := by
      rw [List.length_eq_zero, List.filter_eq_nil_iff]
      intro d hd
      simpa using hdeps d hd
    rw [hlen0] at hval
    have hmem : (x, 0) ∈ deg := alookup_mem hval
    rw [List.mem_map]
    refine ⟨(x, 0), ?_, rfl⟩
    rw [List.mem_filter]
    refine ⟨hmem, ?_⟩
    simp [hnp]

theorem wave_nodup {g : DependencyGraph} (hnd : g.gkeys.Nodup)
    {deg : List (SpecId × Nat)} {processed : List SpecId}
    {waves : List (List SpecId)} (hinv : WaveInv g deg processed waves) :
    ((deg.filter (fun p => p.2 = 0 ∧ p.1 ∉ processed)).map Prod.fst).Nodup := by
  have hdk : (akeys deg).Nodup := by
    rw [hinv.degKeys]
    exact hnd
  have hsub : List.Sublist
      ((deg.filter (fun p => p.2 = 0 ∧ p.1 ∉ processed)).map Prod.fst)
      (deg.map Prod.fst) :=
    (List.filter_sublist deg).map Prod.fst
  exact hsub.nodup hdk

theorem waveInv_step {g : DependencyGraph} (hnd : g.gkeys.Nodup)
    {deg : List (SpecId × Nat)} {processed : List SpecId}
    {waves : List (List SpecId)} (hinv : WaveInv g deg processed waves) :
    WaveInv g
      (processWave (buildReverseDeps g) deg
        ((deg.filter (fun p => p.2 = 0 ∧ p.1 ∉ processed)).map Prod.fst))
      (processed
        ++ (deg.filter (fun p => p.2 = 0 ∧ p.1 ∉ processed)).map Prod.fst)
      (waves
        ++ [(deg.filter (fun p => p.2 = 0 ∧ p.1 ∉ processed)).map Prod.fst]) := by
  set wave := (deg.filter (fun p => p.2 = 0 ∧ p.1 ∉ processed)).map Prod.fst
    with hwave
  have hwmem := wave_mem hnd hinv
  have hwnd := wave_nodup hnd hinv
  have hwdisj : ∀ x ∈ wave, x ∉ processed := fun x hx => ((hwmem x).mp hx).2.1
  have hwsub : ∀ x ∈ wave, x ∈ g.gkeys := fun x hx => ((hwmem x).mp hx).1
  constructor
  case degKeys =>
    rw [processWave_keys]
    exact hinv.degKeys
  case procEq =>
    rw [List.flatten_append, ← hinv.procEq]
    simp
  case procNodup =>
    rw [List.nodup_append]
    exact ⟨hinv.procNodup, hwnd, fun x hx hx2 => hwdisj x hx2 hx⟩
  case procSub =>
    intro x hx
    rcases List.mem_append.mp hx with h | h
    · exact hinv.procSub x h
    · exact hwsub x h
  case degVal =>
    intro x hxg
    rw [processWave_spec, hinv.degVal x hxg]
    simp only [Option.map_some']
    have hsum : (wave.map
        (fun s => ((alookup (buildReverseDeps g) s).getD []).count x)).sum
        = List.countP (fun d => decide (d ∈ wave)) (g.depsOf x) := by
      rw [List.map_congr_left (fun s _ => buildReverseDeps_count hnd s x)]
      exact sum_count_eq_countP wave hwnd (g.depsOf x)
    rw [hsum]
    congr 1
    have hkey := filter_split_length (g.depsOf x) processed wave hwdisj
    omega
  case waveChar =>
    intro i hi x
    simp only [List.length_append, List.length_singleton] at hi
    by_cases hilt : i < waves.length
    · rw [List.getElem_append_left hilt,
        List.take_append_of_le_length (le_of_lt hilt)]
      exact hinv.waveChar i hilt x
    · have hieq : i = waves.length := by omega
      subst hieq
      rw [List.getElem_append_right (le_refl _)]
      simp only [Nat.sub_self, List.getElem_singleton]
      rw [List.take_append_of_le_length (le_refl _), List.take_length,
        ← hinv.procEq]
      exact hwmem x

theorem wavesLoop_spec {g : DependencyGraph} {L : List SpecId}
    (hnd : g.gkeys.Nodup) (hcl : Closed g) (hG : GoodTopo g L) :
    ∀ (fuel : Nat) (deg : List (SpecId × Nat)) (processed : List SpecId)
      (waves : List (List SpecId)),
      WaveInv g deg processed waves →
      g.gkeys.length ≤ fuel + processed.length →
      ∃ deg',
        WaveInv g deg'
          (wavesLoop g (buildReverseDeps g) fuel deg processed waves).flatten
          (wavesLoop g (buildReverseDeps g) fuel deg processed waves) ∧
        ∀ x ∈ g.gkeys,
          x ∈ (wavesLoop g (buildReverseDeps g) fuel deg processed
            waves).flatten := by
  intro fuel
  induction fuel with
  | zero =>
    intro deg processed waves hinv hlen
    have hloop : wavesLoop g (buildReverseDeps g) 0 deg processed waves
        = waves := rfl
    rw [hloop]
    refine ⟨deg, ?_, ?_⟩
    · rw [← hinv.procEq]
      exact hinv
    · intro x hx
      rw [← hinv.procEq]
      exact result_full_of_length hnd hinv.procNodup hinv.procSub
        (by omega) x hx
  | succ fuel ih =>
    intro deg processed waves hinv hlen
    simp only [wavesLoop]
    by_cases hplen : processed.length < g.dependencies.length
    · rw [if_pos hplen]
      by_cases hwnil :
          (deg.filter (fun p => p.2 = 0 ∧ p.1 ∉ processed)).map Prod.fst = []
      · exfalso
        have hkeyslen : g.gkeys.length = g.dependencies.length := by
          simp [gkeys, akeys]
        have hexists : ∃ u ∈ g.gkeys, u ∉ processed := by
          by_contra hall
          push_neg at hall
          have := (hnd.subperm hall).length_le
          omega
        obtain ⟨u, hug, hup⟩ := hexists
        have hUne : g.gkeys.filter (fun y => y ∉ processed) ≠ [] := by
          intro hc
          have hu : u ∈ g.gkeys.filter (fun y => y ∉ processed) := by
            rw [List.mem_filter]
            simp [hug, hup]
          rw [hc] at hu
          simp at hu
        obtain ⟨m, hmU, hmin⟩ :=
          exists_min_indexOf L (g.gkeys.filter (fun y => y ∉ processed)) hUne
        have hmg : m ∈ g.gkeys := List.mem_of_mem_filter hmU
        have hmp : m ∉ processed := by
          have := List.of_mem_filter hmU
          simpa using this
        have hdeps : ∀ d ∈ g.depsOf m, d ∈ processed := by
          intro d hd
          have hdg : d ∈ g.gkeys := hcl m d hd
          by_contra hdp
          have hdU : d ∈ g.gkeys.filter (fun y => y ∉ processed) := by
            rw [List.mem_filter]
            simp [hdg, hdp]
          have h1 : L.indexOf d < L.indexOf m :=
            goodTopo_edge_lt hG (show hasEdge g m d from hd)
          have h2 : L.indexOf m ≤ L.indexOf d := hmin d hdU
          omega
        have hmw : m ∈ (deg.filter
            (fun p => p.2 = 0 ∧ p.1 ∉ processed)).map Prod.fst :=
          (wave_mem hnd hinv m).mpr ⟨hmg, hmp, hdeps⟩
        rw [hwnil] at hmw
        simp at hmw
      · rw [if_neg hwnil]
        have hwlen : 1 ≤ ((deg.filter
            (fun p => p.2 = 0 ∧ p.1 ∉ processed)).map Prod.fst).length := by
          cases hwq : (deg.filter
              (fun p => p.2 = 0 ∧ p.1 ∉ processed)).map Prod.fst with
          | nil => exact absurd hwq hwnil
          | cons a l => simp
        have hstep := waveInv_step hnd hinv
        have hlen' : g.gkeys.length ≤ fuel + (processed
            ++ (deg.filter (fun p => p.2 = 0 ∧ p.1 ∉ processed)).map
              Prod.fst).length := by
          rw [List.length_append]
          omega
        exact ih _ _ _ hstep hlen'
    · rw [if_neg hplen]
      have hkeyslen : g.gkeys.length = g.dependencies.length := by
        simp [gkeys, akeys]
      refine ⟨deg, ?_, ?_⟩
      · rw [← hinv.procEq]
        exact hinv
      · intro x hx
        rw [← hinv.procEq]
        exact result_full_of_length hnd hinv.procNodup hinv.procSub
          (by omega) x hx

theorem mem_take_flatten {ws : List (List SpecId)} {i : Nat} {x : SpecId}
    (h : x ∈ (ws.take i).flatten) :
    ∃ j, ∃ hj : j < ws.length, j < i ∧ x ∈ ws[j] := by
  rw [List.mem_flatten] at h
  obtain ⟨l, hl, hx⟩ := h
  obtain ⟨j, hj, hget⟩ := List.mem_iff_getElem.mp hl
  have hjb : j < i ∧ j < ws.length := by
    simp only [List.length_take] at hj
    omega
  obtain ⟨hji, hjl⟩ := hjb
  refine ⟨j, hjl, hji, ?_⟩
  have heq : (ws.take i)[j] = ws[j] := List.getElem_take ws
  rw [heq] at hget
  rw [hget]
  exact hx

theorem get_parallel_groups_spec {g : DependencyGraph} (hnd : g.gkeys.Nodup)
    (hcl : Closed g) (hnc : g.detect_cycle = none) :
    ∃ ws, g.get_parallel_groups = Except.ok ws ∧
      ws.flatten.Perm g.gkeys ∧
      (∀ i (h : i < ws.length), ∀ x, x ∈ ws[i] ↔
        x ∈ g.gkeys ∧ x ∉ (ws.take i).flatten ∧
          ∀ d ∈ g.depsOf x, d ∈ (ws.take i).flatten) ∧
      (∀ a b, hasEdge g a b → ∀ i (h : i < ws.length), a ∈ ws[i] →
        ∃ j, ∃ hj : j < ws.length, j < i ∧ b ∈ ws[j]) := by
  obtain ⟨L, hG⟩ := detect_cycle_none_topo hnc
  have hinit : WaveInv g (buildWaveDegrees g) [] [] := by
    constructor
    case degKeys => exact buildWaveDegrees_keys hnd
    case procEq => rfl
    case procNodup => exact List.nodup_nil
    case procSub =>
      intro x hx
      simp at hx
    case degVal =>
      intro x hxg
      rw [buildWaveDegrees_lookup hnd x, if_pos hxg]
      congr 1
      simp
    case waveChar =>
      intro i hi
      simp at hi
  have hlen0 : g.gkeys.length
      ≤ (g.dependencies.length + 1) + ([] : List SpecId).length := by
    simp [gkeys, akeys]
  obtain ⟨deg', hinv', hfull⟩ := wavesLoop_spec hnd hcl hG
    (g.dependencies.length + 1) (buildWaveDegrees g) [] [] hinit hlen0
  refine ⟨wavesLoop g (buildReverseDeps g) (g.dependencies.length + 1)
    (buildWaveDegrees g) [] [], ?_, ?_, ?_, ?_⟩
  · unfold get_parallel_groups
    rw [hnc]
  · refine (List.perm_ext_iff_of_nodup hinv'.procNodup hnd).mpr ?_
    intro a
    exact ⟨fun h => hinv'.procSub a h, fun h => hfull a h⟩
  · exact hinv'.waveChar
  · intro a b hedge i hi hai
    have hchar := (hinv'.waveChar i hi a).mp hai
    exact mem_take_flatten (hchar.2.2 b hedge)

/-! ### Characterizing the mutations of `add_dependency` -/

theorem aupdate_eq_self {α β : Type} [DecidableEq α] :
    ∀ {m : List (α × β)} {a : α} {v : β}, alookup m a = some v →
      aupdate m a v = m := by
  intro m
  induction m with
  | nil =>
    intro a v h
    simp [alookup] at h
  | cons p rest ih =>
    intro a v h
    obtain ⟨k, w⟩ := p
    by_cases hk : k = a
    · subst hk
      simp [alookup] at h
      subst h
      simp [aupdate]
    · simp only [alookup, if_neg hk] at h
      simp [aupdate, hk, ih h]

theorem aupdate_aupdate {α β : Type} [DecidableEq α] :
    ∀ (m : List (α × β)) (a : α) (v w : β),
      aupdate (aupdate m a v) a w = aupdate m a w := by
  intro m
  induction m with
  | nil =>
    intro a v w
    rfl
  | cons p rest ih =>
    intro a v w
    obtain ⟨k, u⟩ := p
    by_cases hk : k = a
    · subst hk
      simp [aupdate]
    · simp [aupdate, hk, ih]

theorem aupdate_append_fresh {α β : Type} [DecidableEq α] :
    ∀ {m : List (α × β)} {a : α}, a ∉ akeys m → ∀ (v w : β),
      aupdate (m ++ [(a, v)]) a w = m ++ [(a, w)] := by
  intro m
  induction m with
  | nil =>
    intro a _ v w
    simp [aupdate]
  | cons p rest ih =>
    intro a ha v w
    obtain ⟨k, u⟩ := p
    simp only [akeys, List.map_cons, List.mem_cons] at ha
    push_neg at ha
    have hk : ¬ (k = a) := fun hh => ha.1 hh.symm
    simp only [List.cons_append, aupdate, if_neg hk, List.append_eq]
    rw [ih (by simpa [akeys] using ha.2) v w]

theorem entryPush_lookup_self (m : List (SpecId × List SpecId))
    (a b : SpecId) :
    alookup (entryPush m a b) a = some ((alookup m a).getD [] ++ [b]) := by
  unfold entryPush
  cases hm : alookup m a with
  | some l =>
    rw [alookup_aupdate_self _ (by rw [← alookup_isSome]; simp [hm])]
    simp
  | none =>
    rw [alookup_append_of_none hm]
    simp [alookup]

theorem entryPush_lookup_ne (m : List (SpecId × List SpecId)) (a b c : SpecId)
    (h : c ≠ a) : alookup (entryPush m a b) c = alookup m c := by
  unfold entryPush
  cases hm : alookup m a with
  | some l => exact alookup_aupdate_ne _ h
  | none =>
    cases hc : alookup m c with
    | some v => exact alookup_append_of_isSome hc
    | none =>
      rw [alookup_append_of_none hc]
      have hne : ¬ (a = c) := fun hh => h hh.symm
      simp [alookup, hne]

theorem entryPush_keys (m : List (SpecId × List SpecId)) (a b : SpecId) :
    akeys (entryPush m a b)
      = if a ∈ akeys m then akeys m else akeys m ++ [a] := by
  unfold entryPush
  cases hm : alookup m a with
  | some l =>
    rw [akeys_aupdate, if_pos]
    rw [← alookup_isSome]
    simp [hm]
  | none =>
    rw [akeys_append, if_neg (alookup_eq_none.mp hm)]
    simp [akeys]

theorem ensureKey_lookup_self (m : List (SpecId × List SpecId)) (b : SpecId) :
    alookup (ensureKey m b) b = some ((alookup m b).getD []) := by
  unfold ensureKey
  cases hm : alookup m b with
  | some l => simp [hm]
  | none =>
    rw [alookup_append_of_none hm]
    simp [alookup]

theorem ensureKey_lookup_ne (m : List (SpecId × List SpecId)) (b c : SpecId)
    (h : c ≠ b) : alookup (ensureKey m b) c = alookup m c := by
  unfold ensureKey
  cases hm : alookup m b with
  | some l => rfl
  | none =>
    cases hc : alookup m c with
    | some v => exact alookup_append_of_isSome hc
    | none =>
      rw [alookup_append_of_none hc]
      have hne : ¬ (b = c) := fun hh => h hh.symm
      simp [alookup, hne]

theorem ensureKey_keys (m : List (SpecId × List SpecId)) (b : SpecId) :
    akeys (ensureKey m b)
      = if b ∈ akeys m then akeys m else akeys m ++ [b] := by
  unfold ensureKey
  cases hm : alookup m b with
  | some l =>
    rw [if_pos]
    rw [← alookup_isSome]
    simp [hm]
  | none =>
    rw [akeys_append, if_neg (alookup_eq_none.mp hm)]
    simp [akeys]

theorem ensureKey_eq_of_mem (m : List (SpecId × List SpecId)) (b : SpecId)
    (h : b ∈ akeys m) : ensureKey m b = m := by
  unfold ensureKey
  cases hm : alookup m b with
  | some l => rfl
  | none => exact absurd (alookup_eq_none.mp hm) (by simpa using h)

theorem retainNe_lookup_self (m : List (SpecId × List SpecId)) (a b : SpecId) :
    alookup (retainNe m a b) a
      = (alookup m a).map (fun l => l.filter (fun d => d ≠ b)) := by
  unfold retainNe
  cases hm : alookup m a with
  | some l =>
    rw [alookup_aupdate_self _ (by rw [← alookup_isSome]; simp [hm])]
    rfl
  | none =>
    rw [hm]
    rfl

theorem retainNe_lookup_ne (m : List (SpecId × List SpecId)) (a b c : SpecId)
    (h : c ≠ a) : alookup (retainNe m a b) c = alookup m c := by
  unfold retainNe
  cases hm : alookup m a with
  | some l => exact alookup_aupdate_ne _ h
  | none => rfl

theorem retainNe_keys (m : List (SpecId × List SpecId)) (a b : SpecId) :
    akeys (retainNe m a b) = akeys m := by
  unfold retainNe
  cases hm : alookup m a with
  | some l => exact akeys_aupdate m a _
  | none => rfl

theorem filter_ne_of_not_mem {l : List SpecId} {b : SpecId} (h : b ∉ l) :
    l.filter (fun d => d ≠ b) = l := by
  rw [List.filter_eq_self]
  intro d hd
  simp only [decide_eq_true_eq]
  intro hc
  subst hc
  exact h hd

/-! ### Transferring semantic cycles across edge-preserving maps -/

theorem chain'_imp_mem {R S : SpecId → SpecId → Prop} :
    ∀ p : List SpecId, (∀ c d, c ∈ p → d ∈ p → R c d → S c d) →
      p.Chain' R → p.Chain' S := by
  intro p
  induction p with
  | nil =>
    intro _ _
    exact List.chain'_nil
  | cons a q ih =>
    intro h hc
    rw [List.chain'_cons'] at hc ⊢
    refine ⟨?_, ?_⟩
    · intro b hb
      exact h a b (List.mem_cons_self a q)
        (List.mem_cons_of_mem _ (List.mem_of_mem_head? hb)) (hc.1 b hb)
    · exact ih (fun c d hcq hdq hr =>
        h c d (List.mem_cons_of_mem _ hcq) (List.mem_cons_of_mem _ hdq) hr)
        hc.2

theorem chain'_mem_out {R : SpecId → SpecId → Prop} :
    ∀ p : List SpecId, p.Chain' R → ∀ x ∈ p,
      (∃ y, R x y) ∨ p.getLast? = some x := by
  intro p
  induction p with
  | nil =>
    intro _ x hx
    simp at hx
  | cons a q ih =>
    intro hc x hx
    rcases List.mem_cons.mp hx with rfl | hxq
    · cases q with
      | nil =>
        right
        simp
      | cons b q' =>
        rw [List.chain'_cons] at hc
        exact Or.inl ⟨b, hc.1⟩
    · cases q with
      | nil => simp at hxq
      | cons b q' =>
        rw [List.chain'_cons] at hc
        rcases ih hc.2 x hxq with h | h
        · exact Or.inl h
        · right
          rw [List.getLast?_cons_cons]
          exact h

theorem chain'_mem_in {R : SpecId → SpecId → Prop} :
    ∀ p : List SpecId, p.Chain' R → ∀ x ∈ p,
      (∃ y, R y x) ∨ p.head? = some x := by
  intro p
  induction p with
  | nil =>
    intro _ x hx
    simp at hx
  | cons a q ih =>
    intro hc x hx
    rcases List.mem_cons.mp hx with rfl | hxq
    · right
      simp
    · cases q with
      | nil => simp at hxq
      | cons b q' =>
        rw [List.chain'_cons] at hc
        rcases ih hc.2 x hxq with h | h
        · exact Or.inl h
        · have hbx : b = x := by simpa using h
          subst hbx
          exact Or.inl ⟨a, hc.1⟩

theorem chain'_into_last {R : SpecId → SpecId → Prop} :
    ∀ p : List SpecId, p.Chain' R → 2 ≤ p.length →
      ∀ x, p.getLast? = some x → ∃ y, R y x := by
  intro p
  induction p with
  | nil =>
    intro _ h
    simp at h
  | cons a q ih =>
    intro hc hlen x hx
    cases q with
    | nil => simp at hlen
    | cons b q' =>
      rw [List.chain'_cons] at hc
      cases q' with
      | nil =>
        simp only [List.getLast?_cons_cons, List.getLast?_singleton,
          Option.some.injEq] at hx
        subst hx
        exact ⟨a, hc.1⟩
      | cons c q'' =>
        refine ih hc.2 (by simp) x ?_
        rw [← hx]
        simp [List.getLast?_cons_cons]

theorem semCycle_transfer {g g' : DependencyGraph}
    (hsub : ∀ c d, hasEdge g' c d → hasEdge g c d) :
    SemCycle g' → SemCycle g := by
  rintro ⟨p, hc, hlen, hhl⟩
  exact ⟨p, hc.imp (fun a b h => hsub a b h), hlen, hhl⟩

theorem semCycle_avoid_out {g g' : DependencyGraph} {b : SpecId}
    (hout : ∀ c, ¬ hasEdge g' b c)
    (htrans : ∀ c d, hasEdge g' c d → d ≠ b → hasEdge g c d) :
    SemCycle g' → SemCycle g := by
  rintro ⟨p, hc, hlen, hhl⟩
  have hbp : b ∉ p := by
    intro hb
    rcases chain'_mem_out p hc b hb with ⟨y, hy⟩ | hlast
    · exact hout y hy
    · have hhead : p.head? = some b := by rw [hhl]; exact hlast
      cases p with
      | nil => simp at hlen
      | cons a q =>
        have hab : a = b := by simpa using hhead
        subst hab
        cases q with
        | nil => simp at hlen
        | cons c q' =>
          rw [List.chain'_cons] at hc
          exact hout c hc.1
  refine ⟨p, ?_, hlen, hhl⟩
  refine chain'_imp_mem p ?_ hc
  intro c d _ hdp he
  exact htrans c d he (fun hh => hbp (hh ▸ hdp))

theorem semCycle_avoid_in {g g' : DependencyGraph} {a : SpecId}
    (hin : ∀ c, ¬ hasEdge g' c a)
    (htrans : ∀ c d, hasEdge g' c d → c ≠ a → hasEdge g c d) :
    SemCycle g' → SemCycle g := by
  rintro ⟨p, hc, hlen, hhl⟩
  have hap : a ∉ p := by
    intro ha
    rcases chain'_mem_in p hc a ha with ⟨y, hy⟩ | hhead
    · exact hin y hy
    · have hlast : p.getLast? = some a := by rw [← hhl]; exact hhead
      obtain ⟨y, hy⟩ := chain'_into_last p hc hlen a hlast
      exact hin y hy
  refine ⟨p, ?_, hlen, hhl⟩
  refine chain'_imp_mem p ?_ hc
  intro c d hcp _ he
  exact htrans c d he (fun hh => hap (hh ▸ hcp))

theorem semCycle_of_self_edge {g : DependencyGraph} {a : SpecId}
    (h : hasEdge g a a) : SemCycle g := by
  refine ⟨[a, a], ?_, by simp, by simp⟩
  rw [List.chain'_cons]
  exact ⟨h, List.chain'_singleton a⟩

/-! ### The rollback of a failed `add_dependency` -/

theorem g2_lookup_self (g : DependencyGraph) (a b : SpecId) :
    alookup (ensureKey (entryPush g.dependencies a b) b) a
      = some ((alookup g.dependencies a).getD [] ++ [b]) := by
  by_cases hab : a = b
  · subst hab
    rw [ensureKey_lookup_self, entryPush_lookup_self]
    rfl
  · rw [ensureKey_lookup_ne _ _ _ hab, entryPush_lookup_self]

theorem g2_lookup_other (g : DependencyGraph) (a b c : SpecId) (hca : c ≠ a) :
    alookup (ensureKey (entryPush g.dependencies a b) b) c
      = if c = b then some ((alookup g.dependencies c).getD [])
        else alookup g.dependencies c := by
  by_cases hcb : c = b
  · subst hcb
    rw [if_pos rfl, ensureKey_lookup_self, entryPush_lookup_ne _ _ _ _ hca]
  · rw [if_neg hcb, ensureKey_lookup_ne _ _ _ hcb,
      entryPush_lookup_ne _ _ _ _ hca]

theorem add_no_dup_edge {g : DependencyGraph}
    (hnsc : ¬ SemCycle g) {a b : SpecId}
    (hsc : SemCycle ⟨ensureKey (entryPush g.dependencies a b) b⟩) :
    b ∉ (alookup g.dependencies a).getD [] := by
  intro hbla
  refine hnsc (semCycle_transfer ?_ hsc)
  intro c d he
  unfold hasEdge DependencyGraph.depsOf at he ⊢
  by_cases hca : c = a
  · subst hca
    rw [g2_lookup_self] at he
    simp only [Option.getD_some] at he
    rcases List.mem_append.mp he with h | h
    · exact h
    · simp only [List.mem_singleton] at h
      subst h
      exact hbla
  · rw [g2_lookup_other g a b c hca] at he
    by_cases hcb : c = b
    · rw [if_pos hcb] at he
      simpa using he
    · rw [if_neg hcb] at he
      exact he

theorem add_error_b_key {g : DependencyGraph} (_hcl : Closed g)
    (hnsc : ¬ SemCycle g) {a b : SpecId} (hma : a ∈ g.gkeys)
    (hsc : SemCycle ⟨ensureKey (entryPush g.dependencies a b) b⟩) :
    b ∈ g.gkeys := by
  by_contra hbk
  have hab : b ≠ a := fun hh => hbk (hh ▸ hma)
  have hlb : alookup g.dependencies b = none := by
    rw [alookup_eq_none]
    exact hbk
  refine hnsc (semCycle_avoid_out (b := b) ?_ ?_ hsc)
  · intro c he
    unfold hasEdge DependencyGraph.depsOf at he
    rw [g2_lookup_other g a b b hab, if_pos rfl, hlb] at he
    simp at he
  · intro c d he hdb
    unfold hasEdge DependencyGraph.depsOf at he ⊢
    by_cases hca : c = a
    · subst hca
      rw [g2_lookup_self] at he
      simp only [Option.getD_some] at he
      rcases List.mem_append.mp he with h | h
      · exact h
      · simp only [List.mem_singleton] at h
        exact absurd h hdb
    · rw [g2_lookup_other g a b c hca] at he
      by_cases hcb : c = b
      · rw [if_pos hcb] at he
        simp only [Option.getD_some] at he
        rw [hcb, hlb] at he
        simp at he
      · rw [if_neg hcb] at he
        exact he

theorem add_error_self {g : DependencyGraph} (hcl : Closed g)
    (hnsc : ¬ SemCycle g) {a b : SpecId} (hma : a ∉ g.gkeys)
    (hsc : SemCycle ⟨ensureKey (entryPush g.dependencies a b) b⟩) :
    a = b := by
  by_contra hab
  have hla : alookup g.dependencies a = none := by
    rw [alookup_eq_none]
    exact hma
  refine hnsc (semCycle_avoid_in (a := a) ?_ ?_ hsc)
  · intro c he
    unfold hasEdge DependencyGraph.depsOf at he
    by_cases hca : c = a
    · subst hca
      rw [g2_lookup_self, hla] at he
      simp only [Option.getD_some, Option.getD_none, List.nil_append] at he
      simp only [List.mem_singleton] at he
      exact hab he
    · rw [g2_lookup_other g a b c hca] at he
      by_cases hcb : c = b
      · rw [if_pos hcb] at he
        simp only [Option.getD_some] at he
        exact hma (hcl c a he)
      · rw [if_neg hcb] at he
        exact hma (hcl c a he)
  · intro c d he hca
    unfold hasEdge DependencyGraph.depsOf at he ⊢
    rw [g2_lookup_other g a b c hca] at he
    by_cases hcb : c = b
    · rw [if_pos hcb] at he
      simpa using he
    · rw [if_neg hcb] at he
      exact he

theorem add_error_shape {g : DependencyGraph} (hcl : Closed g)
    (hnsc : ¬ SemCycle g) {a b : SpecId}
    (hsc : SemCycle ⟨ensureKey (entryPush g.dependencies a b) b⟩) :
    DependencyGraph.mk
        (retainNe (ensureKey (entryPush g.dependencies a b) b) a b)
      = if a ∈ g.gkeys then g else ⟨g.dependencies ++ [(a, [])]⟩ := by
  have hnodup := add_no_dup_edge hnsc hsc
  by_cases hma : a ∈ g.gkeys
  · rw [if_pos hma]
    have hbk : b ∈ g.gkeys := add_error_b_key hcl hnsc hma hsc
    obtain ⟨la, hla⟩ := alookup_isSome_of_mem_akeys hma
    have hg1 : entryPush g.dependencies a b
        = aupdate g.dependencies a (la ++ [b]) := by
      unfold entryPush
      rw [hla]
    have hbk1 : b ∈ akeys (entryPush g.dependencies a b) := by
      rw [entryPush_keys, if_pos (show a ∈ akeys g.dependencies from hma)]
      exact hbk
    rw [ensureKey_eq_of_mem _ _ hbk1]
    have hlk1 : alookup (entryPush g.dependencies a b) a
        = some (la ++ [b]) := by
      rw [entryPush_lookup_self, hla]
      rfl
    have hret : retainNe (entryPush g.dependencies a b) a b
        = aupdate (entryPush g.dependencies a b) a
            ((la ++ [b]).filter (fun d => d ≠ b)) := by
      unfold retainNe
      rw [hlk1]
    have hfilter : (la ++ [b]).filter (fun d => d ≠ b) = la := by
      rw [List.filter_append]
      have h1 : la.filter (fun d => d ≠ b) = la :=
        filter_ne_of_not_mem (by rw [hla] at hnodup; simpa using hnodup)
      have h2 : [b].filter (fun d => d ≠ b) = [] := by simp
      rw [h1, h2, List.append_nil]
    rw [hret, hfilter, hg1, aupdate_aupdate, aupdate_eq_self hla]
  · rw [if_neg hma]
    have hab : a = b := add_error_self hcl hnsc hma hsc
    subst hab
    have hla : alookup g.dependencies a = none := by
      rw [alookup_eq_none]
      exact hma
    have hg1 : entryPush g.dependencies a a
        = g.dependencies ++ [(a, [a])] := by
      unfold entryPush
      rw [hla]
    have hak1 : a ∈ akeys (entryPush g.dependencies a a) := by
      rw [entryPush_keys, if_neg (show a ∉ akeys g.dependencies from hma)]
      simp [akeys]
    rw [ensureKey_eq_of_mem _ _ hak1]
    have hlk1 : alookup (entryPush g.dependencies a a) a = some [a] := by
      rw [entryPush_lookup_self, hla]
      rfl
    have hret : retainNe (entryPush g.dependencies a a) a a
        = aupdate (entryPush g.dependencies a a) a
            ([a].filter (fun d => d ≠ a)) := by
      unfold retainNe
      rw [hlk1]
    have hfilter : [a].filter (fun d => d ≠ a) = [] := by simp
    rw [hret, hfilter, hg1, aupdate_append_fresh hma]

theorem nodup_concat {K : List SpecId} (h : K.Nodup) {x : SpecId}
    (hx : x ∉ K) : (K ++ [x]).Nodup := by
  rw [List.nodup_append]
  refine ⟨h, List.nodup_singleton x, ?_⟩
  intro y hy hy2
  simp only [List.mem_singleton] at hy2
  subst hy2
  exact hx hy

theorem b_mem_keys_g2 (g : DependencyGraph) (a b : SpecId) :
    b ∈ akeys (ensureKey (entryPush g.dependencies a b) b) := by
  rw [ensureKey_keys]
  by_cases hb : b ∈ akeys (entryPush g.dependencies a b)
  · rw [if_pos hb]
    exact hb
  · rw [if_neg hb]
    simp

theorem keys_g2_super (g : DependencyGraph) (a b : SpecId) {x : SpecId}
    (hx : x ∈ g.gkeys) :
    x ∈ akeys (ensureKey (entryPush g.dependencies a b) b) := by
  rw [ensureKey_keys, entryPush_keys]
  have hx1 : x ∈ akeys g.dependencies := hx
  by_cases hma : a ∈ akeys g.dependencies
  · rw [if_pos hma]
    by_cases hmb : b ∈ akeys g.dependencies
    · rw [if_pos hmb]
      exact hx1
    · rw [if_neg hmb]
      exact List.mem_append_left _ hx1
  · rw [if_neg hma]
    by_cases hmb : b ∈ akeys g.dependencies ++ [a]
    · rw [if_pos hmb]
      exact List.mem_append_left _ hx1
    · rw [if_neg hmb]
      exact List.mem_append_left _ (List.mem_append_left _ hx1)

theorem keys_g2_nodup {g : DependencyGraph} (hnd : g.gkeys.Nodup)
    (a b : SpecId) :
    (akeys (ensureKey (entryPush g.dependencies a b) b)).Nodup := by
  rw [ensureKey_keys, entryPush_keys]
  have hnd1 : (akeys g.dependencies).Nodup := hnd
  by_cases hma : a ∈ akeys g.dependencies
  · rw [if_pos hma]
    by_cases hmb : b ∈ akeys g.dependencies
    · rw [if_pos hmb]
      exact hnd1
    · rw [if_neg hmb]
      exact nodup_concat hnd1 hmb
  · rw [if_neg hma]
    by_cases hmb : b ∈ akeys g.dependencies ++ [a]
    · rw [if_pos hmb]
      exact nodup_concat hnd1 hma
    · rw [if_neg hmb]
      exact nodup_concat (nodup_concat hnd1 hma) hmb

theorem graphInv_new : GraphInv DependencyGraph.new := by
  refine ⟨?_, ?_, ?_⟩
  · show (akeys ([] : List (SpecId × List SpecId))).Nodup
    exact List.nodup_nil
  · intro a b h
    unfold hasEdge DependencyGraph.depsOf at h
    simp [new, alookup] at h
  · rintro ⟨p, hc, hlen, _⟩
    cases p with
    | nil => simp at hlen
    | cons x q =>
      cases q with
      | nil => simp at hlen
      | cons y q' =>
        rw [List.chain'_cons] at hc
        have h := hc.1
        unfold hasEdge DependencyGraph.depsOf at h
        simp [new, alookup] at h

theorem graphInv_add {g : DependencyGraph} (h : GraphInv g) (a b : SpecId) :
    GraphInv (g.add_dependency a b).2 := by
  obtain ⟨hnd, hcl, hnsc⟩ := h
  unfold add_dependency
  dsimp only
  cases hdc : detect_cycle ⟨ensureKey (entryPush g.dependencies a b) b⟩ with
  | some cyc =>
    show GraphInv
      ⟨retainNe (ensureKey (entryPush g.dependencies a b) b) a b⟩
    rw [add_error_shape hcl hnsc (detect_cycle_some_semCycle hdc)]
    by_cases hma : a ∈ g.gkeys
    · rw [if_pos hma]
      exact ⟨hnd, hcl, hnsc⟩
    · rw [if_neg hma]
      have hkeys : akeys (g.dependencies ++ [(a, [])]) = g.gkeys ++ [a] := by
        rw [akeys_append]
        rfl
      refine ⟨?_, ?_, ?_⟩
      · show (akeys (g.dependencies ++ [(a, [])])).Nodup
        rw [hkeys]
        exact nodup_concat hnd hma
      · intro c d he
        show d ∈ akeys (g.dependencies ++ [(a, [])])
        rw [hkeys]
        unfold hasEdge DependencyGraph.depsOf at he
        cases hc : alookup g.dependencies c with
        | some l =>
          rw [alookup_append_of_isSome hc] at he
          simp only [Option.getD_some] at he
          refine List.mem_append_left _ (hcl c d ?_)
          unfold hasEdge DependencyGraph.depsOf
          rw [hc]
          simpa using he
        | none =>
          rw [alookup_append_of_none hc] at he
          by_cases hca : a = c
          · subst hca
            simp [alookup] at he
          · simp [alookup, hca] at he
      · intro hsc'
        refine hnsc (semCycle_transfer ?_ hsc')
        intro c d he
        unfold hasEdge DependencyGraph.depsOf at he ⊢
        cases hc : alookup g.dependencies c with
        | some l =>
          rw [alookup_append_of_isSome hc] at he
          exact he
        | none =>
          rw [alookup_append_of_none hc] at he
          by_cases hca : a = c
          · subst hca
            simp [alookup] at he
          · simp [alookup, hca] at he
  | none =>
    show GraphInv ⟨ensureKey (entryPush g.dependencies a b) b⟩
    refine ⟨?_, ?_, ?_⟩
    · exact keys_g2_nodup hnd a b
    · intro c d he
      show d ∈ akeys (ensureKey (entryPush g.dependencies a b) b)
      unfold hasEdge DependencyGraph.depsOf at he
      by_cases hca : c = a
      · subst hca
        rw [g2_lookup_self] at he
        simp only [Option.getD_some] at he
        rcases List.mem_append.mp he with h | h
        · exact keys_g2_super g c b (hcl c d h)
        · simp only [List.mem_singleton] at h
          subst h
          exact b_mem_keys_g2 g c d
      · rw [g2_lookup_other g a b c hca] at he
        by_cases hcb : c = b
        · rw [if_pos hcb] at he
          simp only [Option.getD_some] at he
          exact keys_g2_super g a b (hcl c d he)
        · rw [if_neg hcb] at he
          exact keys_g2_super g a b (hcl c d he)
    · obtain ⟨L, hG⟩ := detect_cycle_none_topo hdc
      exact goodTopo_no_semCycle hG

theorem graphInv_remove {g : DependencyGraph} (h : GraphInv g)
    (a b : SpecId) : GraphInv (g.remove_dependency a b) := by
  obtain ⟨hnd, hcl, hnsc⟩ := h
  unfold remove_dependency
  refine ⟨?_, ?_, ?_⟩
  · show (akeys (retainNe g.dependencies a b)).Nodup
    rw [retainNe_keys]
    exact hnd
  · intro c d he
    show d ∈ akeys (retainNe g.dependencies a b)
    rw [retainNe_keys]
    unfold hasEdge DependencyGraph.depsOf at he
    by_cases hca : c = a
    · subst hca
      rw [retainNe_lookup_self] at he
      cases hc : alookup g.dependencies c with
      | some l =>
        rw [hc] at he
        simp only [Option.map_some', Option.getD_some] at he
        have hd := List.mem_of_mem_filter he
        refine hcl c d ?_
        unfold hasEdge DependencyGraph.depsOf
        rw [hc]
        exact hd
      | none =>
        rw [hc] at he
        simp at he
    · rw [retainNe_lookup_ne _ _ _ _ hca] at he
      exact hcl c d he
  · intro hsc'
    refine hnsc (semCycle_transfer ?_ hsc')
    intro c d he
    unfold hasEdge DependencyGraph.depsOf at he ⊢
    by_cases hca : c = a
    · subst hca
      rw [retainNe_lookup_self] at he
      cases hc : alookup g.dependencies c with
      | some l =>
        rw [hc] at he
        simp only [Option.map_some', Option.getD_some] at he
        simpa using List.mem_of_mem_filter he
      | none =>
        rw [hc] at he
        simp at he
    · rw [retainNe_lookup_ne _ _ _ _ hca] at he
      exact he

theorem reachable_graphInv {g : DependencyGraph} (h : Reachable g) :
    GraphInv g := by
  induction h with
  | empty => exact graphInv_new
  | add g a b _ ih => exact graphInv_add ih a b
  | remove g a b _ ih => exact graphInv_remove ih a b

/-! ### State snapshot persistence -/

theorem mapM_loop_of_forall {α β : Type} (f : α → Option β) (g : β → α)
    (hfg : ∀ b, f (g b) = some b) :
    ∀ (l : List β) (acc : List β),
      List.mapM.loop f (l.map g) acc = some (acc.reverse ++ l) := by
  intro l
  induction l with
  | nil =>
    intro acc
    simp [List.mapM.loop]
  | cons x xs ih =>
    intro acc
    rw [List.map_cons]
    simp only [List.mapM.loop, hfg x, Option.bind_eq_bind, Option.some_bind]
    rw [ih (x :: acc)]
    simp

theorem decodeStrList_encode (l : List String) :
    decodeStrList (encodeStrList l) = some l := by
  show List.mapM.loop decodeStr (l.map Json.str) [] = some l
  rw [mapM_loop_of_forall decodeStr Json.str (fun b => rfl) l []]
  simp

theorem decodeStrMap_encode (m : List (String × String)) :
    decodeStrMap (encodeStrMap m) = some m := by
  show List.mapM.loop (fun p => (decodeStr p.2).map (fun v => (p.1, v)))
    (m.map (fun p => (p.1, Json.str p.2))) [] = some m
  rw [mapM_loop_of_forall (fun p => (decodeStr p.2).map (fun v => (p.1, v)))
    (fun p => (p.1, Json.str p.2)) (fun b => by simp [decodeStr]) m []]
  simp

theorem decodeStrListMap_encode (m : List (String × List String)) :
    decodeStrListMap (encodeStrListMap m) = some m := by
  show List.mapM.loop (fun p => (decodeStrList p.2).map (fun v => (p.1, v)))
    (m.map (fun p => (p.1, encodeStrList p.2))) [] = some m
  rw [mapM_loop_of_forall
    (fun p => (decodeStrList p.2).map (fun v => (p.1, v)))
    (fun p => (p.1, encodeStrList p.2))
    (fun b => by simp [decodeStrList_encode]) m []]
  simp

theorem decodeState_encodeState (s : OrchestratorState) :
    decodeState (encodeState s) = some s := by
  unfold decodeState encodeState
  simp [alookup, decodeStrList_encode, decodeStrMap_encode,
    decodeStrListMap_encode, decodeStr]

/-! ### The loop-engine task scan -/

theorem enqueue_retry (st : LoopState) (tid : String) :
    (st.enqueue_task tid).retry_counts = st.retry_counts := by
  unfold LoopState.enqueue_task
  split <;> rfl

theorem nextTaskAux_spec (tasks : List Task) (maxR : Nat) :
    ∀ (n : Nat) (st : LoopState),
      (∀ tid, (nextTaskAux tasks maxR n st).1 = some tid →
        (alookup st.retry_counts tid).getD 0 < maxR ∧
        ∃ task, tasks.find? (fun t => t.id = tid) = some task ∧
          task.status ≠ Status.Completed ∧
          task.dependencies.all (fun dep => depCompleted tasks dep) = true) ∧
      (nextTaskAux tasks maxR n st).2.2 ≤ n := by
  intro n
  induction n with
  | zero =>
    intro st
    constructor
    · intro tid h
      simp [nextTaskAux] at h
    · simp [nextTaskAux]
  | succ n ih =>
    intro st
    cases hq : st.task_queue with
    | nil =>
      have hd : st.dequeue_task = (none, st) := by
        unfold LoopState.dequeue_task
        rw [hq]
      constructor
      · intro tid h
        unfold nextTaskAux at h
        rw [hd] at h
        simp at h
      · unfold nextTaskAux
        rw [hd]
        simp
    | cons t rest =>
      have hd : st.dequeue_task
          = (some t, { st with task_queue := rest }) := by
        unfold LoopState.dequeue_task
        rw [hq]
      have hrc : ({ st with task_queue := rest } : LoopState).retry_counts
          = st.retry_counts := rfl
      unfold nextTaskAux
      rw [hd]
      dsimp only
      by_cases hr : maxR ≤ ({ st with task_queue := rest } : LoopState
          ).get_retry_count t
      · rw [if_pos hr]
        obtain ⟨ih1, ih2⟩ := ih { st with task_queue := rest }
        constructor
        · intro tid h
          exact ih1 tid h
        · dsimp only
          omega
      · rw [if_neg hr]
        cases hf : tasks.find? (fun tk => tk.id = t) with
        | none =>
          dsimp only
          obtain ⟨ih1, ih2⟩ := ih { st with task_queue := rest }
          constructor
          · intro tid h
            exact ih1 tid h
          · dsimp only
            omega
        | some task =>
          dsimp only
          by_cases hst : task.status = Status.Completed
          · rw [if_pos hst]
            obtain ⟨ih1, ih2⟩ := ih { st with task_queue := rest }
            constructor
            · intro tid h
              exact ih1 tid h
            · dsimp only
              omega
          · rw [if_neg hst]
            by_cases hdeps : task.dependencies.all
                (fun dep => depCompleted tasks dep) = true
            · rw [if_pos hdeps]
              constructor
              · intro tid h
                dsimp only at h
                rw [Option.some.injEq] at h
                subst h
                unfold LoopState.get_retry_count at hr
                dsimp only at hr
                refine ⟨by omega, task, ?_, hst, hdeps⟩
                rw [← hf]
              · dsimp only
                omega
            · rw [if_neg hdeps]
              obtain ⟨ih1, ih2⟩ :=
                ih (({ st with task_queue := rest } : LoopState).enqueue_task t)
              constructor
              · intro tid h
                have hres := ih1 tid h
                rw [enqueue_retry] at hres
                exact hres
              · dsimp only
                omega

/-! ### Monitor events -/

theorem terminalEvent_no_started (o : Orchestrator) (cfg : OrchestratorConfig)
    (sid' : String) (now : Nat) (st : SessionStatus) (sid spec : String) :
    MonitorEvent.SessionStarted sid spec
      ∉ Orchestrator.terminalEvent o cfg sid' now st := by
  cases st <;> simp [Orchestrator.terminalEvent]

theorem checkAux_no_started (now : Nat) (sid spec : String) :
    ∀ (sids : List String) (o : Orchestrator) (acc : List MonitorEvent),
      MonitorEvent.SessionStarted sid spec ∉ acc →
      MonitorEvent.SessionStarted sid spec
        ∉ (Orchestrator.checkAux now sids o acc).1 := by
  intro sids
  induction sids with
  | nil =>
    intro o acc h
    exact h
  | cons s rest ih =>
    intro o acc hacc
    unfold Orchestrator.checkAux
    dsimp only
    apply ih
    split
    · intro hmem
      rcases List.mem_append.mp hmem with h | h
      · exact hacc h
      · exact terminalEvent_no_started _ _ _ _ _ _ _ h
    · exact hacc

theorem monitor_tick_no_started (o : Orchestrator) (now : Nat)
    (sid spec : String) :
    MonitorEvent.SessionStarted sid spec
      ∉ (Orchestrator.monitor_tick o now).1 := by
  unfold Orchestrator.monitor_tick Orchestrator.check_all_sessions
  dsimp only
  split
  · intro hmem
    rcases List.mem_append.mp hmem with h | h
    · exact checkAux_no_started now sid spec _ o [] (by simp) h
    · simp at h
  · exact checkAux_no_started now sid spec _ o [] (by simp)

theorem monitor_run_no_started (sid spec : String) :
    ∀ (ticks : List Nat) (o : Orchestrator),
      MonitorEvent.SessionStarted sid spec
        ∉ Orchestrator.monitor_run o ticks := by
  intro ticks
  induction ticks with
  | nil =>
    intro o
    simp [Orchestrator.monitor_run]
  | cons now rest ih =>
    intro o
    unfold Orchestrator.monitor_run
    dsimp only
    split
    · exact monitor_tick_no_started o now sid spec
    · intro hmem
      rcases List.mem_append.mp hmem with h | h
      · exact monitor_tick_no_started o now sid spec h
      · exact ih _ h

end DependencyGraph

/-! ## Claim theorems -/

/-- C1: on every graph reachable through the public mutators on which
`detect_cycle` reports no cycle, `topological_sort` returns `Ok` with a
permutation of the graph's node keys in which every recorded prerequisite
`b` of a node `a` appears strictly before `a`. -/
theorem claim_C1_topological_sort {g : DependencyGraph}
    (hg : Reachable g) (hnc : g.detect_cycle = none) :
    ∃ l, g.topological_sort = Except.ok l ∧ l.Perm g.gkeys ∧
      ∀ a b, hasEdge g a b → l.indexOf b < l.indexOf a := by
  obtain ⟨hnd, hcl, _⟩ := DependencyGraph.reachable_graphInv hg
  exact DependencyGraph.topological_sort_spec hnd hcl hnc

theorem claim_C1_witness :
    ∃ l, (DependencyGraph.new.add_dependency "B" "A").2.topological_sort
        = Except.ok l ∧
      l.Perm (DependencyGraph.new.add_dependency "B" "A").2.gkeys ∧
      ∀ a b, hasEdge (DependencyGraph.new.add_dependency "B" "A").2 a b →
        l.indexOf b < l.indexOf a :=
  claim_C1_topological_sort
    (Reachable.add DependencyGraph.new "B" "A" Reachable.empty)
    (by simp +decide [DependencyGraph.new, DependencyGraph.add_dependency,
      DependencyGraph.detect_cycle, DependencyGraph.detectCycleAux,
      DependencyGraph.dfs_cycle_detection, DependencyGraph.dfsDeps,
      DependencyGraph.dfsFuel, DependencyGraph.nodeUniverse,
      DependencyGraph.gkeys, akeys, DependencyGraph.depsOf, alookup,
      insertSet, DependencyGraph.entryPush, DependencyGraph.ensureKey,
      DependencyGraph.retainNe, aupdate])

/-- C2 (corrected): on a reachable graph, a failed `add_dependency a b`
restores the graph exactly when `a` was already a node; when the failure
is a self-loop on a fresh node (`a = b` not yet a key) the rollback keeps
the newly created node `a` with an empty prerequisite list, so the graph
is not unchanged.  `claim_C2_counterexample` exhibits the changed
graph. -/
theorem claim_C2_failed_add {g : DependencyGraph} (hg : Reachable g)
    {a b : SpecId} {e : ApplicationError}
    (herr : (g.add_dependency a b).1 = Except.error e) :
    (g.add_dependency a b).2
      = if a ∈ g.gkeys then g else ⟨g.dependencies ++ [(a, [])]⟩ := by
  obtain ⟨hnd, hcl, hnsc⟩ := DependencyGraph.reachable_graphInv hg
  unfold DependencyGraph.add_dependency at herr ⊢
  dsimp only at herr ⊢
  cases hdc : DependencyGraph.detect_cycle
      ⟨DependencyGraph.ensureKey
        (DependencyGraph.entryPush g.dependencies a b) b⟩ with
  | none =>
    rw [hdc] at herr
    exact Except.noConfusion herr
  | some cyc =>
    dsimp only
    exact DependencyGraph.add_error_shape hcl hnsc
      (DependencyGraph.detect_cycle_some_semCycle hdc)

theorem claim_C2_witness :
    ((DependencyGraph.new.add_dependency "A" "B").2.add_dependency
        "B" "A").2
      = if "B" ∈ (DependencyGraph.new.add_dependency "A" "B").2.gkeys
        then (DependencyGraph.new.add_dependency "A" "B").2
        else ⟨(DependencyGraph.new.add_dependency "A" "B").2.dependencies
          ++ [("B", [])]⟩ :=
  claim_C2_failed_add
    (Reachable.add DependencyGraph.new "A" "B" Reachable.empty)
    (show ((DependencyGraph.new.add_dependency "A" "B").2.add_dependency
        "B" "A").1
      = Except.error (ApplicationError.CyclicDependency ["A", "B"]) by
      simp +decide [DependencyGraph.new, DependencyGraph.add_dependency,
        DependencyGraph.detect_cycle, DependencyGraph.detectCycleAux,
        DependencyGraph.dfs_cycle_detection, DependencyGraph.dfsDeps,
        DependencyGraph.dfsFuel, DependencyGraph.nodeUniverse,
        DependencyGraph.gkeys, akeys, DependencyGraph.depsOf, alookup,
        insertSet, DependencyGraph.entryPush, DependencyGraph.ensureKey,
        DependencyGraph.retainNe, aupdate])

theorem claim_C2_counterexample :
    (DependencyGraph.new.add_dependency "X" "X").1
        = Except.error (ApplicationError.CyclicDependency ["X"]) ∧
      (DependencyGraph.new.add_dependency "X" "X").2
        ≠ DependencyGraph.new := by
  have h2 : (DependencyGraph.new.add_dependency "X" "X").2
      = DependencyGraph.mk [("X", [])] := by
    simp +decide [DependencyGraph.new, DependencyGraph.add_dependency,
      DependencyGraph.detect_cycle, DependencyGraph.detectCycleAux,
      DependencyGraph.dfs_cycle_detection, DependencyGraph.dfsDeps,
      DependencyGraph.dfsFuel, DependencyGraph.nodeUniverse,
      DependencyGraph.gkeys, akeys, DependencyGraph.depsOf, alookup,
      insertSet, DependencyGraph.entryPush, DependencyGraph.ensureKey,
      DependencyGraph.retainNe, aupdate]
  refine ⟨?_, ?_⟩
  · simp +decide [DependencyGraph.new, DependencyGraph.add_dependency,
      DependencyGraph.detect_cycle, DependencyGraph.detectCycleAux,
      DependencyGraph.dfs_cycle_detection, DependencyGraph.dfsDeps,
      DependencyGraph.dfsFuel, DependencyGraph.nodeUniverse,
      DependencyGraph.gkeys, akeys, DependencyGraph.depsOf, alookup,
      insertSet, DependencyGraph.entryPush, DependencyGraph.ensureKey,
      DependencyGraph.retainNe, aupdate]
  · rw [h2]
    intro hc
    simp [DependencyGraph.new] at hc

/-- C3: on every reachable acyclic graph (`detect_cycle` reports none),
`get_parallel_groups` returns `Ok` with waves that are pairwise disjoint
and cover every node key exactly once, every prerequisite edge crosses
from a strictly earlier wave, and wave `i` holds exactly the keys outside
earlier waves all of whose prerequisites lie in earlier waves. -/
theorem claim_C3_parallel_groups {g : DependencyGraph} (hg : Reachable g)
    (hnc : g.detect_cycle = none) :
    ∃ ws, g.get_parallel_groups = Except.ok ws ∧
      ws.flatten.Nodup ∧ ws.flatten.Perm g.gkeys ∧
      (∀ i (h : i < ws.length), ∀ x, x ∈ ws[i] ↔
        x ∈ g.gkeys ∧ x ∉ (ws.take i).flatten ∧
          ∀ d ∈ g.depsOf x, d ∈ (ws.take i).flatten) ∧
      (∀ a b, hasEdge g a b → ∀ i (h : i < ws.length), a ∈ ws[i] →
        ∃ j, ∃ hj : j < ws.length, j < i ∧ b ∈ ws[j]) := by
  obtain ⟨hnd, hcl, _⟩ := DependencyGraph.reachable_graphInv hg
  obtain ⟨ws, h1, h2, h3, h4⟩ :=
    DependencyGraph.get_parallel_groups_spec hnd hcl hnc
  exact ⟨ws, h1, h2.nodup_iff.mpr hnd, h2, h3, h4⟩

theorem claim_C3_witness :
    ∃ ws, (DependencyGraph.new.add_dependency "B" "A").2.get_parallel_groups
        = Except.ok ws ∧
      ws.flatten.Nodup ∧
      ws.flatten.Perm (DependencyGraph.new.add_dependency "B" "A").2.gkeys ∧
      (∀ i (h : i < ws.length), ∀ x, x ∈ ws[i] ↔
        x ∈ (DependencyGraph.new.add_dependency "B" "A").2.gkeys ∧
          x ∉ (ws.take i).flatten ∧
          ∀ d ∈ (DependencyGraph.new.add_dependency "B" "A").2.depsOf x,
            d ∈ (ws.take i).flatten) ∧
      (∀ a b, hasEdge (DependencyGraph.new.add_dependency "B" "A").2 a b →
        ∀ i (h : i < ws.length), a ∈ ws[i] →
        ∃ j, ∃ hj : j < ws.length, j < i ∧ b ∈ ws[j]) :=
  claim_C3_parallel_groups
    (Reachable.add DependencyGraph.new "B" "A" Reachable.empty)
    (by simp +decide [DependencyGraph.new, DependencyGraph.add_dependency,
      DependencyGraph.detect_cycle, DependencyGraph.detectCycleAux,
      DependencyGraph.dfs_cycle_detection, DependencyGraph.dfsDeps,
      DependencyGraph.dfsFuel, DependencyGraph.nodeUniverse,
      DependencyGraph.gkeys, akeys, DependencyGraph.depsOf, alookup,
      insertSet, DependencyGraph.entryPush, DependencyGraph.ensureKey,
      DependencyGraph.retainNe, aupdate])

/-- C4: for every session known to the orchestrator (with duplicate-free
retry-count and start-time maps, the `HashMap` invariant),
`handle_session_failure` branches on `should_retry`: below the bound it
increments the retry counter and restarts the session so its status is
`Running`; otherwise it rolls back, setting the status to `Failed` and
removing both the retry-count and start-time entries; with
`max_retry_attempts = 0` the retry branch is impossible. -/
theorem claim_C4_handle_session_failure {o : Orchestrator}
    {sid reason : String} {now : Nat}
    (hknown : (alookup o.sessions sid).isSome = true)
    (hrnd : (akeys o.retry_counts).Nodup)
    (hsnd : (akeys o.session_start_times).Nodup) :
    (Orchestrator.should_retry o sid →
      (Orchestrator.handle_session_failure o sid reason now).1
          = Except.ok () ∧
      alookup (Orchestrator.handle_session_failure o sid reason
          now).2.retry_counts sid
        = some ((alookup o.retry_counts sid).getD 0 + 1) ∧
      alookup (Orchestrator.handle_session_failure o sid reason
          now).2.session_statuses sid = some SessionStatus.Running) ∧
    (¬ Orchestrator.should_retry o sid →
      (Orchestrator.handle_session_failure o sid reason now).1
          = Except.ok () ∧
      alookup (Orchestrator.handle_session_failure o sid reason
          now).2.session_statuses sid = some SessionStatus.Failed ∧
      alookup (Orchestrator.handle_session_failure o sid reason
          now).2.retry_counts sid = none ∧
      alookup (Orchestrator.handle_session_failure o sid reason
          now).2.session_start_times sid = none) ∧
    (o.config.max_retry_attempts = 0 →
      ¬ Orchestrator.should_retry o sid) := by
  obtain ⟨s, hs⟩ := Option.isSome_iff_exists.mp hknown
  have hesc : Orchestrator.escalate o sid EscalationLevel.Error reason
      = Except.ok () := by
    unfold Orchestrator.escalate Orchestrator.get_session
    rw [hs]
  unfold Orchestrator.handle_session_failure
  rw [hesc]
  dsimp only
  refine ⟨?_, ?_, ?_⟩
  · intro hsr
    rw [if_pos hsr]
    unfold Orchestrator.retry_session Orchestrator.start_session
    dsimp only
    rw [if_neg (by simp [hs])]
    refine ⟨rfl, ?_, ?_⟩
    · exact alookup_ains_self _ _ _
    · exact alookup_ains_self _ _ _
  · intro hsr
    rw [if_neg hsr]
    unfold Orchestrator.rollback_session Orchestrator.mark_session_failed
    dsimp only
    refine ⟨rfl, ?_, ?_, ?_⟩
    · exact alookup_ains_self _ _ _
    · rw [alookup_eq_none]
      exact not_mem_akeys_aerase hrnd
    · rw [alookup_eq_none]
      exact not_mem_akeys_aerase hsnd
  · intro h0
    unfold Orchestrator.should_retry
    rw [h0]
    omega

theorem claim_C4_witness :
    (Orchestrator.should_retry
        ⟨⟨4, 300, 30, 1, 5⟩, [("s1", ⟨"s1", "SPEC-001", Phase.Spec⟩)],
         [("s1", SessionStatus.Running)], [("s1", 0)],
         DependencyGraph.new, []⟩ "s1" →
      (Orchestrator.handle_session_failure
          ⟨⟨4, 300, 30, 1, 5⟩, [("s1", ⟨"s1", "SPEC-001", Phase.Spec⟩)],
           [("s1", SessionStatus.Running)], [("s1", 0)],
           DependencyGraph.new, []⟩ "s1" "boom" 7).1 = Except.ok () ∧
      alookup (Orchestrator.handle_session_failure
          ⟨⟨4, 300, 30, 1, 5⟩, [("s1", ⟨"s1", "SPEC-001", Phase.Spec⟩)],
           [("s1", SessionStatus.Running)], [("s1", 0)],
           DependencyGraph.new, []⟩ "s1" "boom" 7).2.retry_counts "s1"
        = some ((alookup ([] : List (String × Nat)) "s1").getD 0 + 1) ∧
      alookup (Orchestrator.handle_session_failure
          ⟨⟨4, 300, 30, 1, 5⟩, [("s1", ⟨"s1", "SPEC-001", Phase.Spec⟩)],
           [("s1", SessionStatus.Running)], [("s1", 0)],
           DependencyGraph.new, []⟩ "s1" "boom" 7).2.session_statuses "s1"
        = some SessionStatus.Running) ∧
    (¬ Orchestrator.should_retry
        ⟨⟨4, 300, 30, 1, 5⟩, [("s1", ⟨"s1", "SPEC-001", Phase.Spec⟩)],
         [("s1", SessionStatus.Running)], [("s1", 0)],
         DependencyGraph.new, []⟩ "s1" →
      (Orchestrator.handle_session_failure
          ⟨⟨4, 300, 30, 1, 5⟩, [("s1", ⟨"s1", "SPEC-001", Phase.Spec⟩)],
           [("s1", SessionStatus.Running)], [("s1", 0)],
           DependencyGraph.new, []⟩ "s1" "boom" 7).1 = Except.ok () ∧
      alookup (Orchestrator.handle_session_failure
          ⟨⟨4, 300, 30, 1, 5⟩, [("s1", ⟨"s1", "SPEC-001", Phase.Spec⟩)],
           [("s1", SessionStatus.Running)], [("s1", 0)],
           DependencyGraph.new, []⟩ "s1" "boom" 7).2.session_statuses "s1"
        = some SessionStatus.Failed ∧
      alookup (Orchestrator.handle_session_failure
          ⟨⟨4, 300, 30, 1, 5⟩, [("s1", ⟨"s1", "SPEC-001", Phase.Spec⟩)],
           [("s1", SessionStatus.Running)], [("s1", 0)],
           DependencyGraph.new, []⟩ "s1" "boom" 7).2.retry_counts "s1"
        = none ∧
      alookup (Orchestrator.handle_session_failure
          ⟨⟨4, 300, 30, 1, 5⟩, [("s1", ⟨"s1", "SPEC-001", Phase.Spec⟩)],
           [("s1", SessionStatus.Running)], [("s1", 0)],
           DependencyGraph.new, []⟩ "s1" "boom" 7).2.session_start_times "s1"
        = none) ∧
    ((⟨⟨4, 300, 30, 1, 5⟩, [("s1", ⟨"s1", "SPEC-001", Phase.Spec⟩)],
       [("s1", SessionStatus.Running)], [("s1", 0)],
       DependencyGraph.new, []⟩ : Orchestrator).config.max_retry_attempts = 0 →
      ¬ Orchestrator.should_retry
        ⟨⟨4, 300, 30, 1, 5⟩, [("s1", ⟨"s1", "SPEC-001", Phase.Spec⟩)],
         [("s1", SessionStatus.Running)], [("s1", 0)],
         DependencyGraph.new, []⟩ "s1") :=
  claim_C4_handle_session_failure (by decide) (by decide) (by decide)

/-- C5: `next_task` never yields a task whose retry count has reached
`max_retries`, and never yields a task with a prerequisite that is absent
from `all_tasks` or not `Completed` (a yielded task is itself present and
not `Completed` with all prerequisites `Completed`); the scan dequeues at
most the initial queue length of candidates. -/
theorem claim_C5_next_task (st : LoopState) (maxR : Nat)
    (tasks : List Task) :
    (∀ tid, (next_task st maxR tasks).1 = some tid →
      st.get_retry_count tid < maxR ∧
      ∃ task, tasks.find? (fun t => t.id = tid) = some task ∧
        task.status ≠ Status.Completed ∧
        task.dependencies.all (fun dep => depCompleted tasks dep) = true) ∧
    (next_task st maxR tasks).2.2 ≤ st.pending_count := by
  have h := DependencyGraph.nextTaskAux_spec tasks maxR st.pending_count st
  exact ⟨fun tid ht => h.1 tid ht, h.2⟩

/-- C6: `determine_session_status` returns a terminal current status
unchanged; a non-terminal status with a recorded start time is upgraded
to `TimedOut` (updating the status map) exactly when
`session_timeout_secs ≤ now - start`, and is otherwise returned
unchanged, as it is when no start time is recorded; with
`session_timeout_secs = 0` every `Running` session with a recorded start
time is reported `TimedOut`. -/
theorem claim_C6_determine_session_status {o : Orchestrator}
    {sid : String} {now : Nat} {s : SessionStatus}
    (hs : alookup o.session_statuses sid = some s) :
    (s.isTerminal = true →
      Orchestrator.determine_session_status o sid now = (s, o)) ∧
    (s.isTerminal = false →
      (∀ start, alookup o.session_start_times sid = some start →
        (o.config.session_timeout_secs ≤ now - start →
          Orchestrator.determine_session_status o sid now
            = (SessionStatus.TimedOut,
              { o with
                session_statuses :=
                  ains o.session_statuses sid SessionStatus.TimedOut })) ∧
        (¬ o.config.session_timeout_secs ≤ now - start →
          Orchestrator.determine_session_status o sid now = (s, o))) ∧
      (alookup o.session_start_times sid = none →
        Orchestrator.determine_session_status o sid now = (s, o))) ∧
    (o.config.session_timeout_secs = 0 → s = SessionStatus.Running →
      (alookup o.session_start_times sid).isSome = true →
      (Orchestrator.determine_session_status o sid now).1
        = SessionStatus.TimedOut) := by
  unfold Orchestrator.determine_session_status
  rw [hs]
  dsimp only
  refine ⟨?_, ?_, ?_⟩
  · intro ht
    rw [if_pos ht]
  · intro hf
    rw [if_neg (by simp [hf])]
    unfold Orchestrator.determineTimeout
    constructor
    · intro start hst
      rw [hst]
      constructor
      · intro hto
        dsimp only
        rw [if_pos hto]
      · intro hto
        dsimp only
        rw [if_neg hto]
        rfl
    · intro hst
      rw [hst]
      rfl
  · intro h0 hrun hsome
    obtain ⟨start, hst⟩ := Option.isSome_iff_exists.mp hsome
    have hterm : s.isTerminal = false := by
      rw [hrun]
      rfl
    rw [if_neg (by simp [hterm])]
    unfold Orchestrator.determineTimeout
    rw [hst]
    dsimp only
    rw [if_pos (by rw [h0]; exact Nat.zero_le _)]

theorem claim_C6_witness :
    (SessionStatus.Running.isTerminal = true →
      Orchestrator.determine_session_status
        ⟨⟨4, 0, 30, 1, 5⟩, [("s1", ⟨"s1", "SPEC-001", Phase.Spec⟩)],
         [("s1", SessionStatus.Running)], [("s1", 0)],
         DependencyGraph.new, []⟩ "s1" 5
        = (SessionStatus.Running,
           ⟨⟨4, 0, 30, 1, 5⟩, [("s1", ⟨"s1", "SPEC-001", Phase.Spec⟩)],
            [("s1", SessionStatus.Running)], [("s1", 0)],
            DependencyGraph.new, []⟩)) ∧
    (SessionStatus.Running.isTerminal = false →
      (∀ start, alookup [("s1", (0 : Nat))] "s1" = some start →
        ((0 : Nat) ≤ 5 - start →
          Orchestrator.determine_session_status
            ⟨⟨4, 0, 30, 1, 5⟩, [("s1", ⟨"s1", "SPEC-001", Phase.Spec⟩)],
             [("s1", SessionStatus.Running)], [("s1", 0)],
             DependencyGraph.new, []⟩ "s1" 5
            = (SessionStatus.TimedOut,
              { (⟨⟨4, 0, 30, 1, 5⟩,
                  [("s1", ⟨"s1", "SPEC-001", Phase.Spec⟩)],
                  [("s1", SessionStatus.Running)], [("s1", 0)],
                  DependencyGraph.new, []⟩ : Orchestrator) with
                session_statuses :=
                  ains [("s1", SessionStatus.Running)] "s1"
                    SessionStatus.TimedOut })) ∧
        (¬ (0 : Nat) ≤ 5 - start →
          Orchestrator.determine_session_status
            ⟨⟨4, 0, 30, 1, 5⟩, [("s1", ⟨"s1", "SPEC-001", Phase.Spec⟩)],
             [("s1", SessionStatus.Running)], [("s1", 0)],
             DependencyGraph.new, []⟩ "s1" 5
            = (SessionStatus.Running,
               ⟨⟨4, 0, 30, 1, 5⟩,
                [("s1", ⟨"s1", "SPEC-001", Phase.Spec⟩)],
                [("s1", SessionStatus.Running)], [("s1", 0)],
                DependencyGraph.new, []⟩))) ∧
      (alookup [("s1", (0 : Nat))] "s1" = none →
        Orchestrator.determine_session_status
          ⟨⟨4, 0, 30, 1, 5⟩, [("s1", ⟨"s1", "SPEC-001", Phase.Spec⟩)],
           [("s1", SessionStatus.Running)], [("s1", 0)],
           DependencyGraph.new, []⟩ "s1" 5
          = (SessionStatus.Running,
             ⟨⟨4, 0, 30, 1, 5⟩,
              [("s1", ⟨"s1", "SPEC-001", Phase.Spec⟩)],
              [("s1", SessionStatus.Running)], [("s1", 0)],
              DependencyGraph.new, []⟩))) ∧
    ((0 : Nat) = 0 → SessionStatus.Running = SessionStatus.Running →
      (alookup [("s1", (0 : Nat))] "s1").isSome = true →
      (Orchestrator.determine_session_status
        ⟨⟨4, 0, 30, 1, 5⟩, [("s1", ⟨"s1", "SPEC-001", Phase.Spec⟩)],
         [("s1", SessionStatus.Running)], [("s1", 0)],
         DependencyGraph.new, []⟩ "s1" 5).1 = SessionStatus.TimedOut) :=
  claim_C6_determine_session_status (by decide)

/-- C7: saving an `OrchestratorState` with `save_state` and loading it
back with `restore_state` from the same path returns the original state:
the JSON save-then-restore round trip is the identity. -/
theorem claim_C7_state_roundtrip (fs : FileSystem) (s : OrchestratorState)
    (state_file : Option String) :
    restore_state (save_state fs s state_file) state_file
      = Except.ok s := by
  simp [save_state, restore_state, alookup_ains_self,
    DependencyGraph.decodeState_encodeState]

theorem next_phase_std {w : Workflow} (hstd : w.phases = Phase.all)
    (hcp : w.can_proceed = true) {t : Phase}
    (hnext : Phase.next w.current_phase = some t) :
    w.next_phase = Except.ok { w with current_phase := t } := by
  unfold Workflow.next_phase
  rw [if_neg (by simp [hcp])]
  rw [hstd]
  cases hc : w.current_phase <;>
    rw [hc] at hnext <;>
    simp only [Phase.next, Option.some.injEq, reduceCtorEq] at hnext <;>
    subst hnext <;>
    rfl

/-- C8 (corrected): `can_transition from to` holds exactly when `to` is
the immediate successor of `from` or `from = to`; and for a workflow
whose phase list is the standard `Phase.all`, `transition` is a no-op
`Ok` when `from = to`, fails on an invalid edge or an unapproved current
phase, and otherwise advances `current_phase` to `to`.  On a workflow
with a custom phase list the advance goes to the successor in that list
instead of `to` (`claim_C8_counterexample`). -/
theorem claim_C8_transition {w : Workflow} {toP : Phase}
    (hstd : w.phases = Phase.all) :
    (∀ f t, can_transition f t = true ↔ (Phase.next f = some t ∨ f = t)) ∧
    (w.current_phase = toP → transition w toP = Except.ok w) ∧
    (can_transition w.current_phase toP = false →
      transition w toP
        = Except.error (ApplicationError.WorkflowTransition
            "invalid phase transition")) ∧
    (can_transition w.current_phase toP = true → w.current_phase ≠ toP →
      w.is_approved w.current_phase = false →
      transition w toP
        = Except.error (ApplicationError.WorkflowTransition
            "phase not yet approved")) ∧
    (can_transition w.current_phase toP = true → w.current_phase ≠ toP →
      w.is_approved w.current_phase = true →
      transition w toP = Except.ok { w with current_phase := toP }) := by
  refine ⟨by decide, ?_, ?_, ?_, ?_⟩
  · intro heq
    have hct : can_transition w.current_phase toP = true := by
      rw [heq]
      have hrefl : ∀ t : Phase, can_transition t t = true := by decide
      exact hrefl toP
    unfold transition
    rw [if_neg (by simp [hct]), if_pos heq]
  · intro hcf
    unfold transition
    rw [if_pos (by simp [hcf])]
  · intro hct hne happ
    unfold transition
    rw [if_neg (by simp [hct]), if_neg hne, if_pos (by simp [happ])]
  · intro hct hne happ
    unfold transition
    rw [if_neg (by simp [hct]), if_neg hne, if_neg (by simp [happ])]
    have hnext : Phase.next w.current_phase = some toP := by
      have himp : ∀ f t, can_transition f t = true → f ≠ t →
          Phase.next f = some t := by decide
      exact himp _ _ hct hne
    rw [next_phase_std hstd happ hnext]

theorem claim_C8_witness :
    (∀ f t, can_transition f t = true ↔ (Phase.next f = some t ∨ f = t)) ∧
    ((Workflow.new "n" "i").current_phase = Phase.Tasks →
      transition (Workflow.new "n" "i") Phase.Tasks
        = Except.ok (Workflow.new "n" "i")) ∧
    (can_transition (Workflow.new "n" "i").current_phase Phase.Tasks
        = false →
      transition (Workflow.new "n" "i") Phase.Tasks
        = Except.error (ApplicationError.WorkflowTransition
            "invalid phase transition")) ∧
    (can_transition (Workflow.new "n" "i").current_phase Phase.Tasks
        = true →
      (Workflow.new "n" "i").current_phase ≠ Phase.Tasks →
      (Workflow.new "n" "i").is_approved
          (Workflow.new "n" "i").current_phase = false →
      transition (Workflow.new "n" "i") Phase.Tasks
        = Except.error (ApplicationError.WorkflowTransition
            "phase not yet approved")) ∧
    (can_transition (Workflow.new "n" "i").current_phase Phase.Tasks
        = true →
      (Workflow.new "n" "i").current_phase ≠ Phase.Tasks →
      (Workflow.new "n" "i").is_approved
          (Workflow.new "n" "i").current_phase = true →
      transition (Workflow.new "n" "i") Phase.Tasks
        = Except.ok { Workflow.new "n" "i" with
            current_phase := Phase.Tasks }) :=
  claim_C8_transition rfl

theorem claim_C8_counterexample :
    transition ⟨"w", "w", [Phase.Spec, Phase.Review], Phase.Spec,
        [(Phase.Spec, true)]⟩ Phase.Tasks
      = Except.ok ⟨"w", "w", [Phase.Spec, Phase.Review], Phase.Review,
          [(Phase.Spec, true)]⟩ ∧
    (⟨"w", "w", [Phase.Spec, Phase.Review], Phase.Review,
        [(Phase.Spec, true)]⟩ : Workflow).current_phase ≠ Phase.Tasks := by
  refine ⟨rfl, by decide⟩

/-- C9 (corrected): the monitor never emits `SessionStarted` at all: the
variant is declared but never constructed, so no run of the monitor loop
contains it.  In particular terminal events are emitted without any
preceding `SessionStarted` (`claim_C9_counterexample`), refuting the
claimed ordering. -/
theorem claim_C9_no_session_started (o : Orchestrator) (ticks : List Nat)
    (sid spec : String) :
    MonitorEvent.SessionStarted sid spec
      ∉ Orchestrator.monitor_run o ticks :=
  DependencyGraph.monitor_run_no_started sid spec ticks o

theorem claim_C9_counterexample :
    Orchestrator.monitor_run
        ⟨⟨4, 0, 30, 1, 5⟩, [("s1", ⟨"s1", "SPEC-001", Phase.Spec⟩)],
         [("s1", SessionStatus.Running)], [("s1", 0)],
         DependencyGraph.new, []⟩ [5]
      = [MonitorEvent.SessionTimedOut "s1" 0,
         MonitorEvent.ProgressUpdate 1 1 100] ∧
    (∀ spec : String, MonitorEvent.SessionStarted "s1" spec
      ∉ [MonitorEvent.SessionTimedOut "s1" 0,
         MonitorEvent.ProgressUpdate 1 1 100]) := by
  refine ⟨rfl, by intro spec; simp⟩

/-- C10: when `register_spec` succeeds, the dependency graph keeps the
empty string as a node (the dummy edge `(spec_id, "")` is removed but the
node created for `""` is not), so `topological_sort` and
`get_parallel_groups` include `""` in their output, while the
`start_all_sessions` loop body skips `""` whenever no session has an
empty `spec_id`. -/
theorem claim_C10_register_spec_empty_node {o : Orchestrator}
    {spec : SpecId} {phase : Phase} {sid sid' : String} {o' : Orchestrator}
    (hinv : GraphInv o.dependency_graph)
    (hsucc : Orchestrator.register_spec o spec phase sid
      = (Except.ok sid', o')) :
    "" ∈ o'.dependency_graph.gkeys ∧
    (∃ l, o'.dependency_graph.topological_sort = Except.ok l ∧ "" ∈ l) ∧
    (∃ ws, o'.dependency_graph.get_parallel_groups = Except.ok ws ∧
      "" ∈ ws.flatten) ∧
    (∀ (now : Nat) (rest : List SpecId) (acc : List String)
      (o2 : Orchestrator), (∀ p ∈ o2.sessions, p.2.spec_id ≠ "") →
      Orchestrator.startAllAux now ("" :: rest) o2 acc
        = Orchestrator.startAllAux now rest o2 acc) := by
  unfold Orchestrator.register_spec at hsucc
  dsimp only at hsucc
  rcases h1 : Orchestrator.add_session o ⟨sid, spec, phase⟩ with ⟨r1, o1⟩
  rw [h1] at hsucc
  have hg1 : o1.dependency_graph = o.dependency_graph := by
    have : o1 = (Orchestrator.add_session o ⟨sid, spec, phase⟩).2 := by
      rw [h1]
    rw [this]
    unfold Orchestrator.add_session
    split <;> rfl
  cases r1 with
  | error e => simp at hsucc
  | ok s1 =>
    dsimp only at hsucc
    rcases h2 : o1.dependency_graph.add_dependency spec "" with ⟨r2, g'⟩
    rw [h2] at hsucc
    cases r2 with
    | error e => simp at hsucc
    | ok u =>
      dsimp only at hsucc
      rw [Prod.mk.injEq] at hsucc
      obtain ⟨hsid, ho'⟩ := hsucc
      rw [hg1] at h2
      have hshape : g'
          = ⟨DependencyGraph.ensureKey
              (DependencyGraph.entryPush o.dependency_graph.dependencies
                spec "") ""⟩ := by
        unfold DependencyGraph.add_dependency at h2
        dsimp only at h2
        cases hdc : DependencyGraph.detect_cycle
            ⟨DependencyGraph.ensureKey
              (DependencyGraph.entryPush o.dependency_graph.dependencies
                spec "") ""⟩ with
        | some cyc =>
          rw [hdc] at h2
          simp at h2
        | none =>
          rw [hdc] at h2
          rw [Prod.mk.injEq] at h2
          exact h2.2.symm
      have hGadd : GraphInv g' := by
        have h := DependencyGraph.graphInv_add hinv spec ""
        rw [h2] at h
        exact h
      have hGfin : GraphInv (g'.remove_dependency spec "") :=
        DependencyGraph.graphInv_remove hGadd spec ""
      have hmem : "" ∈ (g'.remove_dependency spec "").gkeys := by
        show "" ∈ akeys (DependencyGraph.retainNe g'.dependencies spec "")
        rw [DependencyGraph.retainNe_keys, hshape]
        exact DependencyGraph.b_mem_keys_g2 o.dependency_graph spec ""
      have hgraph : o'.dependency_graph = g'.remove_dependency spec "" := by
        rw [← ho']
      obtain ⟨hnd, hcl, hnsc⟩ := hGfin
      have hnc := DependencyGraph.detect_cycle_none_of_no_semCycle hnsc
      refine ⟨?_, ?_, ?_, ?_⟩
      · rw [hgraph]
        exact hmem
      · rw [hgraph]
        obtain ⟨l, hl, hperm, _⟩ :=
          DependencyGraph.topological_sort_spec hnd hcl hnc
        exact ⟨l, hl, hperm.mem_iff.mpr hmem⟩
      · rw [hgraph]
        obtain ⟨ws, hw, hperm, _⟩ :=
          DependencyGraph.get_parallel_groups_spec hnd hcl hnc
        exact ⟨ws, hw, hperm.mem_iff.mpr hmem⟩
      · intro now rest acc o2 hno
        have hfind : o2.sessions.find? (fun p => p.2.spec_id = "")
            = none := by
          rw [List.find?_eq_none]
          intro p hp
          simpa using hno p hp
        simp only [Orchestrator.startAllAux, hfind]

theorem claim_C10_witness :
    "" ∈ (⟨⟨4, 300, 30, 1, 5⟩,
        [("sid1", ⟨"sid1", "S", Phase.Spec⟩)],
        [("sid1", SessionStatus.Pending)], [],
        ⟨[("S", []), ("", [])]⟩, []⟩
          : Orchestrator).dependency_graph.gkeys ∧
    (∃ l, (⟨⟨4, 300, 30, 1, 5⟩,
        [("sid1", ⟨"sid1", "S", Phase.Spec⟩)],
        [("sid1", SessionStatus.Pending)], [],
        ⟨[("S", []), ("", [])]⟩, []⟩
          : Orchestrator).dependency_graph.topological_sort
        = Except.ok l ∧ "" ∈ l) ∧
    (∃ ws, (⟨⟨4, 300, 30, 1, 5⟩,
        [("sid1", ⟨"sid1", "S", Phase.Spec⟩)],
        [("sid1", SessionStatus.Pending)], [],
        ⟨[("S", []), ("", [])]⟩, []⟩
          : Orchestrator).dependency_graph.get_parallel_groups
        = Except.ok ws ∧ "" ∈ ws.flatten) ∧
    (∀ (now : Nat) (rest : List SpecId) (acc : List String)
      (o2 : Orchestrator), (∀ p ∈ o2.sessions, p.2.spec_id ≠ "") →
      Orchestrator.startAllAux now ("" :: rest) o2 acc
        = Orchestrator.startAllAux now rest o2 acc) :=
  claim_C10_register_spec_empty_node DependencyGraph.graphInv_new
    (show Orchestrator.register_spec
        (Orchestrator.newO ⟨4, 300, 30, 1, 5⟩) "S" Phase.Spec "sid1"
      = (Except.ok "sid1",
         ⟨⟨4, 300, 30, 1, 5⟩,
          [("sid1", ⟨"sid1", "S", Phase.Spec⟩)],
          [("sid1", SessionStatus.Pending)], [],
          ⟨[("S", []), ("", [])]⟩, []⟩) by
      simp +decide [Orchestrator.newO, Orchestrator.register_spec,
        Orchestrator.add_session, DependencyGraph.remove_dependency, ains,
        DependencyGraph.new, DependencyGraph.add_dependency,
        DependencyGraph.detect_cycle, DependencyGraph.detectCycleAux,
        DependencyGraph.dfs_cycle_detection, DependencyGraph.dfsDeps,
        DependencyGraph.dfsFuel, DependencyGraph.nodeUniverse,
        DependencyGraph.gkeys, akeys, DependencyGraph.depsOf, alookup,
        insertSet, DependencyGraph.entryPush, DependencyGraph.ensureKey,
        DependencyGraph.retainNe, aupdate])

end AAD